import Mathlib

/-!
Verification of the csvd-rust repository: a complex singular value
decomposition (Businger–Golub, ACM Algorithm 358, `src/csvd.rs`) and a
pseudo-inverse builder (`find_pinv_from_svd`, `src/lib.rs`).

The shallow embedding models `f32` values as exact rationals.  The `sqrt`
function of `libm` is a parameter of the model (`sq : ℚ → ℚ`), `powf (x, 2.0)`
is squaring, and the numeric literal constants are taken at their written
decimal values.  Rust slice indexing panics when out of bounds and usize
subtraction panics (in debug builds) on underflow; both are modelled with a
checked-access `Except` monad.  The `loop` of the QR diagonalization phase has
no bound in the source, so the model takes a fuel argument; running out of
fuel is the distinct outcome `CErr.fuelOut`.
-/

namespace Csvd

/-- Complex number with rational components, modelling `num_complex::Complex32`. -/
structure Cx where
  re : ℚ
  im : ℚ
  deriving DecidableEq, Repr

instance : Add Cx := ⟨fun x y => ⟨x.re + y.re, x.im + y.im⟩⟩

instance : Sub Cx := ⟨fun x y => ⟨x.re - y.re, x.im - y.im⟩⟩

instance : Neg Cx := ⟨fun x => ⟨-x.re, -x.im⟩⟩

instance : Mul Cx := ⟨fun x y => ⟨x.re * y.re - x.im * y.im, x.re * y.im + x.im * y.re⟩⟩

/-- Complex conjugate, `Complex32::conj`. -/
def Cx.conj (x : Cx) : Cx := ⟨x.re, -x.im⟩

theorem Cx.ext' {x y : Cx} (h1 : x.re = y.re) (h2 : x.im = y.im) : x = y := by
  cases x; cases y; simp_all

@[simp] theorem Cx.add_re (x y : Cx) : (x + y).re = x.re + y.re := rfl

@[simp] theorem Cx.add_im (x y : Cx) : (x + y).im = x.im + y.im := rfl

instance : Zero Cx := ⟨⟨0, 0⟩⟩

@[simp] theorem Cx.zero_re : (0 : Cx).re = 0 := rfl

@[simp] theorem Cx.zero_im : (0 : Cx).im = 0 := rfl

theorem Cx.zero_def : (0 : Cx) = ⟨0, 0⟩ := rfl

instance : AddCommMonoid Cx where
  add_assoc a b c := Cx.ext' (by simp; ring) (by simp; ring)
  zero_add a := Cx.ext' (by simp) (by simp)
  add_zero a := Cx.ext' (by simp) (by simp)
  add_comm a b := Cx.ext' (by simp; ring) (by simp; ring)
  nsmul := nsmulRec

/-- Scalar multiplication `Complex32 * f32`. -/
def Cx.scale (x : Cx) (r : ℚ) : Cx := ⟨x.re * r, x.im * r⟩

/-- Scalar division `Complex32 / f32` (componentwise). -/
def Cx.divR (x : Cx) (r : ℚ) : Cx := ⟨x.re / r, x.im / r⟩

/-- Failure modes of a run: an out-of-bounds slice index (Rust panic), a usize
subtraction underflow (Rust debug panic), fuel exhaustion of the model of the
unbounded QR loop, and the `Err(&str)` return of `csvd` itself. -/
inductive CErr where
  | oob
  | underflow
  | fuelOut
  | fatal (msg : String)
  deriving DecidableEq, Repr

/-- Computations that can fail. -/
abbrev Comp (α : Type) : Type := Except CErr α

/-- Checked slice read `l[i]`. -/
def getE {α : Type} (l : List α) (i : Nat) : Comp α :=
  if h : i < l.length then pure l[i] else Except.error CErr.oob

/-- Checked slice write `l[i] = x`. -/
def setE {α : Type} (l : List α) (i : Nat) (x : α) : Comp (List α) :=
  if i < l.length then pure (l.set i x) else Except.error CErr.oob

/-- Checked usize subtraction. -/
def csub (a b : Nat) : Comp Nat :=
  if b ≤ a then pure (a - b) else Except.error CErr.underflow

/-- Monadic left fold, used to model `for` loops. -/
def foldME {α σ : Type} (f : α → σ → Comp σ) : List α → σ → Comp σ
  | [], st => pure st
  | x :: xs, st => do
    let st' ← f x st
    foldME f xs st'

/-- The mutable state of `csvd`: the caller buffers `a`, `s`, `u`, `v`, the
fixed work arrays `b`, `c`, `t` (length `NBIG`), and the negligibility
threshold `eps`. -/
structure St where
  a : List Cx
  s : List ℚ
  u : List Cx
  v : List Cx
  b : List ℚ
  c : List ℚ
  t : List ℚ
  eps : ℚ
  deriving DecidableEq, Repr

/-- `const NBIG: usize = 150;` -/
def NBIG : Nat := 150

/-- `let tol = 1.5 * powf(10.0, -31.0);` -/
def tol : ℚ := 1.5 * (1 / 10 ^ 31)

/-- `let eta: f32 = 1.1920929 * powf(10.0, -7.0);` -/
def eta : ℚ := 1.1920929 * (1 / 10 ^ 7)

/-- `cabs`: complex magnitude `sqrt(re^2 + im^2)`, with `sq` the model of
`libm` square root. -/
def cabs (sq : ℚ → ℚ) (x : Cx) : ℚ := sq (x.re ^ 2 + x.im ^ 2)

/-- Column norm accumulation `z = z + powf(a[i*m+k].re, 2) + powf(a[i*m+k].im, 2)`
for `i in k..m` (csvd.rs lines 138-141). -/
def zcol (a : List Cx) (m k : Nat) : Comp ℚ :=
  foldME (fun i z => do
    let x ← getE a (i * m + k)
    pure (z + x.re ^ 2 + x.im ^ 2)) (List.range' k (m - k)) 0

/-- Row norm accumulation for `j in k1..n` (csvd.rs lines 190-193). -/
def zrow (a : List Cx) (m n k k1 : Nat) : Comp ℚ :=
  foldME (fun j z => do
    let x ← getE a (k * m + j)
    pure (z + x.re ^ 2 + x.im ^ 2)) (List.range' k1 (n - k1)) 0

/-- One step `k` of the column Householder elimination
(csvd.rs lines 134-182): eliminate `A(i,k)` for `i = k+1..m`. -/
def colStep (sq : ℚ → ℚ) (m n p k : Nat) (st : St) : Comp St := do
  let k1 := k + 1
  let z ← zcol st.a m k
  let b' ← setE st.b k 0
  let st := { st with b := b' }
  if tol < z then
    let z := sq z
    let b' ← setE st.b k z
    let st := { st with b := b' }
    let akk ← getE st.a (k * m + k)
    let w := cabs sq akk
    let q : Cx := if w = 0 then ⟨1, 0⟩ else akk.divR w
    let a' ← setE st.a (k * m + k) (q.scale (z + w))
    let st := { st with a := a' }
    if k ≠ n - 1 + p then
      let st ← foldME (fun j st => do
        let q ← foldME (fun i (q : Cx) => do
          let aik ← getE st.a (i * m + k)
          let aij ← getE st.a (i * m + j)
          pure (q + aik.conj * aij)) (List.range' k (m - k)) ⟨0, 0⟩
        let q := q.divR (z * (z + w))
        foldME (fun i st => do
          let aij ← getE st.a (i * m + j)
          let aik ← getE st.a (i * m + k)
          let a' ← setE st.a (i * m + j) (aij - q * aik)
          pure { st with a := a' }) (List.range' k (m - k)) st) (List.range' k1 (n + p - k1)) st
      let akk ← getE st.a (k * m + k)
      let q := (-akk.conj).divR (cabs sq akk)
      foldME (fun j st => do
        let akj ← getE st.a (k * m + j)
        let a' ← setE st.a (k * m + j) (q * akj)
        pure { st with a := a' }) (List.range' k1 (n + p - k1)) st
    else
      pure st
  else
    pure st

/-- One step `k` of the row Householder elimination (csvd.rs lines 190-229):
eliminate `A(k,j)` for `j = k+2..n`; only reached when `k ≠ n-1`. -/
def rowStep (sq : ℚ → ℚ) (m n k : Nat) (st : St) : Comp St := do
  let k1 := k + 1
  let z ← zrow st.a m n k k1
  let c' ← setE st.c k1 0
  let st := { st with c := c' }
  if tol < z then
    let z := sq z
    let c' ← setE st.c k1 z
    let st := { st with c := c' }
    let ak1 ← getE st.a (k * m + k1)
    let w := cabs sq ak1
    let q : Cx := if w = 0 then ⟨1, 0⟩ else ak1.divR w
    let a' ← setE st.a (k * m + k1) (q.scale (z + w))
    let st := { st with a := a' }
    let st ← foldME (fun i st => do
      let q ← foldME (fun j (q : Cx) => do
        let akj ← getE st.a (k * m + j)
        let aij ← getE st.a (i * m + j)
        pure (q + akj.conj * aij)) (List.range' k1 (n - k1)) ⟨0, 0⟩
      let q := q.divR (z * (z + w))
      foldME (fun j st => do
        let aij ← getE st.a (i * m + j)
        let akj ← getE st.a (k * m + j)
        let a' ← setE st.a (i * m + j) (aij - q * akj)
        pure { st with a := a' }) (List.range' k1 (n - k1)) st) (List.range' k1 (m - k1)) st
    let ak1 ← getE st.a (k * m + k1)
    let q := (-ak1.conj).divR (cabs sq ak1)
    foldME (fun i st => do
      let x ← getE st.a (i * m + k1)
      let a' ← setE st.a (i * m + k1) (x * q)
      pure { st with a := a' }) (List.range' k1 (m - k1)) st
  else
    pure st

/-- Phase 1, Householder bidiagonalization (csvd.rs lines 125-230).  The
`break` at `k == n-1` happens at the final index of the loop, after the
column elimination and before the row elimination. -/
def householder (sq : ℚ → ℚ) (m n p : Nat) (st : St) : Comp St := do
  let c' ← setE st.c 1 0
  let st := { st with c := c' }
  foldME (fun k st => do
    let st ← colStep sq m n p k st
    if k = n - 1 then pure st else rowStep sq m n k st) (List.range n) st

/-- Phase 2 setup (csvd.rs lines 232-263): copy `B` into `S` and `C` into `T`,
compute the negligibility threshold `eps`, and initialize `U` and `V` to
truncated identities. -/
def phase2Init (m n nu nv : Nat) (st : St) : Comp St := do
  let st := { st with t := List.replicate NBIG (0 : ℚ), eps := 0 }
  let st ← foldME (fun k st => do
    let bk ← getE st.b k
    let ck ← getE st.c k
    let s' ← setE st.s k bk
    let t' ← setE st.t k ck
    pure { st with s := s', t := t', eps := max st.eps (bk + ck) }) (List.range n) st
  let st := { st with eps := st.eps * eta }
  let st ← if 0 < nu then
      foldME (fun j st => do
        let st ← foldME (fun i st => do
          let u' ← setE st.u (i * m + j) (⟨0, 0⟩ : Cx)
          pure { st with u := u' }) (List.range m) st
        let u' ← setE st.u (j * m + j) (⟨1, 0⟩ : Cx)
        pure { st with u := u' }) (List.range nu) st
    else pure st
  if 0 < nv then
    foldME (fun j st => do
      let st ← foldME (fun i st => do
        let v' ← setE st.v (i * n + j) (⟨0, 0⟩ : Cx)
        pure { st with v := v' }) (List.range n) st
      let v' ← setE st.v (j * n + j) (⟨1, 0⟩ : Cx)
      pure { st with v := v' }) (List.range nv) st
  else pure st

/-- The split-test scan (csvd.rs lines 298-310): scan `l = k, k-1, ...`
downwards, stopping when `|T[l]| <= eps` or when `|S[l-1]| <= eps`; the index
`l - 1` is a usize subtraction, which underflows when `l = 0` is reached with
the first test false. -/
def splitScan (s t : List ℚ) (eps : ℚ) : Nat → Comp Nat
  | 0 => do
    let tl ← getE t 0
    if |tl| ≤ eps then pure 0
    else do
      let l' ← csub 0 1
      let sl ← getE s l'
      if |sl| ≤ eps then pure 0 else pure 0
  | l + 1 => do
    let tl ← getE t (l + 1)
    if |tl| ≤ eps then pure (l + 1)
    else do
      let sl ← getE s l
      if |sl| ≤ eps then pure (l + 1)
      else splitScan s t eps l

/-- The cancellation sweep body (csvd.rs lines 319-355), for `i in l..=k`,
with running rotation `(cs, sn)` and an early `break` when `|f| <= eps`. -/
def cancelInner (sq : ℚ → ℚ) (nu m n : Nat) (eps : ℚ) (l1 : Nat) :
    List Nat → ℚ → ℚ → St → Comp St
  | [], _, _, st => pure st
  | i :: rest, cs, sn, st => do
    let ti ← getE st.t i
    let f := sn * ti
    let t' ← setE st.t i (cs * ti)
    let st := { st with t := t' }
    if |f| ≤ eps then pure st
    else do
      let h ← getE st.s i
      let w := sq (f * f + h * h)
      let s' ← setE st.s i w
      let st := { st with s := s' }
      let cs := h / w
      let sn := -f / w
      let st ← if 0 < nu then
          foldME (fun j st => do
            let x ← getE st.u (j * m + l1)
            let y ← getE st.u (j * m + i)
            let u' ← setE st.u (j * m + l1) (⟨x.re * cs + y.re * sn, 0⟩ : Cx)
            let u'' ← setE u' (j * m + i) (⟨y.re * cs - x.re * sn, 0⟩ : Cx)
            pure { st with u := u'' }) (List.range n) st
        else pure st
      cancelInner sq nu m n eps l1 rest cs sn st

/-- The implicit-shift QR sweep (csvd.rs lines 379-432), for `i in l1..=k`.
The temporaries clobbered by the `U`/`V` rotation loops in the source (`x`,
`w`, `y`) are reassigned there before their next read, so fresh local names
preserve the data flow.  Returns the final `(f, x)` used after the sweep. -/
def qrSweep (sq : ℚ → ℚ) (nu nv m n : Nat) :
    List Nat → ℚ → ℚ → ℚ → ℚ → St → Comp (St × ℚ × ℚ)
  | [], _, _, f, x, st => pure (st, f, x)
  | i :: rest, cs, sn, f, x, st => do
    let g ← getE st.t i
    let y ← getE st.s i
    let h := sn * g
    let g := cs * g
    let w := sq (h * h + f * f)
    let t' ← setE st.t (i - 1) w
    let st := { st with t := t' }
    let cs := f / w
    let sn := h / w
    let f := x * cs + g * sn
    let g := g * cs - x * sn
    let h := y * sn
    let y := y * cs
    let st ← if 0 < nv then
        foldME (fun j st => do
          let xv ← getE st.v (j * n + i - 1)
          let wv ← getE st.v (j * n + i)
          let v' ← setE st.v (j * n + i - 1) (⟨xv.re * cs + wv.re * sn, 0⟩ : Cx)
          let v'' ← setE v' (j * n + i) (⟨wv.re * cs - xv.re * sn, 0⟩ : Cx)
          pure { st with v := v'' }) (List.range n) st
      else pure st
    let w := sq (h * h + f * f)
    let s' ← setE st.s (i - 1) w
    let st := { st with s := s' }
    let cs := f / w
    let sn := h / w
    let f := cs * g + sn * y
    let x := cs * y - sn * g
    let st ← if 0 < nu then
        foldME (fun j st => do
          let yu ← getE st.u (j * m + i - 1)
          let wu ← getE st.u (j * m + i)
          let u' ← setE st.u (j * m + i - 1) (⟨yu.re * cs + wu.re * sn, 0⟩ : Cx)
          let u'' ← setE u' (j * m + i) (⟨wu.re * cs - yu.re * sn, 0⟩ : Cx)
          pure { st with u := u'' }) (List.range n) st
      else pure st
    qrSweep sq nu nv m n rest cs sn f x st

/-- The convergence test, origin shift, QR sweep and write-back of one
iteration of the QR inner loop (csvd.rs lines 358-437), continuing with
`rec` (the next loop iteration) in the not-yet-converged case. -/
def qrConverge (sq : ℚ → ℚ) (nu nv m n k l : Nat) (rec : St → Comp (St × ℚ))
    (st : St) : Comp (St × ℚ) := do
  let w ← getE st.s k
  if l = k then pure (st, w)
  else do
    let x ← getE st.s l
    let y ← getE st.s (k - 1)
    let g ← getE st.t (k - 1)
    let h ← getE st.t k
    let f := ((y - w) * (y + w) + (g - h) * (g + h)) / (2 * h * y)
    let g := sq (f * f + 1)
    let g := if f < 0 then -g else g
    let f := ((x - w) * (x + w) + (y / (f + g) - h) * h) / x
    let (st, f, x) ← qrSweep sq nu nv m n (List.range' (l + 1) (k - l)) 1 1 f x st
    let t' ← setE st.t l 0
    let t'' ← setE t' k f
    let s' ← setE st.s k x
    rec { st with t := t'', s := s' }

/-- The unbounded inner loop of the QR diagonalization for one index `k`
(csvd.rs lines 297-438): split test, optional cancellation, convergence test,
origin shift and QR sweep.  Returns the state together with the converged
`w = S[k]`.  `fuel` bounds the number of iterations in the model. -/
def qrInner (sq : ℚ → ℚ) (nu nv m n : Nat) : Nat → Nat → St → Comp (St × ℚ)
  | 0, _, _ => Except.error CErr.fuelOut
  | fu + 1, k, st => do
    let l ← splitScan st.s st.t st.eps k
    let tl ← getE st.t l
    let st ←
      if |tl| ≤ st.eps then pure st
      else do
        let l1 ← csub l 1
        let sl ← getE st.s l1
        if |sl| ≤ st.eps then
          cancelInner sq nu m n st.eps l1 (List.range' l (k + 1 - l)) 0 1 st
        else pure st
    qrConverge sq nu nv m n k l (qrInner sq nu nv m n fu k) st

/-- Phase 2, QR diagonalization (csvd.rs lines 292-452): for `kk in 0..n`,
run the inner loop on `k = n-1-kk`, then normalize the sign of the captured
singular value. -/
def qrPhase (sq : ℚ → ℚ) (nu nv m n fuel : Nat) (st : St) : Comp St :=
  foldME (fun kk st => do
    let k := n - 1 - kk
    let (st, w) ← qrInner sq nu nv m n fuel k st
    if w < 0 then do
      let s' ← setE st.s k (-w)
      let st := { st with s := s' }
      if 0 < nv then
        foldME (fun j st => do
          let vjk ← getE st.v (j * n + k)
          let v' ← setE st.v (j * n + k) (-vjk)
          pure { st with v := v' }) (List.range n) st
      else pure st
    else pure st) (List.range n) st

/-- The selection of `g = max S[k..n)` with its index `j` (csvd.rs
lines 458-466); `g` starts at `-1.0` and `j` at `k`. -/
def argMax (s : List ℚ) (k n : Nat) : Comp (ℚ × Nat) :=
  foldME (fun i (gj : ℚ × Nat) => do
    let si ← getE s i
    if gj.1 < si then pure (si, i) else pure gj) (List.range' k (n - k)) (-1, k)

/-- Phase 3a, selection sort of the singular values into descending order,
swapping the matching columns of `U` and `V` (csvd.rs lines 456-499). -/
def sortPhase (nu nv m n : Nat) (st : St) : Comp St :=
  foldME (fun k st => do
    let gj ← argMax st.s k n
    let g := gj.1
    let j := gj.2
    if j ≠ k then do
      let sk ← getE st.s k
      let s' ← setE st.s j sk
      let s'' ← setE s' k g
      let st := { st with s := s'' }
      let st ← if 0 < nv then
          foldME (fun i st => do
            let q ← getE st.v (i * n + j)
            let vik ← getE st.v (i * n + k)
            let v' ← setE st.v (i * n + j) vik
            let v'' ← setE v' (i * n + k) q
            pure { st with v := v'' }) (List.range n) st
        else pure st
      if 0 < nu then
        foldME (fun i st => do
          let q ← getE st.u (i * m + j)
          let uik ← getE st.u (i * m + k)
          let u' ← setE st.u (i * m + j) uik
          let u'' ← setE u' (i * m + k) q
          pure { st with u := u'' }) (List.range n) st
      else pure st
    else pure st) (List.range n) st

/-- Phase 3b, back transformation of `U` (csvd.rs lines 502-533). -/
def backU (sq : ℚ → ℚ) (nu m n : Nat) (st : St) : Comp St :=
  if 0 < nu then
    foldME (fun kk st => do
      let k := n - 1 - kk
      let bk ← getE st.b k
      if bk ≠ 0 then do
        let akk ← getE st.a (k * m + k)
        let q := (-akk).divR (cabs sq akk)
        let st ← foldME (fun j st => do
          let ukj ← getE st.u (k * m + j)
          let u' ← setE st.u (k * m + j) (q * ukj)
          pure { st with u := u' }) (List.range nu) st
        foldME (fun j st => do
          let q ← foldME (fun i (q : Cx) => do
            let aik ← getE st.a (i * m + k)
            let uij ← getE st.u (i * m + j)
            pure (q + aik.conj * uij)) (List.range' k (m - k)) ⟨0, 0⟩
          let akk ← getE st.a (k * m + k)
          let q := q.divR (cabs sq akk * bk)
          foldME (fun i st => do
            let uij ← getE st.u (i * m + j)
            let aik ← getE st.a (i * m + k)
            let u' ← setE st.u (i * m + j) (uij - q * aik)
            pure { st with u := u' }) (List.range' k (m - k)) st) (List.range nu) st
      else pure st) (List.range n) st
  else pure st

/-- Phase 3c, back transformation of `V` (csvd.rs lines 535-565). -/
def backV (sq : ℚ → ℚ) (nv m n : Nat) (st : St) : Comp St :=
  if 0 < nv then
    if 1 < n then
      foldME (fun kk st => do
        let k := n - 1 - kk
        let k1 := k + 1
        let ck1 ← getE st.c k1
        if ck1 ≠ 0 then do
          let ak1 ← getE st.a (k * m + k1)
          let q := (-ak1.conj).divR (cabs sq ak1)
          let st ← foldME (fun j st => do
            let x ← getE st.v (k1 * n + j)
            let v' ← setE st.v (k1 * n + j) (q * x)
            pure { st with v := v' }) (List.range nv) st
          foldME (fun j st => do
            let q ← foldME (fun i (q : Cx) => do
              let aki ← getE st.a (k * m + i)
              let vij ← getE st.v (i * n + j)
              pure (q + aki * vij)) (List.range' k1 (n - k1)) ⟨0, 0⟩
            let ak1 ← getE st.a (k * m + k1)
            let q := q.divR (cabs sq ak1 * ck1)
            foldME (fun i st => do
              let vij ← getE st.v (i * n + j)
              let aki ← getE st.a (k * m + i)
              let v' ← setE st.v (i * n + j) (vij - q * aki.conj)
              pure { st with v := v' }) (List.range' k1 (n - k1)) st) (List.range nv) st
        else pure st) (List.range' 1 (n - 1)) st
    else pure st
  else pure st

/-- The model of `pub fn csvd` (csvd.rs lines 103-568).  The parameter order
matches the source: `(a, mmax, nmax, n, m, p, nu, nv, s, u, v)`; `mmax` and
`nmax` are unused by the source body.  The four precondition checks come
first; then the work arrays `b`, `c` are created zero-filled, `c[1] = 0.0` is
set, and the phases run in order. -/
def csvd (sq : ℚ → ℚ) (fuel : Nat) (a : List Cx) (mmax nmax n m p nu nv : Nat)
    (s : List ℚ) (u : List Cx) (v : List Cx) : Comp St :=
  if n < 1 then Except.error (CErr.fatal "Fatal Error = Input N < 1")
  else if NBIG < n then Except.error (CErr.fatal "Fatal Error: NBIG < N")
  else if m < 1 then Except.error (CErr.fatal "Fatal Error: M < 1")
  else if m < n then Except.error (CErr.fatal "Fatal Error: M < N")
  else do
    let st : St :=
      ⟨a, s, u, v, List.replicate NBIG 0, List.replicate NBIG 0, List.replicate NBIG 0, 0⟩
    let st ← householder sq m n p st
    let st ← phase2Init m n nu nv st
    let st ← qrPhase sq nu nv m n fuel st
    let st ← sortPhase nu nv m n st
    let st ← backU sq nu m n st
    backV sq nv m n st

/-! The pseudo-inverse builder `find_pinv_from_svd` (src/lib.rs lines 171-203).
Its loops never index out of bounds at the documented sizes, so it is
modelled with pure list operations (`List.set` and `List.getD`). -/

/-- `let eps = 0.0001;` — the fixed absolute cutoff of the reciprocal step. -/
def pinvEps : ℚ := 0.0001

/-- The reciprocal step (lib.rs lines 179-186): for `i in 0..n`, replace
`s[i]` by `1.0 / s[i]` when `s[i] > eps`, by `0.0` otherwise. -/
def pinvRecip (n : Nat) (s : List ℚ) : List ℚ :=
  (List.range n).foldl (fun s i =>
    if s.getD i 0 > pinvEps then s.set i (1 / s.getD i 0) else s.set i 0) s

/-- The padding step (lib.rs lines 189-192): `while n_ < m { s.push(0.0) }`
starting from `n_ = n`. -/
def pinvPad (m n : Nat) (s : List ℚ) : List ℚ := s ++ List.replicate (m - n) (0 : ℚ)

/-- One summand of the output loop: `v[i*n + k] * s[k] * u[j*m + k].conj()`. -/
def pinvTerm (s : List ℚ) (u v : List Cx) (m n i j k : Nat) : Cx :=
  (v.getD (i * n + k) ⟨0, 0⟩).scale (s.getD k 0) * (u.getD (j * m + k) ⟨0, 0⟩).conj

/-- The body for one `(i, j)` pair of the output loop (lib.rs lines 196-200):
zero `inv[i*n + j]`, then accumulate the summands over `k in 0..n`. -/
def pinvCell (m n : Nat) (s : List ℚ) (u v : List Cx) (i j : Nat) (inv : List Cx) : List Cx :=
  (List.range n).foldl (fun inv k =>
    inv.set (i * n + j) (inv.getD (i * n + j) ⟨0, 0⟩ + pinvTerm s u v m n i j k))
    (inv.set (i * n + j) (⟨0, 0⟩ : Cx))

/-- The output loop (lib.rs lines 194-202): for `i in 0..n`, `j in 0..m`,
run `pinvCell`.  Note the flat write position is `i*n + j`. -/
def pinvFill (m n : Nat) (s : List ℚ) (u v : List Cx) (inv : List Cx) : List Cx :=
  (List.range n).foldl (fun inv i =>
    (List.range m).foldl (fun inv j => pinvCell m n s u v i j inv) inv) inv

/-- `pub fn find_pinv_from_svd` (lib.rs lines 171-203): the reciprocal step,
the padding step, then the output loop; returns the final `(S, INV)` pair. -/
def find_pinv_from_svd (s : List ℚ) (u v : List Cx) (m n : Nat) (inv : List Cx) :
    List ℚ × List Cx :=
  let s' := pinvPad m n (pinvRecip n s)
  (s', pinvFill m n s' u v inv)

/-- The entry formula stated by the spec for the pseudo-inverse:
`INV[i,j] = Σ_k V[i,k] · S⁺[k] · conj(U[j,k])`.  Written from the spec's
words, for comparison with `pinvFill`. -/
def pinvSpecEntry (sPlus : List ℚ) (u v : List Cx) (m n i j : Nat) : Cx :=
  ∑ k ∈ Finset.range n,
    (v.getD (i * n + k) ⟨0, 0⟩).scale (sPlus.getD k 0) * (u.getD (j * m + k) ⟨0, 0⟩).conj

/-! Basic lemmas about the computation monad. -/

@[simp] theorem ok_bind {α β : Type} (a : α) (f : α → Comp β) :
    (Except.ok a >>= f) = f a := rfl

@[simp] theorem err_bind {α β : Type} (e : CErr) (f : α → Comp β) :
    ((Except.error e : Comp α) >>= f) = Except.error e := rfl

@[simp] theorem pure_ok {α : Type} (a : α) : (pure a : Comp α) = Except.ok a := rfl

theorem bind_ok_elim {α β : Type} {x : Comp α} {f : α → Comp β} {b : β}
    (h : (x >>= f) = Except.ok b) : ∃ a, x = Except.ok a ∧ f a = Except.ok b := by
  cases x with
  | ok a => exact ⟨a, rfl, h⟩
  | error e => simp at h

theorem bind_err_elim {α β : Type} {x : Comp α} {f : α → Comp β} {e : CErr}
    (h : (x >>= f) = Except.error e) :
    x = Except.error e ∨ ∃ a, x = Except.ok a ∧ f a = Except.error e := by
  cases x with
  | ok a => exact Or.inr ⟨a, rfl, h⟩
  | error e' => simp at h; simp [h]

theorem not_err_ok {α : Type} {c : Comp α} (h : ∀ e, c ≠ Except.error e) :
    ∃ a, c = Except.ok a := by
  cases c with
  | ok a => exact ⟨a, rfl⟩
  | error e => exact absurd rfl (h e)

theorem getE_ok_elim {α : Type} {l : List α} {i : Nat} {a : α}
    (h : getE l i = Except.ok a) : i < l.length ∧ ∀ d, l.getD i d = a := by
  unfold getE at h
  split at h
  · next hlt =>
    refine ⟨hlt, fun d => ?_⟩
    simp at h
    simp [List.getD_eq_getElem?_getD, List.getElem?_eq_getElem hlt, h]
  · simp at h

theorem getE_ok_of_lt {α : Type} {l : List α} {i : Nat} (h : i < l.length) (d : α) :
    getE l i = Except.ok (l.getD i d) := by
  unfold getE
  simp [h, List.getD_eq_getElem?_getD, List.getElem?_eq_getElem h]

theorem getE_err_elim {α : Type} {l : List α} {i : Nat} {e : CErr}
    (h : getE l i = Except.error e) : e = CErr.oob := by
  unfold getE at h
  split at h
  · simp at h
  · simp at h; simp [h]

theorem setE_ok_elim {α : Type} {l : List α} {i : Nat} {x : α} {l' : List α}
    (h : setE l i x = Except.ok l') : l' = l.set i x ∧ i < l.length := by
  unfold setE at h
  split at h
  · next hlt => simp at h; exact ⟨h.symm, hlt⟩
  · simp at h

theorem setE_ok_of_lt {α : Type} {l : List α} {i : Nat} (h : i < l.length) (x : α) :
    setE l i x = Except.ok (l.set i x) := by
  unfold setE
  simp [h]

theorem setE_err_elim {α : Type} {l : List α} {i : Nat} {x : α} {e : CErr}
    (h : setE l i x = Except.error e) : e = CErr.oob := by
  unfold setE at h
  split at h
  · simp at h
  · simp at h; simp [h]

theorem csub_ok_elim {a b c : Nat} (h : csub a b = Except.ok c) : c = a - b ∧ b ≤ a := by
  unfold csub at h
  split at h
  · next hle => simp at h; exact ⟨h.symm, hle⟩
  · simp at h

theorem csub_ok_of_le {a b : Nat} (h : b ≤ a) : csub a b = Except.ok (a - b) := by
  unfold csub
  simp [h]

theorem csub_err_elim {a b : Nat} {e : CErr} (h : csub a b = Except.error e) :
    e = CErr.underflow := by
  unfold csub at h
  split at h
  · simp at h
  · simp at h; simp [h]

@[simp] theorem foldME_nil {α σ : Type} (f : α → σ → Comp σ) (st : σ) :
    foldME f [] st = Except.ok st := rfl

theorem foldME_cons {α σ : Type} (f : α → σ → Comp σ) (x : α) (xs : List α) (st : σ) :
    foldME f (x :: xs) st = (f x st >>= foldME f xs) := rfl

theorem foldME_append {α σ : Type} (f : α → σ → Comp σ) (l1 l2 : List α) (st : σ) :
    foldME f (l1 ++ l2) st = (foldME f l1 st >>= foldME f l2) := by
  induction l1 generalizing st with
  | nil => simp
  | cons x xs ih =>
    simp only [List.cons_append, foldME_cons]
    cases h : f x st with
    | ok st' => simp [ih]
    | error e => simp

/-- Master invariant lemma for loops: if every body step, from a state
satisfying `P`, only raises errors satisfying `E` and re-establishes `P`,
then so does the whole loop. -/
theorem foldME_inv {α σ : Type} {body : α → σ → Comp σ} {P : σ → Prop} {E : CErr → Prop}
    {l : List α} {st : σ}
    (hbody : ∀ x ∈ l, ∀ s, P s →
      (∀ e, body x s = Except.error e → E e) ∧ (∀ s', body x s = Except.ok s' → P s'))
    (hP : P st) :
    (∀ e, foldME body l st = Except.error e → E e) ∧
      (∀ s', foldME body l st = Except.ok s' → P s') := by
  induction l generalizing st with
  | nil => exact ⟨fun e h => by simp at h, fun s' h => by simp at h; simp [← h, hP]⟩
  | cons x xs ih =>
    have hx := hbody x (List.mem_cons_self x xs) st hP
    constructor
    · intro e h
      rw [foldME_cons] at h
      rcases bind_err_elim h with h1 | ⟨st', h1, h2⟩
      · exact hx.1 e h1
      · exact (ih (fun y hy => hbody y (List.mem_cons_of_mem x hy)) (hx.2 st' h1)).1 e h2
    · intro s' h
      rw [foldME_cons] at h
      rcases bind_ok_elim h with ⟨st', h1, h2⟩
      exact (ih (fun y hy => hbody y (List.mem_cons_of_mem x hy)) (hx.2 st' h1)).2 s' h2

/-! Basic lemmas about list access. -/

theorem getD_set_self {α : Type} {l : List α} {i : Nat} (h : i < l.length) (x d : α) :
    (l.set i x).getD i d = x := by
  simp [List.getD_eq_getElem?_getD, List.getElem?_set_self, h]

theorem getD_set_ne {α : Type} (l : List α) {i j : Nat} (h : i ≠ j) (x d : α) :
    (l.set i x).getD j d = l.getD j d := by
  simp [List.getD_eq_getElem?_getD, List.getElem?_set_ne h]

theorem getD_append_left {α : Type} {l l2 : List α} {i : Nat} (h : i < l.length) (d : α) :
    (l ++ l2).getD i d = l.getD i d := by
  simp [List.getD_eq_getElem?_getD, List.getElem?_append_left h]

theorem getD_append_right {α : Type} {l l2 : List α} {i : Nat} (h : l.length ≤ i) (d : α) :
    (l ++ l2).getD i d = l2.getD (i - l.length) d := by
  simp [List.getD_eq_getElem?_getD, List.getElem?_append_right h]

theorem getD_replicate_zero (k i : Nat) : (List.replicate k (0 : ℚ)).getD i 0 = 0 := by
  rcases Nat.lt_or_ge i k with h | h
  · simp [List.getD_eq_getElem?_getD, List.getElem?_replicate, h]
  · have : (List.replicate k (0 : ℚ)).length ≤ i := by simpa using h
    simp [List.getD_eq_getElem?_getD, List.getElem?_eq_none this]

theorem getD_oob {α : Type} {l : List α} {i : Nat} (h : l.length ≤ i) (d : α) :
    l.getD i d = d := by
  simp [List.getD_eq_getElem?_getD, List.getElem?_eq_none h]

theorem set_getD_self {α : Type} {l : List α} {i : Nat} (h : i < l.length) (d : α) :
    l.set i (l.getD i d) = l := by
  apply List.ext_getElem?
  intro j
  rw [List.getElem?_set]
  split
  · next hij => subst hij; simp [h, List.getD_eq_getElem?_getD, List.getElem?_eq_getElem h]
  · rfl

theorem foldl_length_pres {β : Type} {body : List ℚ → β → List ℚ}
    (h : ∀ s x, (body s x).length = s.length) :
    ∀ (L : List β) (s : List ℚ), (L.foldl body s).length = s.length := by
  intro L
  induction L with
  | nil => intro s; rfl
  | cons x xs ih => intro s; rw [List.foldl_cons, ih, h]

/-! Lemmas about the reciprocal step of `find_pinv_from_svd`, for claim C5. -/

theorem pinvRecip_succ (j : Nat) (s : List ℚ) :
    pinvRecip (j + 1) s =
      (if (pinvRecip j s).getD j 0 > pinvEps
        then (pinvRecip j s).set j (1 / (pinvRecip j s).getD j 0)
        else (pinvRecip j s).set j 0) := by
  unfold pinvRecip
  rw [List.range_succ, List.foldl_append]
  rfl

theorem pinvRecip_length (n : Nat) (s : List ℚ) : (pinvRecip n s).length = s.length := by
  unfold pinvRecip
  apply foldl_length_pres
  intro s x
  split <;> simp

theorem pinvRecip_getD_ge (j : Nat) (s : List ℚ) (i : Nat) (hi : j ≤ i) :
    (pinvRecip j s).getD i 0 = s.getD i 0 := by
  induction j with
  | zero => unfold pinvRecip; simp
  | succ j ih =>
    rw [pinvRecip_succ]
    have hne : j ≠ i := by omega
    split <;> rw [getD_set_ne _ hne] <;> exact ih (by omega)

theorem pinvRecip_getD_lt (n : Nat) (s : List ℚ) (i : Nat) (hi : i < n) (hlen : n ≤ s.length) :
    (pinvRecip n s).getD i 0 = if pinvEps < s.getD i 0 then 1 / s.getD i 0 else 0 := by
  induction n with
  | zero => omega
  | succ j ih =>
    rw [pinvRecip_succ]
    rcases Nat.lt_or_ge i j with h | h
    · have hne : j ≠ i := by omega
      split <;> rw [getD_set_ne _ hne] <;> exact ih h (by omega)
    · have hij : i = j := by omega
      subst hij
      have hgd := pinvRecip_getD_ge i s i (le_refl i)
      have hlen' : i < (pinvRecip i s).length := by rw [pinvRecip_length]; omega
      simp only [hgd]
      split
      · next hc => rw [getD_set_self hlen']
      · next hc => rw [getD_set_self hlen']

/-- C5, amended: in the reciprocal step of `find_pinv_from_svd` the comparison
with the cutoff is the signed test `S[i] > 1e-4` (not a magnitude test): each
entry exceeding the cutoff is replaced by `1/S[i]`, every other entry
(including zero and negative entries) becomes exactly `0`, then `S` is
extended from length `N` to length `M` with zeros; the cutoff is the fixed
absolute constant `1e-4`. -/
theorem c5_reciprocal_step (s : List ℚ) (u v : List Cx) (m n : Nat) (inv : List Cx)
    (hs : s.length = n) (hnm : n ≤ m) :
    ((find_pinv_from_svd s u v m n inv).1.length = m) ∧
    (∀ i, i < n → (find_pinv_from_svd s u v m n inv).1.getD i 0 =
      if pinvEps < s.getD i 0 then 1 / s.getD i 0 else 0) ∧
    (∀ i, n ≤ i → (find_pinv_from_svd s u v m n inv).1.getD i 0 = 0) ∧
    pinvEps = 1 / 10000 := by
  have h1 : (find_pinv_from_svd s u v m n inv).1 = pinvPad m n (pinvRecip n s) := rfl
  refine ⟨?_, ?_, ?_, by norm_num [pinvEps]⟩
  · rw [h1]
    unfold pinvPad
    simp [pinvRecip_length, hs]
    omega
  · intro i hi
    rw [h1]
    unfold pinvPad
    rw [getD_append_left (by rw [pinvRecip_length, hs]; exact hi)]
    exact pinvRecip_getD_lt n s i hi (le_of_eq hs.symm)
  · intro i hi
    rw [h1]
    unfold pinvPad
    rcases Nat.lt_or_ge i (pinvRecip n s).length with h | h
    · rw [pinvRecip_length, hs] at h
      omega
    · rw [getD_append_right h, getD_replicate_zero]

/-- C5, counterexample to the claim as stated: for `S = [-1]` (length `N = 1`,
`N ≤ M = 1`) the entry has magnitude `1 > 1e-4`, so the claim as stated
requires the result `1/S[0] = -1`; the code produces `0` because its test is
the signed comparison `s[i] > eps`. -/
theorem c5_counterexample :
    (find_pinv_from_svd [-1] [⟨1, 0⟩] [⟨1, 0⟩] 1 1 [⟨0, 0⟩]).1.getD 0 0 = 0 ∧
    (1 / 10000 : ℚ) < |(-1 : ℚ)| ∧ (0 : ℚ) ≠ 1 / (-1 : ℚ) := by
  refine ⟨?_, by norm_num, by norm_num⟩
  norm_num [find_pinv_from_svd, pinvPad, pinvRecip, pinvEps, List.range_succ]

theorem c5_reciprocal_step_witness :
    (([(2 : ℚ), -3, 0].length = 3 ∧ 3 ≤ 5) ∧
      ((find_pinv_from_svd [2, -3, 0] [] [] 5 3 []).1.length = 5) ∧
      (∀ i, i < 3 → (find_pinv_from_svd [2, -3, 0] [] [] 5 3 []).1.getD i 0 =
        if pinvEps < [(2 : ℚ), -3, 0].getD i 0 then 1 / [(2 : ℚ), -3, 0].getD i 0 else 0) ∧
      (∀ i, 3 ≤ i → (find_pinv_from_svd [2, -3, 0] [] [] 5 3 []).1.getD i 0 = 0) ∧
      pinvEps = 1 / 10000) :=
  ⟨⟨rfl, by norm_num⟩,
    c5_reciprocal_step [2, -3, 0] [] [] 5 3 [] rfl (by norm_num)⟩

/-! Lemmas about the output loop of `find_pinv_from_svd`, for claim C6. -/

theorem flat_lt {i j r c : Nat} (hi : i < r) (hj : j < c) : i * c + j < r * c :=
  calc i * c + j < i * c + c := by omega
  _ = (i + 1) * c := by ring
  _ ≤ r * c := Nat.mul_le_mul_right c hi

theorem flat_inj {n i j i' j' : Nat} (hj : j < n) (hj' : j' < n)
    (h : i * n + j = i' * n + j') : i = i' ∧ j = j' := by
  have hn : 0 < n := by omega
  have h1 : (i * n + j) / n = i := by
    rw [Nat.mul_comm i n, Nat.mul_add_div hn, Nat.div_eq_of_lt hj, Nat.add_zero]
  have h2 : (i' * n + j') / n = i' := by
    rw [Nat.mul_comm i' n, Nat.mul_add_div hn, Nat.div_eq_of_lt hj', Nat.add_zero]
  have hii : i = i' := by rw [← h1, ← h2, h]
  subst hii
  exact ⟨rfl, by omega⟩

theorem flat_lt2 {i j n m : Nat} (hi : i < n) (hj : j < m) (hnm : n ≤ m) :
    i * n + j < n * m :=
  calc i * n + j < i * n + m := by omega
    _ ≤ (n - 1) * n + m := by
        have h1 : i ≤ n - 1 := by omega
        have h2 := Nat.mul_le_mul_right n h1
        omega
    _ ≤ (n - 1) * m + m := by
        have h2 := Nat.mul_le_mul_left (n - 1) hnm
        omega
    _ = n * m := by
        have h3 : (n - 1) * m + m = (n - 1 + 1) * m := by ring
        rw [h3, Nat.sub_add_cancel (by omega)]

theorem pinvCell_inner (pos : Nat) (f : Nat → Cx) :
    ∀ (q : Nat) (inv : List Cx), pos < inv.length →
      ((List.range q).foldl (fun inv k => inv.set pos (inv.getD pos ⟨0, 0⟩ + f k)) inv) =
        inv.set pos (inv.getD pos ⟨0, 0⟩ + ∑ k ∈ Finset.range q, f k) := by
  intro q
  induction q with
  | zero =>
    intro inv h
    rw [List.range_zero, List.foldl_nil, Finset.sum_range_zero, add_zero, set_getD_self h]
  | succ q ih =>
    intro inv h
    rw [List.range_succ, List.foldl_append, ih inv h, List.foldl_cons, List.foldl_nil]
    rw [getD_set_self (by simpa using h), List.set_set]
    rw [Finset.sum_range_succ, add_assoc]

theorem pinvCell_getD (m n : Nat) (s : List ℚ) (u v : List Cx) (i j : Nat) (inv : List Cx)
    (h : i * n + j < inv.length) :
    pinvCell m n s u v i j inv = inv.set (i * n + j) (pinvSpecEntry s u v m n i j) := by
  unfold pinvCell
  rw [pinvCell_inner (i * n + j) (pinvTerm s u v m n i j) n (inv.set (i * n + j) ⟨0, 0⟩)
    (by simpa using h)]
  rw [getD_set_self h, List.set_set]
  congr 1
  rw [show (⟨0, 0⟩ : Cx) = 0 from rfl, zero_add]
  rfl

theorem pinvRow_getD (m n : Nat) (s : List ℚ) (u v : List Cx) (i : Nat) :
    ∀ (q : Nat) (inv : List Cx), (∀ j, j < q → i * n + j < inv.length) →
      (((List.range q).foldl (fun inv j => pinvCell m n s u v i j inv) inv).length =
          inv.length) ∧
      (∀ j, j < q → ((List.range q).foldl (fun inv j => pinvCell m n s u v i j inv) inv).getD
          (i * n + j) ⟨0, 0⟩ = pinvSpecEntry s u v m n i j) ∧
      (∀ p, (∀ j, j < q → p ≠ i * n + j) →
        ((List.range q).foldl (fun inv j => pinvCell m n s u v i j inv) inv).getD p ⟨0, 0⟩ =
          inv.getD p ⟨0, 0⟩) := by
  intro q
  induction q with
  | zero => intro inv _; exact ⟨rfl, fun j hj => absurd hj (by omega), fun p _ => rfl⟩
  | succ q ih =>
    intro inv hlen
    have ihq := ih inv (fun j hj => hlen j (by omega))
    have hq : i * n + q < inv.length := hlen q (by omega)
    have hq' : i * n + q <
        ((List.range q).foldl (fun inv j => pinvCell m n s u v i j inv) inv).length := by
      rw [ihq.1]; exact hq
    rw [List.range_succ, List.foldl_append, List.foldl_cons, List.foldl_nil,
      pinvCell_getD m n s u v i q _ hq']
    refine ⟨by simpa using ihq.1, ?_, ?_⟩
    · intro j hj
      rcases Nat.lt_or_ge j q with h | h
      · rw [getD_set_ne _ (by omega)]
        exact ihq.2.1 j h
      · have hjq : j = q := by omega
        subst hjq
        rw [getD_set_self hq']
    · intro p hp
      rw [getD_set_ne _ (Ne.symm (hp q (by omega)))]
      exact ihq.2.2 p (fun j hj => hp j (by omega))

theorem pinvFillAux (m n : Nat) (s : List ℚ) (u v : List Cx) (hnm : n ≤ m) :
    ∀ (r : Nat) (inv : List Cx), r ≤ n → (∀ i j, i < n → j < m → i * n + j < inv.length) →
      (((List.range r).foldl (fun inv i =>
          (List.range m).foldl (fun inv j => pinvCell m n s u v i j inv) inv) inv).length =
        inv.length) ∧
      (∀ i j, i < r → j < m → (j < n ∨ i = r - 1) →
        ((List.range r).foldl (fun inv i =>
          (List.range m).foldl (fun inv j => pinvCell m n s u v i j inv) inv) inv).getD
            (i * n + j) ⟨0, 0⟩ = pinvSpecEntry s u v m n i j) := by
  intro r
  induction r with
  | zero => intro inv _ _; exact ⟨rfl, fun i j hi => absurd hi (by omega)⟩
  | succ r ih =>
    intro inv hr hlen
    have ihr := ih inv (by omega) hlen
    rw [List.range_succ, List.foldl_append, List.foldl_cons, List.foldl_nil]
    have hrow := pinvRow_getD m n s u v r m
      ((List.range r).foldl (fun inv i =>
        (List.range m).foldl (fun inv j => pinvCell m n s u v i j inv) inv) inv)
      (fun j hj => by rw [ihr.1]; exact hlen r j (by omega) hj)
    refine ⟨by rw [hrow.1, ihr.1], ?_⟩
    intro i j hi hj hsurv
    rcases Nat.lt_or_ge i r with h | h
    · have hjn : j < n := by
        rcases hsurv with h1 | h1
        · exact h1
        · omega
      rw [hrow.2.2 (i * n + j) (fun j' hj' heq => by
        have h1 : (i + 1) * n ≤ r * n := Nat.mul_le_mul_right n (by omega)
        have h2 : (i + 1) * n = i * n + n := by ring
        omega)]
      exact ihr.2 i j h hj (Or.inl hjn)
    · have hir : i = r := by omega
      subst hir
      exact hrow.2.1 j hj

set_option maxHeartbeats 1000000 in
/-- **C6**, amended: the output loop writes the entry for `(i, j)` at flat
position `i·N + j` — stride `N`, not the row-major stride `M` of the claimed
`N×M` layout — and at that position the final buffer holds exactly the sum
`Σ_{k<N} V[i,k]·S⁺[k]·conj(U[j,k])` for every pair `(i, j)` with `j < N` or
`i = N - 1` (the pairs whose position no later iteration writes again); in
particular for every entry when `M = N`, where `i·N + j` coincides with the
claimed `i·M + j`, and for every entry when `N = 1`. -/
theorem c6_pinv_entries (s : List ℚ) (u v : List Cx) (m n : Nat) (inv : List Cx)
    (hnm : n ≤ m) (hinv : inv.length = n * m) (i j : Nat) (hi : i < n) (hj : j < m)
    (hsurv : j < n ∨ i = n - 1) :
    (find_pinv_from_svd s u v m n inv).2.getD (i * n + j) ⟨0, 0⟩ =
      pinvSpecEntry (pinvPad m n (pinvRecip n s)) u v m n i j := by
  have h2 : (find_pinv_from_svd s u v m n inv).2 =
      pinvFill m n (pinvPad m n (pinvRecip n s)) u v inv := rfl
  rw [h2]
  unfold pinvFill
  exact (pinvFillAux m n (pinvPad m n (pinvRecip n s)) u v hnm n inv (le_refl n)
    (fun i j hi hj => by rw [hinv]; exact flat_lt2 hi hj hnm)).2 i j hi hj hsurv

theorem c6_pinv_entries_witness :
    (((1 : Nat) ≤ 2 ∧ [(⟨0, 0⟩ : Cx), ⟨0, 0⟩].length = 1 * 2 ∧
        (0 : Nat) < 1 ∧ (1 : Nat) < 2 ∧ ((1 : Nat) < 1 ∨ (0 : Nat) = 1 - 1)) ∧
      (find_pinv_from_svd [2] [⟨2, 0⟩, ⟨0, 0⟩, ⟨3, 0⟩] [⟨0, 1⟩] 2 1
          [⟨0, 0⟩, ⟨0, 0⟩]).2.getD (0 * 1 + 1) ⟨0, 0⟩ =
        pinvSpecEntry (pinvPad 2 1 (pinvRecip 1 [2]))
          [⟨2, 0⟩, ⟨0, 0⟩, ⟨3, 0⟩] [⟨0, 1⟩] 2 1 0 1) :=
  ⟨⟨by omega, rfl, by omega, by omega, by omega⟩,
    c6_pinv_entries [2] [⟨2, 0⟩, ⟨0, 0⟩, ⟨3, 0⟩] [⟨0, 1⟩] 2 1 [⟨0, 0⟩, ⟨0, 0⟩]
      (by omega) rfl 0 1 (by omega) (by omega) (by omega)⟩

set_option maxHeartbeats 2000000 in
/-- C6, counterexample to the claim as stated: with `N = 2`, `M = 3`,
`S = [1, 1]`, `U = I₃`, `V = I₂`, the claim requires flat row-major position
`1·M + 0 = 3` to hold `Σ_k V[1,k]·S⁺[k]·conj(U[0,k]) = 0`; the code instead
leaves `⟨1, 0⟩` there (the `(1, 1)` entry, written at stride `N = 2`). -/
theorem c6_counterexample :
    (find_pinv_from_svd [1, 1]
        [⟨1, 0⟩, ⟨0, 0⟩, ⟨0, 0⟩, ⟨0, 0⟩, ⟨1, 0⟩, ⟨0, 0⟩, ⟨0, 0⟩, ⟨0, 0⟩, ⟨1, 0⟩]
        [⟨1, 0⟩, ⟨0, 0⟩, ⟨0, 0⟩, ⟨1, 0⟩] 3 2
        (List.replicate 6 ⟨0, 0⟩)).2.getD (1 * 3 + 0) ⟨0, 0⟩ = ⟨1, 0⟩ ∧
    pinvSpecEntry (pinvPad 3 2 (pinvRecip 2 [1, 1]))
        [⟨1, 0⟩, ⟨0, 0⟩, ⟨0, 0⟩, ⟨0, 0⟩, ⟨1, 0⟩, ⟨0, 0⟩, ⟨0, 0⟩, ⟨0, 0⟩, ⟨1, 0⟩]
        [⟨1, 0⟩, ⟨0, 0⟩, ⟨0, 0⟩, ⟨1, 0⟩] 3 2 1 0 = ⟨0, 0⟩ ∧
    ((⟨1, 0⟩ : Cx) ≠ ⟨0, 0⟩) := by
  refine ⟨?_, ?_, by simp⟩
  · norm_num [find_pinv_from_svd, pinvFill, pinvCell, pinvTerm, pinvRecip, pinvPad,
      pinvEps, List.range_succ, List.replicate_succ, Cx.scale, Cx.conj,
      show ∀ x y : Cx, x * y = ⟨x.re * y.re - x.im * y.im, x.re * y.im + x.im * y.re⟩
        from fun _ _ => rfl,
      show ∀ x y : Cx, x + y = ⟨x.re + y.re, x.im + y.im⟩ from fun _ _ => rfl]
  · norm_num [pinvSpecEntry, pinvRecip, pinvPad, pinvEps, Finset.sum_range_succ,
      List.range_succ, Cx.scale, Cx.conj, Cx.zero_def,
      show ∀ x y : Cx, x * y = ⟨x.re * y.re - x.im * y.im, x.re * y.im + x.im * y.re⟩
        from fun _ _ => rfl,
      show ∀ x y : Cx, x + y = ⟨x.re + y.re, x.im + y.im⟩ from fun _ _ => rfl]


/-- `c` only raises errors satisfying `E`. -/
def ErrsIn {α : Type} (c : Comp α) (E : CErr → Prop) : Prop :=
  ∀ e, c = Except.error e → E e

/-- The error class of computations that only fail on slice indexing. -/
def EOob : CErr → Prop := fun e => e = CErr.oob

theorem errsIn_pure {α : Type} {a : α} {E : CErr → Prop} : ErrsIn (pure a) E :=
  fun _ h => by simp at h

theorem errsIn_error {e0 : CErr} {α : Type} {E : CErr → Prop} (h : E e0) :
    ErrsIn (Except.error e0 : Comp α) E :=
  fun e he => by cases he; exact h

theorem errsIn_bind {α β : Type} {x : Comp α} {f : α → Comp β} {E : CErr → Prop}
    (hx : ErrsIn x E) (hf : ∀ a, ErrsIn (f a) E) : ErrsIn (x >>= f) E := by
  intro e h
  rcases bind_err_elim h with h1 | ⟨a, _, h2⟩
  · exact hx e h1
  · exact hf a e h2

theorem oob_getE {α : Type} {l : List α} {i : Nat} : ErrsIn (getE l i) EOob :=
  fun _ he => getE_err_elim he

theorem oob_setE {α : Type} {l : List α} {i : Nat} {x : α} : ErrsIn (setE l i x) EOob :=
  fun _ he => setE_err_elim he

theorem errsIn_ite {α : Type} (c : Prop) [Decidable c] {x y : Comp α} {E : CErr → Prop}
    (hx : ErrsIn x E) (hy : ErrsIn y E) : ErrsIn (if c then x else y) E := by
  split
  · exact hx
  · exact hy

theorem errsIn_foldME {α σ : Type} {body : α → σ → Comp σ} {l : List α} {st : σ}
    {E : CErr → Prop} (h : ∀ x ∈ l, ∀ s, ErrsIn (body x s) E) :
    ErrsIn (foldME body l st) E :=
  (foldME_inv (P := fun _ => True) (fun x hx s _ => ⟨h x hx s, fun _ _ => trivial⟩) trivial).1

theorem errsIn_mono {α : Type} {c : Comp α} {E E' : CErr → Prop}
    (h : ErrsIn c E) (hEE : ∀ e, E e → E' e) : ErrsIn c E' :=
  fun e he => hEE e (h e he)

theorem zcol_errs (a : List Cx) (m k : Nat) : ErrsIn (zcol a m k) EOob := by
  unfold zcol
  apply errsIn_foldME
  intro x _ s
  exact errsIn_bind oob_getE (fun _ => errsIn_pure)

theorem colStep_errs (sq : ℚ → ℚ) (m n p k : Nat) (st : St) :
    ErrsIn (colStep sq m n p k st) EOob := by
  unfold colStep
  apply errsIn_bind (zcol_errs st.a m k)
  intro z
  dsimp only
  apply errsIn_bind oob_setE
  intro b'
  apply errsIn_ite
  · apply errsIn_bind oob_setE
    intro b''
    apply errsIn_bind oob_getE
    intro akk
    apply errsIn_bind oob_setE
    intro a'
    apply errsIn_ite
    · apply errsIn_bind
      · apply errsIn_foldME
        intro j _ s
        apply errsIn_bind
        · apply errsIn_foldME
          intro i _ q
          exact errsIn_bind oob_getE (fun _ => errsIn_bind oob_getE (fun _ => errsIn_pure))
        · intro q
          apply errsIn_foldME
          intro i _ s2
          exact errsIn_bind oob_getE (fun _ => errsIn_bind oob_getE (fun _ =>
            errsIn_bind oob_setE (fun _ => errsIn_pure)))
      · intro st2
        apply errsIn_bind oob_getE
        intro akk2
        apply errsIn_foldME
        intro j _ s3
        exact errsIn_bind oob_getE (fun _ => errsIn_bind oob_setE (fun _ => errsIn_pure))
    · exact errsIn_pure
  · exact errsIn_pure

theorem errsIn_getE {α : Type} {l : List α} {i : Nat} {E : CErr → Prop}
    (h : E CErr.oob) : ErrsIn (getE l i) E :=
  fun _ he => getE_err_elim he ▸ h

theorem errsIn_setE {α : Type} {l : List α} {i : Nat} {x : α} {E : CErr → Prop}
    (h : E CErr.oob) : ErrsIn (setE l i x) E :=
  fun _ he => setE_err_elim he ▸ h

theorem errsIn_csub {a b : Nat} {E : CErr → Prop} (h : E CErr.underflow) :
    ErrsIn (csub a b) E :=
  fun _ he => csub_err_elim he ▸ h

theorem zrow_errs (a : List Cx) (m n k k1 : Nat) : ErrsIn (zrow a m n k k1) EOob := by
  unfold zrow
  apply errsIn_foldME
  intro x _ s
  exact errsIn_bind oob_getE (fun _ => errsIn_pure)

theorem rowStep_errs (sq : ℚ → ℚ) (m n k : Nat) (st : St) :
    ErrsIn (rowStep sq m n k st) EOob := by
  unfold rowStep
  apply errsIn_bind (zrow_errs st.a m n k (k + 1))
  intro z
  dsimp only
  apply errsIn_bind oob_setE
  intro c'
  apply errsIn_ite
  · apply errsIn_bind oob_setE
    intro c''
    apply errsIn_bind oob_getE
    intro ak1
    apply errsIn_bind oob_setE
    intro a'
    apply errsIn_bind
    · apply errsIn_foldME
      intro i _ s
      apply errsIn_bind
      · apply errsIn_foldME
        intro j _ q
        exact errsIn_bind oob_getE (fun _ => errsIn_bind oob_getE (fun _ => errsIn_pure))
      · intro q
        apply errsIn_foldME
        intro j _ s2
        exact errsIn_bind oob_getE (fun _ => errsIn_bind oob_getE (fun _ =>
          errsIn_bind oob_setE (fun _ => errsIn_pure)))
    · intro st2
      apply errsIn_bind oob_getE
      intro ak2
      apply errsIn_foldME
      intro i _ s3
      exact errsIn_bind oob_getE (fun _ => errsIn_bind oob_setE (fun _ => errsIn_pure))
  · exact errsIn_pure

theorem householder_errs (sq : ℚ → ℚ) (m n p : Nat) (st : St) :
    ErrsIn (householder sq m n p st) EOob := by
  unfold householder
  apply errsIn_bind oob_setE
  intro c'
  apply errsIn_foldME
  intro k _ s
  apply errsIn_bind (colStep_errs sq m n p k _)
  intro st2
  exact errsIn_ite _ errsIn_pure (rowStep_errs sq m n k st2)

theorem phase2Init_errs (m n nu nv : Nat) (st : St) :
    ErrsIn (phase2Init m n nu nv st) EOob := by
  unfold phase2Init
  apply errsIn_bind
  · apply errsIn_foldME
    intro k _ s
    exact errsIn_bind oob_getE (fun _ => errsIn_bind oob_getE (fun _ =>
      errsIn_bind oob_setE (fun _ => errsIn_bind oob_setE (fun _ => errsIn_pure))))
  · intro st2
    dsimp only
    apply errsIn_ite
    · apply errsIn_bind
      · apply errsIn_foldME
        intro j _ s
        apply errsIn_bind
        · apply errsIn_foldME
          intro i _ s2
          exact errsIn_bind oob_setE (fun _ => errsIn_pure)
        · intro s3
          exact errsIn_bind oob_setE (fun _ => errsIn_pure)
      · intro y
        apply errsIn_ite
        · apply errsIn_foldME
          intro j _ s
          apply errsIn_bind
          · apply errsIn_foldME
            intro i _ s2
            exact errsIn_bind oob_setE (fun _ => errsIn_pure)
          · intro s3
            exact errsIn_bind oob_setE (fun _ => errsIn_pure)
        · exact errsIn_pure
    · apply errsIn_bind
      · exact errsIn_pure
      intro y
      apply errsIn_ite
      · apply errsIn_foldME
        intro j _ s
        apply errsIn_bind
        · apply errsIn_foldME
          intro i _ s2
          exact errsIn_bind oob_setE (fun _ => errsIn_pure)
        · intro s3
          exact errsIn_bind oob_setE (fun _ => errsIn_pure)
      · exact errsIn_pure

theorem cancelInner_errs (sq : ℚ → ℚ) (nu m n : Nat) (eps : ℚ) (l1 : Nat)
    (is : List Nat) (cs sn : ℚ) (st : St) :
    ErrsIn (cancelInner sq nu m n eps l1 is cs sn st) EOob := by
  induction is generalizing cs sn st with
  | nil => exact errsIn_pure
  | cons i rest ih =>
    unfold cancelInner
    apply errsIn_bind oob_getE
    intro ti
    dsimp only
    apply errsIn_bind oob_setE
    intro t'
    apply errsIn_ite
    · exact errsIn_pure
    · apply errsIn_bind oob_getE
      intro h
      apply errsIn_bind oob_setE
      intro s'
      apply errsIn_ite
      · apply errsIn_bind
        · apply errsIn_foldME
          intro j _ s2
          exact errsIn_bind oob_getE (fun _ => errsIn_bind oob_getE (fun _ =>
            errsIn_bind oob_setE (fun _ => errsIn_bind oob_setE (fun _ => errsIn_pure))))
        · intro y
          exact ih _ _ _
      · apply errsIn_bind
        · exact errsIn_pure
        · intro y
          exact ih _ _ _

theorem qrSweep_errs (sq : ℚ → ℚ) (nu nv m n : Nat) (is : List Nat)
    (cs sn f x : ℚ) (st : St) :
    ErrsIn (qrSweep sq nu nv m n is cs sn f x st) EOob := by
  induction is generalizing cs sn f x st with
  | nil => exact errsIn_pure
  | cons i rest ih =>
    unfold qrSweep
    apply errsIn_bind oob_getE
    intro g
    apply errsIn_bind oob_getE
    intro y
    dsimp only
    apply errsIn_bind oob_setE
    intro t'
    apply errsIn_ite
    · apply errsIn_bind
      · apply errsIn_foldME
        intro j _ s2
        exact errsIn_bind oob_getE (fun _ => errsIn_bind oob_getE (fun _ =>
          errsIn_bind oob_setE (fun _ => errsIn_bind oob_setE (fun _ => errsIn_pure))))
      · intro st2
        apply errsIn_bind oob_setE
        intro s'
        apply errsIn_ite
        · apply errsIn_bind
          · apply errsIn_foldME
            intro j _ s2
            exact errsIn_bind oob_getE (fun _ => errsIn_bind oob_getE (fun _ =>
              errsIn_bind oob_setE (fun _ => errsIn_bind oob_setE (fun _ => errsIn_pure))))
          · intro y
            exact ih _ _ _ _ _
        · apply errsIn_bind
          · exact errsIn_pure
          · intro y
            exact ih _ _ _ _ _
    · apply errsIn_bind
      · exact errsIn_pure
      · intro st2
        apply errsIn_bind oob_setE
        intro s'
        apply errsIn_ite
        · apply errsIn_bind
          · apply errsIn_foldME
            intro j _ s2
            exact errsIn_bind oob_getE (fun _ => errsIn_bind oob_getE (fun _ =>
              errsIn_bind oob_setE (fun _ => errsIn_bind oob_setE (fun _ => errsIn_pure))))
          · intro y
            exact ih _ _ _ _ _
        · apply errsIn_bind
          · exact errsIn_pure
          · intro y
            exact ih _ _ _ _ _

/-- The error class of the split scan: indexing or the `l - 1` underflow. -/
def EScan : CErr → Prop := fun e => e = CErr.oob ∨ e = CErr.underflow

/-- The error class of the QR phase: indexing, underflow, or fuel exhaustion. -/
def EQr : CErr → Prop := fun e => e = CErr.oob ∨ e = CErr.underflow ∨ e = CErr.fuelOut

theorem splitScan_errs (s t : List ℚ) (eps : ℚ) (l : Nat) :
    ErrsIn (splitScan s t eps l) EScan := by
  induction l with
  | zero =>
    unfold splitScan
    apply errsIn_bind
    · exact errsIn_getE (Or.inl rfl)
    intro tl
    apply errsIn_ite
    · exact errsIn_pure
    · apply errsIn_bind
      · exact errsIn_csub (Or.inr rfl)
      intro l'
      apply errsIn_bind
      · exact errsIn_getE (Or.inl rfl)
      intro sl
      exact errsIn_ite _ errsIn_pure errsIn_pure
  | succ l ih =>
    unfold splitScan
    apply errsIn_bind
    · exact errsIn_getE (Or.inl rfl)
    intro tl
    apply errsIn_ite
    · exact errsIn_pure
    · apply errsIn_bind
      · exact errsIn_getE (Or.inl rfl)
      intro sl
      exact errsIn_ite _ errsIn_pure ih

theorem qrConverge_errs (sq : ℚ → ℚ) (nu nv m n k l : Nat)
    (rec : St → Comp (St × ℚ)) (hrec : ∀ s, ErrsIn (rec s) EQr) (st : St) :
    ErrsIn (qrConverge sq nu nv m n k l rec st) EQr := by
  unfold qrConverge
  apply errsIn_bind
  · exact errsIn_getE (Or.inl rfl)
  intro w
  apply errsIn_ite
  · exact errsIn_pure
  · apply errsIn_bind
    · exact errsIn_getE (Or.inl rfl)
    intro x
    apply errsIn_bind
    · exact errsIn_getE (Or.inl rfl)
    intro y
    apply errsIn_bind
    · exact errsIn_getE (Or.inl rfl)
    intro g
    apply errsIn_bind
    · exact errsIn_getE (Or.inl rfl)
    intro h
    dsimp only
    apply errsIn_bind
    · exact errsIn_mono (qrSweep_errs sq nu nv m n _ _ _ _ _ _) (fun e h2 => Or.inl h2)
    intro sfx
    apply errsIn_bind
    · exact errsIn_setE (Or.inl rfl)
    intro t'
    apply errsIn_bind
    · exact errsIn_setE (Or.inl rfl)
    intro t''
    apply errsIn_bind
    · exact errsIn_setE (Or.inl rfl)
    intro s'
    exact hrec _

theorem qrInner_errs (sq : ℚ → ℚ) (nu nv m n : Nat) (fuel k : Nat) (st : St) :
    ErrsIn (qrInner sq nu nv m n fuel k st) EQr := by
  induction fuel generalizing st with
  | zero => exact errsIn_error (Or.inr (Or.inr rfl))
  | succ fu ih =>
    unfold qrInner
    apply errsIn_bind
    · exact errsIn_mono (splitScan_errs st.s st.t st.eps k)
        (fun e h => h.elim Or.inl (fun h2 => Or.inr (Or.inl h2)))
    intro l
    apply errsIn_bind
    · exact errsIn_getE (Or.inl rfl)
    intro tl
    dsimp only
    apply errsIn_ite
    · apply errsIn_bind
      · exact errsIn_pure
      intro st2
      exact qrConverge_errs sq nu nv m n k l _ (fun s => ih s) st2
    · apply errsIn_bind
      · exact errsIn_csub (Or.inr (Or.inl rfl))
      intro l1
      apply errsIn_bind
      · exact errsIn_getE (Or.inl rfl)
      intro sl
      apply errsIn_ite
      · apply errsIn_bind
        · exact errsIn_mono (cancelInner_errs sq nu m n st.eps l1 _ 0 1 st)
            (fun e h2 => Or.inl h2)
        intro st2
        exact qrConverge_errs sq nu nv m n k l _ (fun s => ih s) st2
      · apply errsIn_bind
        · exact errsIn_pure
        intro st2
        exact qrConverge_errs sq nu nv m n k l _ (fun s => ih s) st2

theorem qrPhase_errs (sq : ℚ → ℚ) (nu nv m n fuel : Nat) (st : St) :
    ErrsIn (qrPhase sq nu nv m n fuel st) EQr := by
  unfold qrPhase
  apply errsIn_foldME
  intro kk _ s
  apply errsIn_bind
  · exact qrInner_errs sq nu nv m n fuel _ _
  intro stw
  dsimp only
  apply errsIn_ite
  · apply errsIn_bind
    · exact errsIn_setE (Or.inl rfl)
    intro s'
    apply errsIn_ite
    · apply errsIn_foldME
      intro j _ s2
      apply errsIn_bind
      · exact errsIn_getE (Or.inl rfl)
      intro vjk
      apply errsIn_bind
      · exact errsIn_setE (Or.inl rfl)
      intro v'
      exact errsIn_pure
    · exact errsIn_pure
  · exact errsIn_pure

theorem argMax_errs (s : List ℚ) (k n : Nat) : ErrsIn (argMax s k n) EOob := by
  unfold argMax
  apply errsIn_foldME
  intro i _ gj
  apply errsIn_bind
  · exact oob_getE
  intro si
  exact errsIn_ite _ errsIn_pure errsIn_pure

theorem sortPhase_errs (nu nv m n : Nat) (st : St) :
    ErrsIn (sortPhase nu nv m n st) EOob := by
  unfold sortPhase
  apply errsIn_foldME
  intro k _ s
  apply errsIn_bind
  · exact argMax_errs _ k n
  intro gj
  dsimp only
  apply errsIn_ite
  · apply errsIn_bind
    · exact oob_getE
    intro sk
    apply errsIn_bind
    · exact oob_setE
    intro s'
    apply errsIn_bind
    · exact oob_setE
    intro s''
    apply errsIn_ite
    · apply errsIn_bind
      · apply errsIn_foldME
        intro i _ s2
        exact errsIn_bind oob_getE (fun _ => errsIn_bind oob_getE (fun _ =>
          errsIn_bind oob_setE (fun _ => errsIn_bind oob_setE (fun _ => errsIn_pure))))
      intro st2
      apply errsIn_ite
      · apply errsIn_foldME
        intro i _ s2
        exact errsIn_bind oob_getE (fun _ => errsIn_bind oob_getE (fun _ =>
          errsIn_bind oob_setE (fun _ => errsIn_bind oob_setE (fun _ => errsIn_pure))))
      · exact errsIn_pure
    · apply errsIn_bind
      · exact errsIn_pure
      intro st2
      apply errsIn_ite
      · apply errsIn_foldME
        intro i _ s2
        exact errsIn_bind oob_getE (fun _ => errsIn_bind oob_getE (fun _ =>
          errsIn_bind oob_setE (fun _ => errsIn_bind oob_setE (fun _ => errsIn_pure))))
      · exact errsIn_pure
  · exact errsIn_pure

theorem backU_errs (sq : ℚ → ℚ) (nu m n : Nat) (st : St) :
    ErrsIn (backU sq nu m n st) EOob := by
  unfold backU
  apply errsIn_ite
  · apply errsIn_foldME
    intro kk _ s
    apply errsIn_bind
    · exact oob_getE
    intro bk
    apply errsIn_ite
    · apply errsIn_bind
      · exact oob_getE
      intro akk
      apply errsIn_bind
      · apply errsIn_foldME
        intro j _ s2
        exact errsIn_bind oob_getE (fun _ => errsIn_bind oob_setE (fun _ => errsIn_pure))
      intro st2
      apply errsIn_foldME
      intro j _ s3
      apply errsIn_bind
      · apply errsIn_foldME
        intro i _ q
        exact errsIn_bind oob_getE (fun _ => errsIn_bind oob_getE (fun _ => errsIn_pure))
      intro q
      apply errsIn_bind
      · exact oob_getE
      intro akk2
      apply errsIn_foldME
      intro i _ s4
      exact errsIn_bind oob_getE (fun _ => errsIn_bind oob_getE (fun _ =>
        errsIn_bind oob_setE (fun _ => errsIn_pure)))
    · exact errsIn_pure
  · exact errsIn_pure

theorem backV_errs (sq : ℚ → ℚ) (nv m n : Nat) (st : St) :
    ErrsIn (backV sq nv m n st) EOob := by
  unfold backV
  apply errsIn_ite
  · apply errsIn_ite
    · apply errsIn_foldME
      intro kk _ s
      apply errsIn_bind
      · exact oob_getE
      intro ck1
      apply errsIn_ite
      · apply errsIn_bind
        · exact oob_getE
        intro ak1
        apply errsIn_bind
        · apply errsIn_foldME
          intro j _ s2
          exact errsIn_bind oob_getE (fun _ => errsIn_bind oob_setE (fun _ => errsIn_pure))
        intro st2
        apply errsIn_foldME
        intro j _ s3
        apply errsIn_bind
        · apply errsIn_foldME
          intro i _ q
          exact errsIn_bind oob_getE (fun _ => errsIn_bind oob_getE (fun _ => errsIn_pure))
        intro q
        apply errsIn_bind
        · exact oob_getE
        intro ak2
        apply errsIn_foldME
        intro i _ s4
        exact errsIn_bind oob_getE (fun _ => errsIn_bind oob_getE (fun _ =>
          errsIn_bind oob_setE (fun _ => errsIn_pure)))
      · exact errsIn_pure
    · exact errsIn_pure
  · exact errsIn_pure

/-- After the four precondition checks, the body of `csvd` never raises a
`fatal` error: its only failure modes are indexing, underflow, and fuel. -/
theorem csvd_errs (sq : ℚ → ℚ) (fuel : Nat) (a : List Cx) (mmax nmax n m p nu nv : Nat)
    (s : List ℚ) (u v : List Cx) (hn1 : ¬ n < 1) (hn2 : ¬ NBIG < n)
    (hm1 : ¬ m < 1) (hm2 : ¬ m < n) :
    ErrsIn (csvd sq fuel a mmax nmax n m p nu nv s u v) EQr := by
  unfold csvd
  rw [if_neg hn1, if_neg hn2, if_neg hm1, if_neg hm2]
  apply errsIn_bind
  · exact errsIn_mono (householder_errs sq m n p _) (fun e h => Or.inl h)
  intro st1
  apply errsIn_bind
  · exact errsIn_mono (phase2Init_errs m n nu nv st1) (fun e h => Or.inl h)
  intro st2
  apply errsIn_bind
  · exact qrPhase_errs sq nu nv m n fuel st2
  intro st3
  apply errsIn_bind
  · exact errsIn_mono (sortPhase_errs nu nv m n st3) (fun e h => Or.inl h)
  intro st4
  apply errsIn_bind
  · exact errsIn_mono (backU_errs sq nu m n st4) (fun e h => Or.inl h)
  intro st5
  exact errsIn_mono (backV_errs sq nv m n st5) (fun e h => Or.inl h)

theorem c2_error_conditions (sq : ℚ → ℚ) (fuel : Nat) (a : List Cx)
    (mmax nmax n m p nu nv : Nat) (s : List ℚ) (u : List Cx) (v : List Cx) (msg : String) :
    csvd sq fuel a mmax nmax n m p nu nv s u v = Except.error (CErr.fatal msg) ↔
      ((n < 1 ∧ msg = "Fatal Error = Input N < 1") ∨
        (1 ≤ n ∧ 150 < n ∧ msg = "Fatal Error: NBIG < N") ∨
        (1 ≤ n ∧ n ≤ 150 ∧ m < 1 ∧ msg = "Fatal Error: M < 1") ∨
        (1 ≤ n ∧ n ≤ 150 ∧ 1 ≤ m ∧ m < n ∧ msg = "Fatal Error: M < N")) := by
  constructor
  · intro h
    by_cases hn1 : n < 1
    · refine Or.inl ⟨hn1, ?_⟩
      unfold csvd at h
      rw [if_pos hn1] at h
      simp only [Except.error.injEq, CErr.fatal.injEq] at h
      exact h.symm
    · by_cases hn2 : NBIG < n
      · refine Or.inr (Or.inl ⟨by omega, by simpa [NBIG] using hn2, ?_⟩)
        unfold csvd at h
        rw [if_neg hn1, if_pos hn2] at h
        simp only [Except.error.injEq, CErr.fatal.injEq] at h
        exact h.symm
      · by_cases hm1 : m < 1
        · refine Or.inr (Or.inr (Or.inl ⟨by omega, by simp [NBIG] at hn2; omega, hm1, ?_⟩))
          unfold csvd at h
          rw [if_neg hn1, if_neg hn2, if_pos hm1] at h
          simp only [Except.error.injEq, CErr.fatal.injEq] at h
          exact h.symm
        · by_cases hm2 : m < n
          · refine Or.inr (Or.inr (Or.inr ⟨by omega, by simp [NBIG] at hn2; omega,
              by omega, hm2, ?_⟩))
            unfold csvd at h
            rw [if_neg hn1, if_neg hn2, if_neg hm1, if_pos hm2] at h
            simp only [Except.error.injEq, CErr.fatal.injEq] at h
            exact h.symm
          · have := csvd_errs sq fuel a mmax nmax n m p nu nv s u v hn1 hn2 hm1 hm2
              (CErr.fatal msg) h
            simp [EQr] at this
  · intro h
    unfold csvd
    rcases h with ⟨h1, hmsg⟩ | ⟨h1, h2, hmsg⟩ | ⟨h1, h2, h3, hmsg⟩ | ⟨h1, h2, h3, h4, hmsg⟩
    · rw [if_pos h1, hmsg]
    · rw [if_neg (by omega), if_pos (show NBIG < n by simp [NBIG]; omega), hmsg]
    · rw [if_neg (by omega), if_neg (show ¬ NBIG < n by simp [NBIG]; omega), if_pos h3, hmsg]
    · rw [if_neg (by omega), if_neg (show ¬ NBIG < n by simp [NBIG]; omega),
        if_neg (by omega), if_pos h4, hmsg]

theorem c3_no_mutation_on_error (sq : ℚ → ℚ) (fuel : Nat) (mmax nmax n m p nu nv : Nat)
    (h : n < 1 ∨ 150 < n ∨ m < 1 ∨ m < n) :
    ∃ msg, ∀ (a : List Cx) (s : List ℚ) (u v : List Cx),
      csvd sq fuel a mmax nmax n m p nu nv s u v = Except.error (CErr.fatal msg) := by
  by_cases hn1 : n < 1
  · exact ⟨_, fun a s u v => by unfold csvd; rw [if_pos hn1]⟩
  · by_cases hn2 : NBIG < n
    · exact ⟨_, fun a s u v => by unfold csvd; rw [if_neg hn1, if_pos hn2]⟩
    · by_cases hm1 : m < 1
      · exact ⟨_, fun a s u v => by unfold csvd; rw [if_neg hn1, if_neg hn2, if_pos hm1]⟩
      · by_cases hm2 : m < n
        · exact ⟨_, fun a s u v => by
            unfold csvd; rw [if_neg hn1, if_neg hn2, if_neg hm1, if_pos hm2]⟩
        · exfalso
          simp [NBIG] at hn2
          omega

theorem c3_no_mutation_on_error_witness :
    ((0 : Nat) < 1 ∨ (150 : Nat) < 0 ∨ (1 : Nat) < 1 ∨ (1 : Nat) < 0) ∧
      (∃ msg, ∀ (a : List Cx) (s : List ℚ) (u v : List Cx),
        csvd (fun _ => 0) 1 a 1 1 0 1 0 1 1 s u v = Except.error (CErr.fatal msg)) :=
  ⟨Or.inl (by norm_num),
    c3_no_mutation_on_error (fun _ => 0) 1 1 1 0 1 0 1 1 (Or.inl (by norm_num))⟩


/-- `c` establishes `P` whenever it succeeds. -/
def OkPres {σ : Type} (c : Comp σ) (P : σ → Prop) : Prop :=
  ∀ s', c = Except.ok s' → P s'

theorem okPres_pure {σ : Type} {a : σ} {P : σ → Prop} (h : P a) : OkPres (pure a) P := by
  intro s' hs
  simp at hs
  exact hs ▸ h

theorem okPres_error {σ : Type} {e : CErr} {P : σ → Prop} :
    OkPres (Except.error e : Comp σ) P := by
  intro s' hs
  simp at hs

theorem okPres_bind {α σ : Type} {x : Comp α} {f : α → Comp σ} {Q : α → Prop} {P : σ → Prop}
    (hx : OkPres x Q) (hf : ∀ a, Q a → OkPres (f a) P) : OkPres (x >>= f) P := by
  intro s' hs
  rcases bind_ok_elim hs with ⟨a, h1, h2⟩
  exact hf a (hx a h1) s' h2

theorem okPres_ite {σ : Type} (c : Prop) [Decidable c] {x y : Comp σ} {P : σ → Prop}
    (hx : OkPres x P) (hy : OkPres y P) : OkPres (if c then x else y) P := by
  split
  · exact hx
  · exact hy

theorem okPres_any {α : Type} {x : Comp α} : OkPres x (fun _ => True) :=
  fun _ _ => trivial

theorem okPres_getE {α : Type} {l : List α} {i : Nat} :
    OkPres (getE l i) (fun a => i < l.length ∧ ∀ d, l.getD i d = a) :=
  fun _ h => getE_ok_elim h

theorem okPres_setE {α : Type} {l : List α} {i : Nat} {x : α} :
    OkPres (setE l i x) (fun l' => l' = l.set i x) :=
  fun _ h => (setE_ok_elim h).1

theorem okPres_foldME {α σ : Type} {body : α → σ → Comp σ} {l : List α} {st : σ}
    {P : σ → Prop} (h : ∀ x ∈ l, ∀ s, P s → OkPres (body x s) P) (hP : P st) :
    OkPres (foldME body l st) P :=
  (foldME_inv (E := fun _ => True) (fun x hx s hs => ⟨fun _ _ => trivial, h x hx s hs⟩) hP).2

theorem okPres_mono {σ : Type} {c : Comp σ} {P Q : σ → Prop}
    (h : OkPres c P) (hPQ : ∀ s, P s → Q s) : OkPres c Q :=
  fun s' hs => hPQ s' (h s' hs)


theorem pure_ok_elim {α : Type} {a b : α} (h : (pure a : Comp α) = Except.ok b) : a = b := by
  simp at h
  exact h

/-- The state fields that phase 1 of `csvd` never writes. -/
def SameSUVTE (st0 st : St) : Prop :=
  st.s = st0.s ∧ st.u = st0.u ∧ st.v = st0.v ∧ st.t = st0.t ∧ st.eps = st0.eps

theorem sameSUVTE_refl (st : St) : SameSUVTE st st := ⟨rfl, rfl, rfl, rfl, rfl⟩

theorem sameSUVTE_trans {st0 st1 st2 : St} (h1 : SameSUVTE st0 st1) (h2 : SameSUVTE st1 st2) :
    SameSUVTE st0 st2 := by
  obtain ⟨a1, b1, c1, d1, e1⟩ := h1
  obtain ⟨a2, b2, c2, d2, e2⟩ := h2
  exact ⟨a2.trans a1, b2.trans b1, c2.trans c1, d2.trans d1, e2.trans e1⟩

theorem colStep_pres {sq : ℚ → ℚ} {m n p k : Nat} {st st' : St}
    (h : colStep sq m n p k st = Except.ok st') : SameSUVTE st st' ∧ st'.c = st.c := by
  unfold colStep at h
  rcases bind_ok_elim h with ⟨z, hz, h⟩
  dsimp only at h
  rcases bind_ok_elim h with ⟨b1, hb1, h⟩
  split at h
  · rcases bind_ok_elim h with ⟨b2, hb2, h⟩
    rcases bind_ok_elim h with ⟨akk, hakk, h⟩
    rcases bind_ok_elim h with ⟨a1, ha1, h⟩
    split at h
    · rcases bind_ok_elim h with ⟨st2, hst2, h⟩
      have hP2 : st2.s = st.s ∧ st2.u = st.u ∧ st2.v = st.v ∧ st2.t = st.t ∧
          st2.eps = st.eps ∧ st2.c = st.c := by
        refine (foldME_inv (E := fun _ => True)
          (P := fun (s2 : St) => s2.s = st.s ∧ s2.u = st.u ∧ s2.v = st.v ∧ s2.t = st.t ∧
            s2.eps = st.eps ∧ s2.c = st.c) ?_ ?_).2 st2 hst2
        · intro j _ s2 hs2
          refine ⟨fun _ _ => trivial, ?_⟩
          intro s3 h3
          rcases bind_ok_elim h3 with ⟨q, hq, h3⟩
          refine (foldME_inv (E := fun _ => True)
            (P := fun (s4 : St) => s4.s = st.s ∧ s4.u = st.u ∧ s4.v = st.v ∧ s4.t = st.t ∧
              s4.eps = st.eps ∧ s4.c = st.c) ?_ ?_).2 s3 h3
          · intro i _ s4 hs4
            refine ⟨fun _ _ => trivial, ?_⟩
            intro s5 h5
            rcases bind_ok_elim h5 with ⟨aij, _, h5⟩
            rcases bind_ok_elim h5 with ⟨aik, _, h5⟩
            rcases bind_ok_elim h5 with ⟨a2, _, h5⟩
            rw [← pure_ok_elim h5]
            exact hs4
          · exact hs2
        · exact ⟨rfl, rfl, rfl, rfl, rfl, rfl⟩
      rcases bind_ok_elim h with ⟨akk2, hakk2, h⟩
      have hP4 : st'.s = st.s ∧ st'.u = st.u ∧ st'.v = st.v ∧ st'.t = st.t ∧
          st'.eps = st.eps ∧ st'.c = st.c := by
        refine (foldME_inv (E := fun _ => True)
          (P := fun (s3 : St) => s3.s = st.s ∧ s3.u = st.u ∧ s3.v = st.v ∧ s3.t = st.t ∧
            s3.eps = st.eps ∧ s3.c = st.c) ?_ ?_).2 st' h
        · intro j _ s3 hs3
          refine ⟨fun _ _ => trivial, ?_⟩
          intro s4 h4
          rcases bind_ok_elim h4 with ⟨akj, _, h4⟩
          rcases bind_ok_elim h4 with ⟨a2, _, h4⟩
          rw [← pure_ok_elim h4]
          exact hs3
        · exact hP2
      exact ⟨⟨hP4.1, hP4.2.1, hP4.2.2.1, hP4.2.2.2.1, hP4.2.2.2.2.1⟩, hP4.2.2.2.2.2⟩
    · rw [← pure_ok_elim h]
      exact ⟨⟨rfl, rfl, rfl, rfl, rfl⟩, rfl⟩
  · rw [← pure_ok_elim h]
    exact ⟨⟨rfl, rfl, rfl, rfl, rfl⟩, rfl⟩

theorem rowStep_pres {sq : ℚ → ℚ} {m n k : Nat} {st st' : St}
    (h : rowStep sq m n k st = Except.ok st') :
    SameSUVTE st st' ∧ st'.c.getD 0 0 = st.c.getD 0 0 := by
  unfold rowStep at h
  rcases bind_ok_elim h with ⟨z, hz, h⟩
  dsimp only at h
  rcases bind_ok_elim h with ⟨c1, hc1, h⟩
  have hc1' := setE_ok_elim hc1
  split at h
  · rcases bind_ok_elim h with ⟨c2, hc2, h⟩
    have hc2' := setE_ok_elim hc2
    rcases bind_ok_elim h with ⟨ak1, hak1, h⟩
    rcases bind_ok_elim h with ⟨a1, ha1, h⟩
    rcases bind_ok_elim h with ⟨st2, hst2, h⟩
    have hc0 : c2.getD 0 0 = st.c.getD 0 0 := by
      rw [hc2'.1, hc1'.1, getD_set_ne _ (by omega), getD_set_ne _ (by omega)]
    have hP2 : st2.s = st.s ∧ st2.u = st.u ∧ st2.v = st.v ∧ st2.t = st.t ∧
        st2.eps = st.eps ∧ st2.c = c2 := by
      refine (foldME_inv (E := fun _ => True)
        (P := fun (s2 : St) => s2.s = st.s ∧ s2.u = st.u ∧ s2.v = st.v ∧ s2.t = st.t ∧
          s2.eps = st.eps ∧ s2.c = c2) ?_ ?_).2 st2 hst2
      · intro i _ s2 hs2
        refine ⟨fun _ _ => trivial, ?_⟩
        intro s3 h3
        rcases bind_ok_elim h3 with ⟨q, hq, h3⟩
        refine (foldME_inv (E := fun _ => True)
          (P := fun (s4 : St) => s4.s = st.s ∧ s4.u = st.u ∧ s4.v = st.v ∧ s4.t = st.t ∧
            s4.eps = st.eps ∧ s4.c = c2) ?_ ?_).2 s3 h3
        · intro j _ s4 hs4
          refine ⟨fun _ _ => trivial, ?_⟩
          intro s5 h5
          rcases bind_ok_elim h5 with ⟨aij, _, h5⟩
          rcases bind_ok_elim h5 with ⟨akj, _, h5⟩
          rcases bind_ok_elim h5 with ⟨a2, _, h5⟩
          rw [← pure_ok_elim h5]
          exact hs4
        · exact hs2
      · exact ⟨rfl, rfl, rfl, rfl, rfl, rfl⟩
    rcases bind_ok_elim h with ⟨ak2, hak2, h⟩
    have hP4 : st'.s = st.s ∧ st'.u = st.u ∧ st'.v = st.v ∧ st'.t = st.t ∧
        st'.eps = st.eps ∧ st'.c = c2 := by
      refine (foldME_inv (E := fun _ => True)
        (P := fun (s3 : St) => s3.s = st.s ∧ s3.u = st.u ∧ s3.v = st.v ∧ s3.t = st.t ∧
          s3.eps = st.eps ∧ s3.c = c2) ?_ ?_).2 st' h
      · intro i _ s3 hs3
        refine ⟨fun _ _ => trivial, ?_⟩
        intro s4 h4
        rcases bind_ok_elim h4 with ⟨x, _, h4⟩
        rcases bind_ok_elim h4 with ⟨a2, _, h4⟩
        rw [← pure_ok_elim h4]
        exact hs3
      · exact hP2
    refine ⟨⟨hP4.1, hP4.2.1, hP4.2.2.1, hP4.2.2.2.1, hP4.2.2.2.2.1⟩, ?_⟩
    rw [hP4.2.2.2.2.2, hc0]
  · rw [← pure_ok_elim h]
    refine ⟨⟨rfl, rfl, rfl, rfl, rfl⟩, ?_⟩
    show c1.getD 0 0 = st.c.getD 0 0
    rw [hc1'.1, getD_set_ne _ (by omega)]

theorem householder_pres {sq : ℚ → ℚ} {m n p : Nat} {st st' : St}
    (h : householder sq m n p st = Except.ok st') :
    SameSUVTE st st' ∧ st'.c.getD 0 0 = st.c.getD 0 0 := by
  unfold householder at h
  rcases bind_ok_elim h with ⟨c1, hc1, h⟩
  have hc1' := setE_ok_elim hc1
  dsimp only at h
  have hgoal : (st'.s = st.s ∧ st'.u = st.u ∧ st'.v = st.v ∧ st'.t = st.t ∧
      st'.eps = st.eps) ∧ st'.c.getD 0 0 = c1.getD 0 0 := by
    refine (foldME_inv (E := fun _ => True)
      (P := fun (s2 : St) => (s2.s = st.s ∧ s2.u = st.u ∧ s2.v = st.v ∧ s2.t = st.t ∧
        s2.eps = st.eps) ∧ s2.c.getD 0 0 = c1.getD 0 0) ?_ ?_).2 st' h
    · intro k _ s2 hs2
      refine ⟨fun _ _ => trivial, ?_⟩
      intro s3 h3
      rcases bind_ok_elim h3 with ⟨s25, h25, h3⟩
      have hcol := colStep_pres h25
      split at h3
      · rw [← pure_ok_elim h3]
        refine ⟨?_, ?_⟩
        · obtain ⟨e1, e2, e3, e4, e5⟩ := hcol.1
          obtain ⟨⟨f1, f2, f3, f4, f5⟩, _⟩ := hs2
          exact ⟨e1.trans f1, e2.trans f2, e3.trans f3, e4.trans f4, e5.trans f5⟩
        · rw [hcol.2, hs2.2]
      · have hrow := rowStep_pres h3
        refine ⟨?_, ?_⟩
        · obtain ⟨e1, e2, e3, e4, e5⟩ := hcol.1
          obtain ⟨g1, g2, g3, g4, g5⟩ := hrow.1
          obtain ⟨⟨f1, f2, f3, f4, f5⟩, _⟩ := hs2
          exact ⟨g1.trans (e1.trans f1), g2.trans (e2.trans f2), g3.trans (e3.trans f3),
            g4.trans (e4.trans f4), g5.trans (e5.trans f5)⟩
        · rw [hrow.2, hcol.2, hs2.2]
    · exact ⟨⟨rfl, rfl, rfl, rfl, rfl⟩, rfl⟩
  refine ⟨hgoal.1, ?_⟩
  rw [hgoal.2, hc1'.1, getD_set_ne _ (by omega)]

theorem foldl_max_le_init (f : Nat → ℚ) :
    ∀ (ks : List Nat) (acc : ℚ), acc ≤ ks.foldl (fun a k => max a (f k)) acc := by
  intro ks
  induction ks with
  | nil => intro acc; exact le_refl acc
  | cons k rest ih =>
    intro acc
    rw [List.foldl_cons]
    exact le_trans (le_max_left acc (f k)) (ih (max acc (f k)))

theorem foldl_max_congr (f g : Nat → ℚ) :
    ∀ (ks : List Nat) (acc : ℚ), (∀ k ∈ ks, f k = g k) →
      ks.foldl (fun a k => max a (f k)) acc = ks.foldl (fun a k => max a (g k)) acc := by
  intro ks
  induction ks with
  | nil => intro acc _; rfl
  | cons k rest ih =>
    intro acc hfg
    rw [List.foldl_cons, List.foldl_cons, hfg k (List.mem_cons_self k rest)]
    exact ih _ (fun k' hk' => hfg k' (List.mem_cons_of_mem k hk'))

/-- The invariant of the copy loop of phase 2 (csvd.rs lines 238-242):
`S` receives `B`, `T` receives `C`, `eps` accumulates the running maximum of
`S[k] + T[k]`; every other field is untouched. -/
theorem copyFold_inv :
    ∀ (ks : List Nat) (s0 st2 : St), ks.Nodup →
      foldME (fun k st => do
        let bk ← getE st.b k
        let ck ← getE st.c k
        let s' ← setE st.s k bk
        let t' ← setE st.t k ck
        pure { st with s := s', t := t', eps := max st.eps (bk + ck) }) ks s0 =
          Except.ok st2 →
      (st2.a = s0.a ∧ st2.b = s0.b ∧ st2.c = s0.c ∧ st2.u = s0.u ∧ st2.v = s0.v) ∧
      st2.eps = ks.foldl (fun acc k => max acc (s0.b.getD k 0 + s0.c.getD k 0)) s0.eps ∧
      (∀ i, i ∉ ks → st2.s.getD i 0 = s0.s.getD i 0 ∧ st2.t.getD i 0 = s0.t.getD i 0) ∧
      (∀ k ∈ ks, st2.s.getD k 0 = s0.b.getD k 0 ∧ st2.t.getD k 0 = s0.c.getD k 0) := by
  intro ks
  induction ks with
  | nil =>
    intro s0 st2 _ h
    simp only [foldME_nil] at h
    simp at h
    subst h
    exact ⟨⟨rfl, rfl, rfl, rfl, rfl⟩, rfl, fun i _ => ⟨rfl, rfl⟩, fun k hk => absurd hk (by simp)⟩
  | cons k rest ih =>
    intro s0 st2 hnd h
    rw [foldME_cons] at h
    rcases bind_ok_elim h with ⟨s1, h1, h⟩
    rcases bind_ok_elim h1 with ⟨bk, hbk, h1⟩
    rcases bind_ok_elim h1 with ⟨ck, hck, h1⟩
    rcases bind_ok_elim h1 with ⟨s', hs', h1⟩
    rcases bind_ok_elim h1 with ⟨t', ht', h1⟩
    have hbk' := getE_ok_elim hbk
    have hck' := getE_ok_elim hck
    have hs'' := setE_ok_elim hs'
    have ht'' := setE_ok_elim ht'
    have hs1 := pure_ok_elim h1
    subst hs1
    have hknr : k ∉ rest := (List.nodup_cons.mp hnd).1
    have hih := ih _ st2 (List.nodup_cons.mp hnd).2 h
    simp only at hih
    obtain ⟨⟨ha, hb, hc, hu, hv⟩, heps, hout, hin⟩ := hih
    refine ⟨⟨ha, hb, hc, hu, hv⟩, ?_, ?_, ?_⟩
    · rw [List.foldl_cons, heps, ← hbk'.2 0, ← hck'.2 0]
    · intro i hi
      have hik : i ≠ k := fun he => hi (he ▸ List.mem_cons_self k rest)
      have hir : i ∉ rest := fun he => hi (List.mem_cons_of_mem k he)
      have hoi := hout i hir
      rw [hoi.1, hoi.2, hs''.1, ht''.1, getD_set_ne _ (Ne.symm hik),
        getD_set_ne _ (Ne.symm hik)]
      exact ⟨rfl, rfl⟩
    · intro k' hk'
      rcases List.mem_cons.mp hk' with he | hr
      · subst he
        have hoi := hout k' hknr
        rw [hoi.1, hoi.2, hs''.1, ht''.1, getD_set_self hs''.2, getD_set_self ht''.2]
        rw [← hbk'.2 0, ← hck'.2 0]
        exact ⟨rfl, rfl⟩
      · exact hin k' hr

/-- What phase 2 setup establishes: `A`, `B`, `C` untouched, `eps` is the
maximum of `S[k] + T[k]` (taken from 0) times `eta`, and `S`, `T` hold copies
of `B`, `C` on indices below `n`. -/
theorem phase2Init_post {m n nu nv : Nat} {st st' : St}
    (h : phase2Init m n nu nv st = Except.ok st') :
    (st'.a = st.a ∧ st'.b = st.b ∧ st'.c = st.c) ∧
    st'.eps = ((List.range n).foldl
      (fun acc k => max acc (st.b.getD k 0 + st.c.getD k 0)) 0) * eta ∧
    (∀ k, k < n → st'.s.getD k 0 = st.b.getD k 0 ∧ st'.t.getD k 0 = st.c.getD k 0) := by
  unfold phase2Init at h
  dsimp only at h
  rcases bind_ok_elim h with ⟨st2, h2, h⟩
  have hcopy := copyFold_inv (List.range n) _ st2 (List.nodup_range n) h2
  simp only at hcopy
  obtain ⟨⟨ha2, hb2, hc2, hu2, hv2⟩, heps2, _, hin2⟩ := hcopy
  have hafter : ∀ st3 st4 : St,
      (st3.a = st2.a ∧ st3.b = st2.b ∧ st3.c = st2.c ∧ st3.s = st2.s ∧ st3.t = st2.t ∧
        st3.eps = st2.eps * eta) →
      (if 0 < nv then
        foldME (fun j st => do
          let st ← foldME (fun i st => do
            let v' ← setE st.v (i * n + j) (⟨0, 0⟩ : Cx)
            pure { st with v := v' }) (List.range n) st
          let v' ← setE st.v (j * n + j) (⟨1, 0⟩ : Cx)
          pure { st with v := v' }) (List.range nv) st3
      else pure st3) = Except.ok st4 →
      (st4.a = st2.a ∧ st4.b = st2.b ∧ st4.c = st2.c ∧ st4.s = st2.s ∧ st4.t = st2.t ∧
        st4.eps = st2.eps * eta) := by
    intro st3 st4 hst3 h4
    split at h4
    · refine (foldME_inv (E := fun _ => True)
        (P := fun (s4 : St) => s4.a = st2.a ∧ s4.b = st2.b ∧ s4.c = st2.c ∧ s4.s = st2.s ∧
          s4.t = st2.t ∧ s4.eps = st2.eps * eta) ?_ ?_).2 st4 h4
      · intro j _ s4 hs4
        refine ⟨fun _ _ => trivial, ?_⟩
        intro s5 h5
        rcases bind_ok_elim h5 with ⟨s45, h45, h5⟩
        have h45' : s45.a = st2.a ∧ s45.b = st2.b ∧ s45.c = st2.c ∧ s45.s = st2.s ∧
            s45.t = st2.t ∧ s45.eps = st2.eps * eta := by
          refine (foldME_inv (E := fun _ => True)
            (P := fun (s6 : St) => s6.a = st2.a ∧ s6.b = st2.b ∧ s6.c = st2.c ∧
              s6.s = st2.s ∧ s6.t = st2.t ∧ s6.eps = st2.eps * eta) ?_ ?_).2 s45 h45
          · intro i _ s6 hs6
            refine ⟨fun _ _ => trivial, ?_⟩
            intro s7 h7
            rcases bind_ok_elim h7 with ⟨v', _, h7⟩
            rw [← pure_ok_elim h7]
            exact hs6
          · exact hs4
        rcases bind_ok_elim h5 with ⟨v', _, h5⟩
        rw [← pure_ok_elim h5]
        exact h45'
      · exact hst3
    · rw [← pure_ok_elim h4]
      exact hst3
  have hmain : st'.a = st2.a ∧ st'.b = st2.b ∧ st'.c = st2.c ∧ st'.s = st2.s ∧
      st'.t = st2.t ∧ st'.eps = st2.eps * eta := by
    split at h
    · rcases bind_ok_elim h with ⟨st3, h3, h⟩
      have h3' : st3.a = st2.a ∧ st3.b = st2.b ∧ st3.c = st2.c ∧ st3.s = st2.s ∧
          st3.t = st2.t ∧ st3.eps = st2.eps * eta := by
        refine (foldME_inv (E := fun _ => True)
          (P := fun (s4 : St) => s4.a = st2.a ∧ s4.b = st2.b ∧ s4.c = st2.c ∧ s4.s = st2.s ∧
            s4.t = st2.t ∧ s4.eps = st2.eps * eta) ?_ ?_).2 st3 h3
        · intro j _ s4 hs4
          refine ⟨fun _ _ => trivial, ?_⟩
          intro s5 h5
          rcases bind_ok_elim h5 with ⟨s45, h45, h5⟩
          have h45' : s45.a = st2.a ∧ s45.b = st2.b ∧ s45.c = st2.c ∧ s45.s = st2.s ∧
              s45.t = st2.t ∧ s45.eps = st2.eps * eta := by
            refine (foldME_inv (E := fun _ => True)
              (P := fun (s6 : St) => s6.a = st2.a ∧ s6.b = st2.b ∧ s6.c = st2.c ∧
                s6.s = st2.s ∧ s6.t = st2.t ∧ s6.eps = st2.eps * eta) ?_ ?_).2 s45 h45
            · intro i _ s6 hs6
              refine ⟨fun _ _ => trivial, ?_⟩
              intro s7 h7
              rcases bind_ok_elim h7 with ⟨u', _, h7⟩
              rw [← pure_ok_elim h7]
              exact hs6
            · exact hs4
          rcases bind_ok_elim h5 with ⟨u', _, h5⟩
          rw [← pure_ok_elim h5]
          exact h45'
        · exact ⟨rfl, rfl, rfl, rfl, rfl, rfl⟩
      exact hafter st3 st' h3' h
    · rcases bind_ok_elim h with ⟨st3, h3, h⟩
      have h3' := pure_ok_elim h3
      exact hafter st3 st' (by rw [← h3']; exact ⟨rfl, rfl, rfl, rfl, rfl, rfl⟩) h
  refine ⟨⟨hmain.1.trans ha2, hmain.2.1.trans hb2, hmain.2.2.1.trans hc2⟩, ?_, ?_⟩
  · rw [hmain.2.2.2.2.2, heps2]
  · intro k hk
    have hcp := hin2 k (List.mem_range.mpr hk)
    rw [hmain.2.2.2.1, hmain.2.2.2.2.1, hcp.1, hcp.2]
    exact ⟨rfl, rfl⟩

theorem splitScan_le {s t : List ℚ} {eps : ℚ} :
    ∀ {l0 l : Nat}, splitScan s t eps l0 = Except.ok l → l ≤ l0 := by
  intro l0
  induction l0 with
  | zero =>
    intro l h
    unfold splitScan at h
    rcases bind_ok_elim h with ⟨tl, _, h⟩
    split at h
    · exact Nat.le_of_eq (pure_ok_elim h).symm
    · rcases bind_ok_elim h with ⟨l', hl', h⟩
      exact absurd hl' (by unfold csub; simp)
  | succ l0 ih =>
    intro l h
    unfold splitScan at h
    rcases bind_ok_elim h with ⟨tl, _, h⟩
    split at h
    · exact Nat.le_of_eq (pure_ok_elim h).symm
    · rcases bind_ok_elim h with ⟨sl, _, h⟩
      split at h
      · exact Nat.le_of_eq (pure_ok_elim h).symm
      · exact Nat.le_trans (ih h) (Nat.le_succ l0)

/-- Under the invariant `T[0] = 0` and `0 ≤ eps`, the split scan never
reaches the underflowing `l - 1` at `l = 0`: its first test fires there. -/
theorem splitScan_no_underflow {s t : List ℚ} {eps : ℚ}
    (ht0 : t.getD 0 0 = 0) (heps : 0 ≤ eps) :
    ∀ (l : Nat), ErrsIn (splitScan s t eps l) EOob := by
  intro l
  induction l with
  | zero =>
    intro e he
    unfold splitScan at he
    rcases bind_err_elim he with h1 | ⟨tl, h1, h2⟩
    · exact getE_err_elim h1
    · have htl : tl = 0 := by rw [← (getE_ok_elim h1).2 0, ht0]
      rw [if_pos (by rw [htl]; simpa using heps)] at h2
      simp at h2
  | succ l ih =>
    intro e he
    unfold splitScan at he
    rcases bind_err_elim he with h1 | ⟨tl, h1, h2⟩
    · exact getE_err_elim h1
    · split at h2
      · simp at h2
      · rcases bind_err_elim h2 with h3 | ⟨sl, h3, h4⟩
        · exact getE_err_elim h3
        · split at h4
          · simp at h4
          · exact ih e h4

/-- The cancellation sweep leaves `eps`, `a`, `b`, `c` unchanged, and every
`S`/`T` entry at an index outside the sweep's index list. -/
theorem cancelInner_pres {sq : ℚ → ℚ} {nu m n : Nat} {eps : ℚ} {l1 : Nat} :
    ∀ (is : List Nat) (cs sn : ℚ) (st st' : St),
      cancelInner sq nu m n eps l1 is cs sn st = Except.ok st' →
      (st'.eps = st.eps ∧ st'.a = st.a ∧ st'.b = st.b ∧ st'.c = st.c) ∧
      (∀ p, p ∉ is → st'.t.getD p 0 = st.t.getD p 0 ∧ st'.s.getD p 0 = st.s.getD p 0) := by
  intro is
  induction is with
  | nil =>
    intro cs sn st st' h
    rw [show cancelInner sq nu m n eps l1 [] cs sn st = pure st from rfl] at h
    rw [← pure_ok_elim h]
    exact ⟨⟨rfl, rfl, rfl, rfl⟩, fun p _ => ⟨rfl, rfl⟩⟩
  | cons i rest ih =>
    intro cs sn st st' h
    unfold cancelInner at h
    rcases bind_ok_elim h with ⟨ti, hti, h⟩
    dsimp only at h
    rcases bind_ok_elim h with ⟨t', ht', h⟩
    have ht'' := setE_ok_elim ht'
    split at h
    · rw [← pure_ok_elim h]
      refine ⟨⟨rfl, rfl, rfl, rfl⟩, ?_⟩
      intro p hp
      have hpi : p ≠ i := fun he => hp (he ▸ List.mem_cons_self i rest)
      rw [ht''.1, getD_set_ne _ (Ne.symm hpi)]
      exact ⟨rfl, rfl⟩
    · rcases bind_ok_elim h with ⟨hv, hhv, h⟩
      rcases bind_ok_elim h with ⟨s', hs', h⟩
      have hs'' := setE_ok_elim hs'
      split at h
      · rcases bind_ok_elim h with ⟨st2, hst2, h⟩
        have hst2' : st2.eps = st.eps ∧ st2.a = st.a ∧ st2.b = st.b ∧ st2.c = st.c ∧
            st2.s = s' ∧ st2.t = t' := by
          refine (foldME_inv (E := fun _ => True)
            (P := fun (s3 : St) => s3.eps = st.eps ∧ s3.a = st.a ∧ s3.b = st.b ∧
              s3.c = st.c ∧ s3.s = s' ∧ s3.t = t') ?_ ?_).2 st2 hst2
          · intro j _ s3 hs3
            refine ⟨fun _ _ => trivial, ?_⟩
            intro s4 h4
            rcases bind_ok_elim h4 with ⟨x, _, h4⟩
            rcases bind_ok_elim h4 with ⟨y, _, h4⟩
            rcases bind_ok_elim h4 with ⟨u', _, h4⟩
            rcases bind_ok_elim h4 with ⟨u'', _, h4⟩
            rw [← pure_ok_elim h4]
            exact hs3
          · exact ⟨rfl, rfl, rfl, rfl, rfl, rfl⟩
        have hih := ih _ _ st2 st' h
        refine ⟨⟨(hih.1.1).trans hst2'.1, (hih.1.2.1).trans hst2'.2.1,
          (hih.1.2.2.1).trans hst2'.2.2.1, (hih.1.2.2.2).trans hst2'.2.2.2.1⟩, ?_⟩
        intro p hp
        have hpi : p ≠ i := fun he => hp (he ▸ List.mem_cons_self i rest)
        have hpr : p ∉ rest := fun he => hp (List.mem_cons_of_mem i he)
        have h5 := hih.2 p hpr
        rw [h5.1, h5.2, hst2'.2.2.2.2.2, hst2'.2.2.2.2.1, hs''.1, ht''.1,
          getD_set_ne _ (Ne.symm hpi), getD_set_ne _ (Ne.symm hpi)]
        exact ⟨rfl, rfl⟩
      · rcases bind_ok_elim h with ⟨st2, hst2, h⟩
        have hst2' := pure_ok_elim hst2
        have hih := ih _ _ st2 st' h
        subst hst2'
        refine ⟨⟨hih.1.1, hih.1.2.1, hih.1.2.2.1, hih.1.2.2.2⟩, ?_⟩
        intro p hp
        have hpi : p ≠ i := fun he => hp (he ▸ List.mem_cons_self i rest)
        have hpr : p ∉ rest := fun he => hp (List.mem_cons_of_mem i he)
        have h5 := hih.2 p hpr
        rw [h5.1, h5.2]
        dsimp only
        rw [hs''.1, ht''.1, getD_set_ne _ (Ne.symm hpi), getD_set_ne _ (Ne.symm hpi)]
        exact ⟨rfl, rfl⟩

theorem qrSweep_pres {sq : ℚ → ℚ} {nu nv m n : Nat} :
    ∀ (is : List Nat) (cs sn f x : ℚ) (st : St) (st' : St) (f' x' : ℚ),
      qrSweep sq nu nv m n is cs sn f x st = Except.ok (st', f', x') →
      (st'.eps = st.eps ∧ st'.a = st.a ∧ st'.b = st.b ∧ st'.c = st.c) ∧
      (∀ p, (∀ i ∈ is, i - 1 ≠ p) →
        st'.t.getD p 0 = st.t.getD p 0 ∧ st'.s.getD p 0 = st.s.getD p 0) := by
  intro is
  induction is with
  | nil =>
    intro cs sn f x st st' f' x' h
    rw [show qrSweep sq nu nv m n [] cs sn f x st = pure (st, f, x) from rfl] at h
    have h2 := pure_ok_elim h
    have h3 : st = st' := congrArg Prod.fst h2
    subst h3
    exact ⟨⟨rfl, rfl, rfl, rfl⟩, fun p _ => ⟨rfl, rfl⟩⟩
  | cons i rest ih =>
    intro cs sn f x st st' f' x' h
    have hstep : ∀ (stm : St), stm.eps = st.eps → stm.a = st.a → stm.b = st.b →
        stm.c = st.c →
        (∀ p, i - 1 ≠ p → stm.t.getD p 0 = st.t.getD p 0 ∧ stm.s.getD p 0 = st.s.getD p 0) →
        ∀ (cs2 sn2 f2 x2 : ℚ),
        qrSweep sq nu nv m n rest cs2 sn2 f2 x2 stm = Except.ok (st', f', x') →
        (st'.eps = st.eps ∧ st'.a = st.a ∧ st'.b = st.b ∧ st'.c = st.c) ∧
        (∀ p, (∀ i' ∈ i :: rest, i' - 1 ≠ p) →
          st'.t.getD p 0 = st.t.getD p 0 ∧ st'.s.getD p 0 = st.s.getD p 0) := by
      intro stm he ha hb hc hts cs2 sn2 f2 x2 hrec
      have hih := ih cs2 sn2 f2 x2 stm st' f' x' hrec
      refine ⟨⟨hih.1.1.trans he, hih.1.2.1.trans ha, hih.1.2.2.1.trans hb,
        hih.1.2.2.2.trans hc⟩, ?_⟩
      intro p hp
      have hpi : i - 1 ≠ p := hp i (List.mem_cons_self i rest)
      have hpr : ∀ i' ∈ rest, i' - 1 ≠ p := fun i' hi' => hp i' (List.mem_cons_of_mem i hi')
      have h5 := hih.2 p hpr
      have h6 := hts p hpi
      exact ⟨h5.1.trans h6.1, h5.2.trans h6.2⟩
    unfold qrSweep at h
    rcases bind_ok_elim h with ⟨g, hg, h⟩
    rcases bind_ok_elim h with ⟨y, hy, h⟩
    dsimp only at h
    rcases bind_ok_elim h with ⟨t', ht', h⟩
    have ht'' := setE_ok_elim ht'
    have htpres : ∀ p, i - 1 ≠ p → t'.getD p 0 = st.t.getD p 0 := by
      intro p hpi
      rw [ht''.1, getD_set_ne _ hpi]
    split at h
    · rcases bind_ok_elim h with ⟨st2, hst2, h⟩
      have hst2' : st2.eps = st.eps ∧ st2.a = st.a ∧ st2.b = st.b ∧ st2.c = st.c ∧
          st2.s = st.s ∧ st2.t = t' := by
        refine (foldME_inv (E := fun _ => True)
          (P := fun (s3 : St) => s3.eps = st.eps ∧ s3.a = st.a ∧ s3.b = st.b ∧
            s3.c = st.c ∧ s3.s = st.s ∧ s3.t = t') ?_ ?_).2 st2 hst2
        · intro j _ s3 hs3
          refine ⟨fun _ _ => trivial, ?_⟩
          intro s4 h4
          rcases bind_ok_elim h4 with ⟨xv, _, h4⟩
          rcases bind_ok_elim h4 with ⟨wv, _, h4⟩
          rcases bind_ok_elim h4 with ⟨v1, _, h4⟩
          rcases bind_ok_elim h4 with ⟨v2, _, h4⟩
          rw [← pure_ok_elim h4]
          exact hs3
        · exact ⟨rfl, rfl, rfl, rfl, rfl, rfl⟩
      rcases bind_ok_elim h with ⟨s', hs', h⟩
      have hs'' := setE_ok_elim hs'
      have hspres : ∀ p, i - 1 ≠ p → s'.getD p 0 = st.s.getD p 0 := by
        intro p hpi
        rw [hs''.1, hst2'.2.2.2.2.1, getD_set_ne _ hpi]
      split at h
      · rcases bind_ok_elim h with ⟨st3, hst3, h⟩
        have hst3' : st3.eps = st.eps ∧ st3.a = st.a ∧ st3.b = st.b ∧ st3.c = st.c ∧
            st3.s = s' ∧ st3.t = t' := by
          refine (foldME_inv (E := fun _ => True)
            (P := fun (s4 : St) => s4.eps = st.eps ∧ s4.a = st.a ∧ s4.b = st.b ∧
              s4.c = st.c ∧ s4.s = s' ∧ s4.t = t') ?_ ?_).2 st3 hst3
          · intro j _ s4 hs4
            refine ⟨fun _ _ => trivial, ?_⟩
            intro s5 h5
            rcases bind_ok_elim h5 with ⟨yu, _, h5⟩
            rcases bind_ok_elim h5 with ⟨wu, _, h5⟩
            rcases bind_ok_elim h5 with ⟨u1, _, h5⟩
            rcases bind_ok_elim h5 with ⟨u2, _, h5⟩
            rw [← pure_ok_elim h5]
            exact hs4
          · exact ⟨hst2'.1, hst2'.2.1, hst2'.2.2.1, hst2'.2.2.2.1, rfl, hst2'.2.2.2.2.2⟩
        refine hstep st3 hst3'.1 hst3'.2.1 hst3'.2.2.1 hst3'.2.2.2.1 ?_ _ _ _ _ h
        intro p hpi
        rw [hst3'.2.2.2.2.2, hst3'.2.2.2.2.1]
        exact ⟨htpres p hpi, hspres p hpi⟩
      · rcases bind_ok_elim h with ⟨st3, hst3, h⟩
        have hst3' := pure_ok_elim hst3
        subst hst3'
        refine hstep ⟨st2.a, s', st2.u, st2.v, st2.b, st2.c, st2.t, st2.eps⟩
          hst2'.1 hst2'.2.1 hst2'.2.2.1 hst2'.2.2.2.1 ?_ _ _ _ _ h
        intro p hpi
        dsimp only
        rw [hst2'.2.2.2.2.2]
        exact ⟨htpres p hpi, hspres p hpi⟩
    · rcases bind_ok_elim h with ⟨st2, hst2, h⟩
      have hst2' := pure_ok_elim hst2
      subst hst2'
      rcases bind_ok_elim h with ⟨s', hs', h⟩
      have hs'' := setE_ok_elim hs'
      have hspres : ∀ p, i - 1 ≠ p → s'.getD p 0 = st.s.getD p 0 := by
        intro p hpi
        rw [hs''.1]
        dsimp only
        rw [getD_set_ne _ hpi]
      split at h
      · rcases bind_ok_elim h with ⟨st3, hst3, h⟩
        have hst3' : st3.eps = st.eps ∧ st3.a = st.a ∧ st3.b = st.b ∧ st3.c = st.c ∧
            st3.s = s' ∧ st3.t = t' := by
          refine (foldME_inv (E := fun _ => True)
            (P := fun (s4 : St) => s4.eps = st.eps ∧ s4.a = st.a ∧ s4.b = st.b ∧
              s4.c = st.c ∧ s4.s = s' ∧ s4.t = t') ?_ ?_).2 st3 hst3
          · intro j _ s4 hs4
            refine ⟨fun _ _ => trivial, ?_⟩
            intro s5 h5
            rcases bind_ok_elim h5 with ⟨yu, _, h5⟩
            rcases bind_ok_elim h5 with ⟨wu, _, h5⟩
            rcases bind_ok_elim h5 with ⟨u1, _, h5⟩
            rcases bind_ok_elim h5 with ⟨u2, _, h5⟩
            rw [← pure_ok_elim h5]
            exact hs4
          · exact ⟨rfl, rfl, rfl, rfl, rfl, rfl⟩
        refine hstep st3 hst3'.1 hst3'.2.1 hst3'.2.2.1 hst3'.2.2.2.1 ?_ _ _ _ _ h
        intro p hpi
        rw [hst3'.2.2.2.2.2, hst3'.2.2.2.2.1]
        exact ⟨htpres p hpi, hspres p hpi⟩
      · rcases bind_ok_elim h with ⟨st3, hst3, h⟩
        have hst3' := pure_ok_elim hst3
        subst hst3'
        refine hstep ⟨st.a, s', st.u, st.v, st.b, st.c, t', st.eps⟩
          rfl rfl rfl rfl ?_ _ _ _ _ h
        intro p hpi
        exact ⟨htpres p hpi, hspres p hpi⟩

theorem getD_set_idx_zero (t : List ℚ) (i : Nat) : (t.set i 0).getD i 0 = 0 := by
  rcases Nat.lt_or_ge i t.length with h | h
  · exact getD_set_self h 0 0
  · exact getD_oob (by simpa using h) 0

/-- What one converged run of the QR inner loop guarantees, relative to its
start state: `eps`, `A`, `B`, `C` unchanged, `S` unchanged above index `k`,
the returned `w` is the final `S[k]`, and `T[0] = 0` is preserved. -/
def QrPost (k : Nat) (st st' : St) (w : ℚ) : Prop :=
  (st'.eps = st.eps ∧ st'.a = st.a ∧ st'.b = st.b ∧ st'.c = st.c) ∧
  (∀ i, k < i → st'.s.getD i 0 = st.s.getD i 0) ∧
  st'.s.getD k 0 = w ∧
  (st.t.getD 0 0 = 0 → 0 ≤ st.eps → st'.t.getD 0 0 = 0)

theorem qrConverge_pres {sq : ℚ → ℚ} {nu nv m n k l : Nat} (hlk : l ≤ k)
    {rec : St → Comp (St × ℚ)}
    (hrec : ∀ stm st2 w2, rec stm = Except.ok (st2, w2) → QrPost k stm st2 w2) :
    ∀ (st st' : St) (w : ℚ),
      qrConverge sq nu nv m n k l rec st = Except.ok (st', w) → QrPost k st st' w := by
  intro st st' w h
  unfold qrConverge at h
  rcases bind_ok_elim h with ⟨w1, hw1, h⟩
  split at h
  · have h2 := pure_ok_elim h
    have hst : st = st' := congrArg Prod.fst h2
    have hw : w1 = w := congrArg Prod.snd h2
    subst hst
    subst hw
    exact ⟨⟨rfl, rfl, rfl, rfl⟩, fun _ _ => rfl, (getE_ok_elim hw1).2 0, fun h0 _ => h0⟩
  · next hlne =>
    have hk1 : 1 ≤ k := by omega
    rcases bind_ok_elim h with ⟨x1, hx1, h⟩
    rcases bind_ok_elim h with ⟨y1, hy1, h⟩
    rcases bind_ok_elim h with ⟨g1, hg1, h⟩
    rcases bind_ok_elim h with ⟨h1, hh1, h⟩
    dsimp only at h
    rcases bind_ok_elim h with ⟨trip, hsw, h⟩
    obtain ⟨st4, f4, x4⟩ := trip
    dsimp only at h
    have hswp := qrSweep_pres _ _ _ _ _ _ _ _ _ hsw
    rcases bind_ok_elim h with ⟨t', ht', h⟩
    rcases bind_ok_elim h with ⟨t'', ht'', h⟩
    rcases bind_ok_elim h with ⟨s', hs', h⟩
    have ht'e := setE_ok_elim ht'
    have ht''e := setE_ok_elim ht''
    have hs'e := setE_ok_elim hs'
    have hrecp := hrec _ st' w h
    have hsweepIdx : ∀ p, k ≤ p → ∀ i' ∈ List.range' (l + 1) (k - l), i' - 1 ≠ p := by
      intro p hp i' hi'
      have := List.mem_range'_1.mp hi'
      omega
    refine ⟨⟨hrecp.1.1.trans hswp.1.1, hrecp.1.2.1.trans hswp.1.2.1,
      hrecp.1.2.2.1.trans hswp.1.2.2.1, hrecp.1.2.2.2.trans hswp.1.2.2.2⟩, ?_, ?_, ?_⟩
    · intro i hi
      have h5 := hrecp.2.1 i hi
      rw [h5]
      show s'.getD i 0 = st.s.getD i 0
      rw [hs'e.1, getD_set_ne _ (by omega)]
      exact (hswp.2 i (hsweepIdx i (by omega))).2
    · exact hrecp.2.2.1
    · intro ht0 heps
      refine hrecp.2.2.2 ?_ ?_
      · show t''.getD 0 0 = 0
        rw [ht''e.1, getD_set_ne _ (by omega)]
        rcases Nat.eq_zero_or_pos l with hl0 | hlpos
        · subst hl0
          rw [ht'e.1]
          exact getD_set_idx_zero st4.t 0
        · rw [ht'e.1, getD_set_ne _ (by omega)]
          rw [(hswp.2 0 (fun i' hi' => by
            have := List.mem_range'_1.mp hi'
            omega)).1]
          exact ht0
      · show 0 ≤ st4.eps
        rw [hswp.1.1]
        exact heps

theorem qrInner_pres {sq : ℚ → ℚ} {nu nv m n : Nat} :
    ∀ (fuel k : Nat) (st st' : St) (w : ℚ),
      qrInner sq nu nv m n fuel k st = Except.ok (st', w) → QrPost k st st' w := by
  intro fuel
  induction fuel with
  | zero =>
    intro k st st' w h
    rw [show qrInner sq nu nv m n 0 k st = Except.error CErr.fuelOut from rfl] at h
    simp at h
  | succ fu ih =>
    intro k st st' w h
    unfold qrInner at h
    rcases bind_ok_elim h with ⟨l, hl, h⟩
    have hlk := splitScan_le hl
    rcases bind_ok_elim h with ⟨tl, htl, h⟩
    dsimp only at h
    split at h
    · rcases bind_ok_elim h with ⟨st2, h2, h⟩
      have h2' := pure_ok_elim h2
      subst h2'
      exact qrConverge_pres hlk (fun stm st2 w2 hr => ih k stm st2 w2 hr) st st' w h
    · rcases bind_ok_elim h with ⟨l1, hsub, h⟩
      have hsube := csub_ok_elim hsub
      rcases bind_ok_elim h with ⟨sl, hsl, h⟩
      split at h
      · rcases bind_ok_elim h with ⟨st2, hc, h⟩
        have hcp := cancelInner_pres _ _ _ st st2 hc
        have hconv := qrConverge_pres hlk (fun stm st3 w3 hr => ih k stm st3 w3 hr) st2 st' w h
        have hnotin : ∀ p, p < l → p ∉ List.range' l (k + 1 - l) := by
          intro p hp hmem
          have := List.mem_range'_1.mp hmem
          omega
        have hnotin2 : ∀ p, k < p → p ∉ List.range' l (k + 1 - l) := by
          intro p hp hmem
          have := List.mem_range'_1.mp hmem
          omega
        refine ⟨⟨hconv.1.1.trans hcp.1.1, hconv.1.2.1.trans hcp.1.2.1,
          hconv.1.2.2.1.trans hcp.1.2.2.1, hconv.1.2.2.2.trans hcp.1.2.2.2⟩, ?_, ?_, ?_⟩
        · intro i hi
          rw [hconv.2.1 i hi]
          exact (hcp.2 i (hnotin2 i hi)).2
        · exact hconv.2.2.1
        · intro ht0 heps
          refine hconv.2.2.2 ?_ ?_
          · rw [(hcp.2 0 (hnotin 0 (by omega))).1]
            exact ht0
          · rw [hcp.1.1]
            exact heps
      · rcases bind_ok_elim h with ⟨st2, h2, h⟩
        have h2' := pure_ok_elim h2
        subst h2'
        exact qrConverge_pres hlk (fun stm st3 w3 hr => ih k stm st3 w3 hr) st st' w h

/-- The error class excluding underflow: indexing or fuel exhaustion. -/
def ENoUf : CErr → Prop := fun e => e = CErr.oob ∨ e = CErr.fuelOut

theorem qrConverge_no_underflow {sq : ℚ → ℚ} {nu nv m n k l : Nat} (hlk : l ≤ k)
    {rec : St → Comp (St × ℚ)}
    (hrec : ∀ stm, stm.t.getD 0 0 = 0 → 0 ≤ stm.eps → ErrsIn (rec stm) ENoUf)
    (st : St) (ht0 : st.t.getD 0 0 = 0) (heps : 0 ≤ st.eps) :
    ErrsIn (qrConverge sq nu nv m n k l rec st) ENoUf := by
  intro e he
  unfold qrConverge at he
  rcases bind_err_elim he with h1 | ⟨w1, hw1, he⟩
  · exact Or.inl (getE_err_elim h1)
  split at he
  · simp at he
  · next hlne =>
    have hk1 : 1 ≤ k := by omega
    rcases bind_err_elim he with h1 | ⟨x1, hx1, he⟩
    · exact Or.inl (getE_err_elim h1)
    rcases bind_err_elim he with h1 | ⟨y1, hy1, he⟩
    · exact Or.inl (getE_err_elim h1)
    rcases bind_err_elim he with h1 | ⟨g1, hg1, he⟩
    · exact Or.inl (getE_err_elim h1)
    rcases bind_err_elim he with h1 | ⟨h1v, hh1, he⟩
    · exact Or.inl (getE_err_elim h1)
    dsimp only at he
    rcases bind_err_elim he with h1 | ⟨trip, hsw, he⟩
    · exact Or.inl (qrSweep_errs sq nu nv m n _ _ _ _ _ _ e h1)
    obtain ⟨st4, f4, x4⟩ := trip
    dsimp only at he
    have hswp := qrSweep_pres _ _ _ _ _ _ _ _ _ hsw
    rcases bind_err_elim he with h1 | ⟨t', ht', he⟩
    · exact Or.inl (setE_err_elim h1)
    rcases bind_err_elim he with h1 | ⟨t'', ht'', he⟩
    · exact Or.inl (setE_err_elim h1)
    rcases bind_err_elim he with h1 | ⟨s', hs', he⟩
    · exact Or.inl (setE_err_elim h1)
    have ht'e := setE_ok_elim ht'
    have ht''e := setE_ok_elim ht''
    refine hrec _ ?_ ?_ e he
    · show t''.getD 0 0 = 0
      rw [ht''e.1, getD_set_ne _ (by omega)]
      rcases Nat.eq_zero_or_pos l with hl0 | hlpos
      · subst hl0
        rw [ht'e.1]
        exact getD_set_idx_zero st4.t 0
      · rw [ht'e.1, getD_set_ne _ (by omega)]
        rw [(hswp.2 0 (fun i' hi' => by
          have := List.mem_range'_1.mp hi'
          omega)).1]
        exact ht0
    · show 0 ≤ st4.eps
      rw [hswp.1.1]
      exact heps

theorem qrInner_no_underflow {sq : ℚ → ℚ} {nu nv m n : Nat} :
    ∀ (fuel k : Nat) (st : St), st.t.getD 0 0 = 0 → 0 ≤ st.eps →
      ErrsIn (qrInner sq nu nv m n fuel k st) ENoUf := by
  intro fuel
  induction fuel with
  | zero =>
    intro k st _ _
    exact errsIn_error (Or.inr rfl)
  | succ fu ih =>
    intro k st ht0 heps e he
    unfold qrInner at he
    rcases bind_err_elim he with h1 | ⟨l, hl, he⟩
    · exact Or.inl (splitScan_no_underflow ht0 heps k e h1)
    have hlk := splitScan_le hl
    rcases bind_err_elim he with h1 | ⟨tl, htl, he⟩
    · exact Or.inl (getE_err_elim h1)
    dsimp only at he
    split at he
    · rcases bind_err_elim he with h1 | ⟨st2, h2, he⟩
      · simp at h1
      have h2' := pure_ok_elim h2
      subst h2'
      exact qrConverge_no_underflow hlk (fun stm hm1 hm2 => ih k stm hm1 hm2)
        st ht0 heps e he
    · next hneg =>
      have hl1 : 1 ≤ l := by
        rcases Nat.eq_zero_or_pos l with hl0 | h
        · exfalso
          apply hneg
          have : tl = 0 := by
            rw [← (getE_ok_elim htl).2 0, hl0, ht0]
          rw [this]
          simpa using heps
        · exact h
      rw [csub_ok_of_le hl1] at he
      rw [ok_bind] at he
      rcases bind_err_elim he with h1 | ⟨sl, hsl, he⟩
      · exact Or.inl (getE_err_elim h1)
      split at he
      · rcases bind_err_elim he with h1 | ⟨st2, hc, he⟩
        · exact Or.inl (cancelInner_errs sq nu m n st.eps _ _ 0 1 st e h1)
        have hcp := cancelInner_pres _ _ _ st st2 hc
        refine qrConverge_no_underflow hlk (fun stm hm1 hm2 => ih k stm hm1 hm2)
          st2 ?_ ?_ e he
        · rw [(hcp.2 0 (fun hmem => by
            have := List.mem_range'_1.mp hmem
            omega)).1]
          exact ht0
        · rw [hcp.1.1]
          exact heps
      · rcases bind_err_elim he with h1 | ⟨st2, h2, he⟩
        · simp at h1
        have h2' := pure_ok_elim h2
        subst h2'
        exact qrConverge_no_underflow hlk (fun stm hm1 hm2 => ih k stm hm1 hm2)
          st ht0 heps e he

/-- One outer iteration of the QR phase finalizes `S[n-1-kk] ≥ 0`, preserves
entries above it, and leaves `eps`, `A`, `B`, `C` and the `T[0] = 0`
invariant intact; accumulated over the loop, every `S[i]` is non-negative. -/
theorem qrPhaseFold_post {sq : ℚ → ℚ} {nu nv m n fuel : Nat} :
    ∀ (cnt kk0 : Nat) (st st' : St), kk0 + cnt = n →
      foldME (fun kk st => do
        let k := n - 1 - kk
        let (st, w) ← qrInner sq nu nv m n fuel k st
        if w < 0 then do
          let s' ← setE st.s k (-w)
          let st := { st with s := s' }
          if 0 < nv then
            foldME (fun j st => do
              let vjk ← getE st.v (j * n + k)
              let v' ← setE st.v (j * n + k) (-vjk)
              pure { st with v := v' }) (List.range n) st
          else pure st
        else pure st) (List.range' kk0 cnt) st = Except.ok st' →
      (∀ i, i < n → n - kk0 ≤ i → 0 ≤ st.s.getD i 0) →
      (∀ i, i < n → 0 ≤ st'.s.getD i 0) ∧
      (st'.eps = st.eps ∧ st'.a = st.a ∧ st'.b = st.b ∧ st'.c = st.c) ∧
      (st.t.getD 0 0 = 0 → 0 ≤ st.eps → st'.t.getD 0 0 = 0) := by
  intro cnt
  induction cnt with
  | zero =>
    intro kk0 st st' hcnt h hpre
    simp only [List.range'] at h
    simp only [foldME_nil] at h
    simp at h
    subst h
    exact ⟨fun i hi => hpre i hi (by omega), ⟨rfl, rfl, rfl, rfl⟩, fun h0 _ => h0⟩
  | succ cnt ih =>
    intro kk0 st st' hcnt h hpre
    rw [List.range'_succ, foldME_cons] at h
    rcases bind_ok_elim h with ⟨st1, h1, h⟩
    have hk : n - 1 - kk0 < n := by omega
    have hst1 : (∀ i, i < n → n - (kk0 + 1) ≤ i → 0 ≤ st1.s.getD i 0) ∧
        (st1.eps = st.eps ∧ st1.a = st.a ∧ st1.b = st.b ∧ st1.c = st.c) ∧
        (st.t.getD 0 0 = 0 → 0 ≤ st.eps → st1.t.getD 0 0 = 0) := by
      dsimp only at h1
      rcases bind_ok_elim h1 with ⟨trip, hqr, h1⟩
      obtain ⟨st2, w2⟩ := trip
      dsimp only at h1
      have hqrp := qrInner_pres fuel (n - 1 - kk0) st st2 w2 hqr
      split at h1
      · next hw2 =>
        rcases bind_ok_elim h1 with ⟨s', hs', h1⟩
        have hs'e := setE_ok_elim hs'
        have hmid : ∀ (stf : St), stf.s = s' → stf.eps = st2.eps → stf.a = st2.a →
            stf.b = st2.b → stf.c = st2.c → stf.t = st2.t →
            (∀ i, i < n → n - (kk0 + 1) ≤ i → 0 ≤ stf.s.getD i 0) ∧
            (stf.eps = st.eps ∧ stf.a = st.a ∧ stf.b = st.b ∧ stf.c = st.c) ∧
            (st.t.getD 0 0 = 0 → 0 ≤ st.eps → stf.t.getD 0 0 = 0) := by
          intro stf hfs hfe hfa hfb hfc hft
          refine ⟨?_, ⟨hfe.trans hqrp.1.1, hfa.trans hqrp.1.2.1,
            hfb.trans hqrp.1.2.2.1, hfc.trans hqrp.1.2.2.2⟩, ?_⟩
          · intro i hi hge
            rw [hfs, hs'e.1]
            rcases Nat.eq_or_lt_of_le hge with he | hlt
            · have hik : i = n - 1 - kk0 := by omega
              rw [hik, getD_set_self hs'e.2]
              linarith
            · have hik : n - 1 - kk0 < i := by omega
              rw [getD_set_ne _ (by omega)]
              rw [hqrp.2.1 i hik]
              exact hpre i hi (by omega)
          · intro h0 heps
            rw [hft]
            exact hqrp.2.2.2 h0 heps
        split at h1
        · have hvf : st1.s = s' ∧ st1.eps = st2.eps ∧ st1.a = st2.a ∧ st1.b = st2.b ∧
              st1.c = st2.c ∧ st1.t = st2.t := by
            refine (foldME_inv (E := fun _ => True)
              (P := fun (s3 : St) => s3.s = s' ∧ s3.eps = st2.eps ∧ s3.a = st2.a ∧
                s3.b = st2.b ∧ s3.c = st2.c ∧ s3.t = st2.t) ?_ ?_).2 st1 h1
            · intro j _ s3 hs3
              refine ⟨fun _ _ => trivial, ?_⟩
              intro s4 h4
              rcases bind_ok_elim h4 with ⟨vjk, _, h4⟩
              rcases bind_ok_elim h4 with ⟨v', _, h4⟩
              rw [← pure_ok_elim h4]
              exact hs3
            · exact ⟨rfl, rfl, rfl, rfl, rfl, rfl⟩
          exact hmid st1 hvf.1 hvf.2.1 hvf.2.2.1 hvf.2.2.2.1 hvf.2.2.2.2.1 hvf.2.2.2.2.2
        · have h1' := pure_ok_elim h1
          subst h1'
          exact hmid _ rfl rfl rfl rfl rfl rfl
      · next hw2 =>
        have h1' := pure_ok_elim h1
        subst h1'
        refine ⟨?_, hqrp.1, hqrp.2.2.2⟩
        intro i hi hge
        rcases Nat.eq_or_lt_of_le hge with he | hlt
        · have hik : i = n - 1 - kk0 := by omega
          rw [hik, hqrp.2.2.1]
          linarith
        · have hik : n - 1 - kk0 < i := by omega
          rw [hqrp.2.1 i hik]
          exact hpre i hi (by omega)
    have hih := ih (kk0 + 1) st1 st' (by omega) h hst1.1
    refine ⟨hih.1, ⟨hih.2.1.1.trans hst1.2.1.1, hih.2.1.2.1.trans hst1.2.1.2.1,
      hih.2.1.2.2.1.trans hst1.2.1.2.2.1, hih.2.1.2.2.2.trans hst1.2.1.2.2.2⟩, ?_⟩
    intro h0 heps
    refine hih.2.2 (hst1.2.2 h0 heps) ?_
    rw [hst1.2.1.1]
    exact heps

theorem qrPhase_post {sq : ℚ → ℚ} {nu nv m n fuel : Nat} {st st' : St}
    (h : qrPhase sq nu nv m n fuel st = Except.ok st') :
    (∀ i, i < n → 0 ≤ st'.s.getD i 0) ∧
    (st'.eps = st.eps ∧ st'.a = st.a ∧ st'.b = st.b ∧ st'.c = st.c) ∧
    (st.t.getD 0 0 = 0 → 0 ≤ st.eps → st'.t.getD 0 0 = 0) := by
  unfold qrPhase at h
  nth_rewrite 2 [List.range_eq_range'] at h
  exact qrPhaseFold_post n 0 st st' (by omega) h (fun i hi hge => absurd hge (by omega))

theorem qrPhase_no_underflow {sq : ℚ → ℚ} {nu nv m n fuel : Nat} (st : St)
    (ht0 : st.t.getD 0 0 = 0) (heps : 0 ≤ st.eps) :
    ErrsIn (qrPhase sq nu nv m n fuel st) ENoUf := by
  unfold qrPhase
  refine (foldME_inv (E := ENoUf)
    (P := fun (s2 : St) => s2.t.getD 0 0 = 0 ∧ 0 ≤ s2.eps) ?_ ⟨ht0, heps⟩).1
  intro kk _ s2 hs2
  constructor
  · intro e he
    dsimp only at he
    rcases bind_err_elim he with h1 | ⟨trip, hqr, he⟩
    · exact qrInner_no_underflow fuel _ s2 hs2.1 hs2.2 e h1
    obtain ⟨st2, w2⟩ := trip
    dsimp only at he
    split at he
    · rcases bind_err_elim he with h1 | ⟨s', hs', he⟩
      · exact Or.inl (setE_err_elim h1)
      split at he
      · refine Or.inl (errsIn_foldME (E := EOob) ?_ e he)
        intro j _ s3
        apply errsIn_bind
        · exact oob_getE
        intro vjk
        apply errsIn_bind
        · exact oob_setE
        intro v'
        exact errsIn_pure
      · simp at he
    · simp at he
  · intro s3 h3
    dsimp only at h3
    rcases bind_ok_elim h3 with ⟨trip, hqr, h3⟩
    obtain ⟨st2, w2⟩ := trip
    dsimp only at h3
    have hqrp := qrInner_pres fuel (n - 1 - kk) s2 st2 w2 hqr
    have h2t0 : st2.t.getD 0 0 = 0 := hqrp.2.2.2 hs2.1 hs2.2
    have h2eps : 0 ≤ st2.eps := by rw [hqrp.1.1]; exact hs2.2
    split at h3
    · rcases bind_ok_elim h3 with ⟨s', hs', h3⟩
      split at h3
      · have hvf : s3.t = st2.t ∧ s3.eps = st2.eps := by
          refine (foldME_inv (E := fun _ => True)
            (P := fun (s4 : St) => s4.t = st2.t ∧ s4.eps = st2.eps) ?_ ?_).2 s3 h3
          · intro j _ s4 hs4
            refine ⟨fun _ _ => trivial, ?_⟩
            intro s5 h5
            rcases bind_ok_elim h5 with ⟨vjk, _, h5⟩
            rcases bind_ok_elim h5 with ⟨v', _, h5⟩
            rw [← pure_ok_elim h5]
            exact hs4
          · exact ⟨rfl, rfl⟩
        rw [hvf.1, hvf.2]
        exact ⟨h2t0, h2eps⟩
      · have h3' := pure_ok_elim h3
        have ht : s3.t = st2.t := by rw [← h3']
        have heq : s3.eps = st2.eps := by rw [← h3']
        rw [ht, heq]
        exact ⟨h2t0, h2eps⟩
    · have h3' := pure_ok_elim h3
      subst h3'
      exact ⟨h2t0, h2eps⟩

theorem argMaxFold_post {s : List ℚ} :
    ∀ (cnt e : Nat) (g0 : ℚ) (j0 : Nat) (g : ℚ) (j : Nat),
      foldME (fun i (gj : ℚ × Nat) => do
        let si ← getE s i
        if gj.1 < si then pure (si, i) else pure gj) (List.range' e cnt) (g0, j0) =
          Except.ok (g, j) →
      ((g = g0 ∧ j = j0) ∨ (s.getD j 0 = g ∧ e ≤ j ∧ j < e + cnt)) ∧ g0 ≤ g ∧
        (∀ i, e ≤ i → i < e + cnt → s.getD i 0 ≤ g) := by
  intro cnt
  induction cnt with
  | zero =>
    intro e g0 j0 g j h
    simp only [List.range'] at h
    simp only [foldME_nil] at h
    simp at h
    exact ⟨Or.inl ⟨h.1.symm, h.2.symm⟩, le_of_eq h.1, fun i h1 h2 => absurd h2 (by omega)⟩
  | succ cnt ih =>
    intro e g0 j0 g j h
    rw [List.range'_succ, foldME_cons] at h
    rcases bind_ok_elim h with ⟨gj1, hfe, h⟩
    rcases bind_ok_elim hfe with ⟨si, hsi, hstep⟩
    have hsie := getE_ok_elim hsi
    split at hstep
    · next hlt =>
      have hgj1 := pure_ok_elim hstep
      rw [← hgj1] at h
      have hih := ih (e + 1) si e g j h
      refine ⟨?_, le_trans (le_of_lt hlt) hih.2.1, ?_⟩
      · rcases hih.1 with ⟨hg, hj⟩ | ⟨h1, h2, h3⟩
        · exact Or.inr ⟨by rw [hj, hsie.2 0, hg], by omega, by omega⟩
        · exact Or.inr ⟨h1, by omega, by omega⟩
      · intro i h1 h2
        rcases Nat.eq_or_lt_of_le h1 with he | hlt2
        · rw [← he, hsie.2 0]
          exact hih.2.1
        · exact hih.2.2 i (by omega) (by omega)
    · next hge =>
      have hgj1 := pure_ok_elim hstep
      rw [← hgj1] at h
      have hih := ih (e + 1) g0 j0 g j h
      refine ⟨?_, hih.2.1, ?_⟩
      · rcases hih.1 with ⟨hg, hj⟩ | ⟨h1, h2, h3⟩
        · exact Or.inl ⟨hg, hj⟩
        · exact Or.inr ⟨h1, by omega, by omega⟩
      · intro i h1 h2
        rcases Nat.eq_or_lt_of_le h1 with he | hlt2
        · rw [← he, hsie.2 0]
          exact le_trans (not_lt.mp hge) hih.2.1
        · exact hih.2.2 i (by omega) (by omega)

theorem argMax_post {s : List ℚ} {k n : Nat} {g : ℚ} {j : Nat}
    (h : argMax s k n = Except.ok (g, j)) (hkn : k < n) (hk0 : (-1 : ℚ) < s.getD k 0) :
    (s.getD j 0 = g ∧ k ≤ j ∧ j < n) ∧ (∀ i, k ≤ i → i < n → s.getD i 0 ≤ g) := by
  unfold argMax at h
  have hp := argMaxFold_post (n - k) k (-1) k g j h
  have hcov : ∀ i, k ≤ i → i < n → s.getD i 0 ≤ g := by
    intro i h1 h2
    exact hp.2.2 i h1 (by omega)
  rcases hp.1 with ⟨hg, hj⟩ | ⟨h1, h2, h3⟩
  · exfalso
    have := hcov k (le_refl k) hkn
    rw [hg] at this
    linarith
  · exact ⟨⟨h1, h2, by omega⟩, hcov⟩

theorem foldME_ok_pres {α σ : Type} {body : α → σ → Comp σ} {l : List α} {st st' : σ}
    (P : σ → Prop)
    (hbody : ∀ x ∈ l, ∀ s, P s → ∀ s', body x s = Except.ok s' → P s')
    (hP : P st) (h : foldME body l st = Except.ok st') : P st' :=
  (foldME_inv (E := fun _ => True)
    (fun x hx s hs => ⟨fun _ _ => trivial, hbody x hx s hs⟩) hP).2 st' h

theorem sortFold_post {nu nv m n : Nat} :
    ∀ (cnt k0 : Nat) (st st' : St), k0 + cnt = n →
      foldME (fun k st => do
        let gj ← argMax st.s k n
        let g := gj.1
        let j := gj.2
        if j ≠ k then do
          let sk ← getE st.s k
          let s' ← setE st.s j sk
          let s'' ← setE s' k g
          let st := { st with s := s'' }
          let st ← if 0 < nv then
              foldME (fun i st => do
                let q ← getE st.v (i * n + j)
                let vik ← getE st.v (i * n + k)
                let v' ← setE st.v (i * n + j) vik
                let v'' ← setE v' (i * n + k) q
                pure { st with v := v'' }) (List.range n) st
            else pure st
          if 0 < nu then
            foldME (fun i st => do
              let q ← getE st.u (i * m + j)
              let uik ← getE st.u (i * m + k)
              let u' ← setE st.u (i * m + j) uik
              let u'' ← setE u' (i * m + k) q
              pure { st with u := u'' }) (List.range n) st
          else pure st
        else pure st) (List.range' k0 cnt) st = Except.ok st' →
      (∀ i, i < n → 0 ≤ st.s.getD i 0) →
      (∀ i j, i < k0 → i ≤ j → j < n → st.s.getD j 0 ≤ st.s.getD i 0) →
      st'.eps = st.eps ∧ (∀ i, i < n → 0 ≤ st'.s.getD i 0) ∧
        (∀ i j, i ≤ j → j < n → st'.s.getD j 0 ≤ st'.s.getD i 0) := by
  intro cnt
  induction cnt with
  | zero =>
    intro k0 st st' hkn h hInv1 hInv2
    simp only [List.range'] at h
    rw [foldME_nil] at h
    have hst := pure_ok_elim h
    subst hst
    exact ⟨rfl, hInv1, fun i j hij hjn => hInv2 i j (by omega) hij hjn⟩
  | succ cnt ih =>
    intro k0 st st' hkn h hInv1 hInv2
    rw [List.range'_succ, foldME_cons] at h
    rcases bind_ok_elim h with ⟨st1, hstep, hrest⟩
    dsimp only at hstep
    rcases bind_ok_elim hstep with ⟨gj, hgj, hstep⟩
    obtain ⟨g, j⟩ := gj
    dsimp only at hstep
    have hk0n : k0 < n := by omega
    have hargm := argMax_post hgj hk0n
      (lt_of_lt_of_le (by norm_num) (hInv1 k0 hk0n))
    obtain ⟨⟨hg, hk0j, hjn⟩, hcov⟩ := hargm
    split at hstep
    · next hne =>
      rcases bind_ok_elim hstep with ⟨sk, hsk, hstep⟩
      have hske := getE_ok_elim hsk
      rcases bind_ok_elim hstep with ⟨s1, hs1, hstep⟩
      have hs1e := setE_ok_elim hs1
      rcases bind_ok_elim hstep with ⟨s2, hs2, hstep⟩
      have hs2e := setE_ok_elim hs2
      have hufold : ∀ (y s4 : St), y.s = s2 → y.eps = st.eps →
          (if 0 < nu then
            foldME (fun i st => do
              let q ← getE st.u (i * m + j)
              let uik ← getE st.u (i * m + k0)
              let u' ← setE st.u (i * m + j) uik
              let u'' ← setE u' (i * m + k0) q
              pure { st with u := u'' }) (List.range n) y
          else pure y) = Except.ok s4 → s4.s = s2 ∧ s4.eps = st.eps := by
        intro y s4 hys hye h4
        split at h4
        · exact foldME_ok_pres (fun x => x.s = s2 ∧ x.eps = st.eps)
            (fun i _ s5 hs5 s6 h6 => by
              rcases bind_ok_elim h6 with ⟨q, _, h6⟩
              rcases bind_ok_elim h6 with ⟨uik, _, h6⟩
              rcases bind_ok_elim h6 with ⟨u1, _, h6⟩
              rcases bind_ok_elim h6 with ⟨u2, _, h6⟩
              have h7 := pure_ok_elim h6
              rw [← h7]
              exact hs5) ⟨hys, hye⟩ h4
        · have h7 := pure_ok_elim h4
          rw [← h7]
          exact ⟨hys, hye⟩
      have hswap : st1.s = s2 ∧ st1.eps = st.eps := by
        split at hstep
        · rcases bind_ok_elim hstep with ⟨y, hy, hstep⟩
          have hyP : y.s = s2 ∧ y.eps = st.eps :=
            foldME_ok_pres (fun x => x.s = s2 ∧ x.eps = st.eps)
              (fun i _ s5 hs5 s6 h6 => by
                rcases bind_ok_elim h6 with ⟨q, _, h6⟩
                rcases bind_ok_elim h6 with ⟨vik, _, h6⟩
                rcases bind_ok_elim h6 with ⟨v1, _, h6⟩
                rcases bind_ok_elim h6 with ⟨v2, _, h6⟩
                have h7 := pure_ok_elim h6
                rw [← h7]
                exact hs5) ⟨rfl, rfl⟩ hy
          exact hufold y st1 hyP.1 hyP.2 hstep
        · rcases bind_ok_elim hstep with ⟨y, hy, hstep⟩
          have hyP := pure_ok_elim hy
          exact hufold y st1 (by rw [← hyP]) (by rw [← hyP]) hstep
      have hst1s : st1.s = (st.s.set j sk).set k0 g := by
        rw [hswap.1, hs2e.1, hs1e.1]
      have hst1e : st1.eps = st.eps := hswap.2
      have hentry : ∀ p, st1.s.getD p 0 =
          if p = k0 then g else if p = j then sk else st.s.getD p 0 := by
        intro p
        rw [hst1s]
        by_cases hp1 : p = k0
        · subst hp1
          rw [if_pos rfl]
          have hlen : p < (st.s.set j sk).length := hs1e.1 ▸ hs2e.2
          exact getD_set_self hlen g 0
        · rw [if_neg hp1, getD_set_ne _ (fun hh => hp1 hh.symm) g 0]
          by_cases hp2 : p = j
          · subst hp2
            rw [if_pos rfl]
            exact getD_set_self hs1e.2 sk 0
          · rw [if_neg hp2, getD_set_ne _ (fun hh => hp2 hh.symm) sk 0]
      have hInv1' : ∀ p, p < n → 0 ≤ st1.s.getD p 0 := by
        intro p hpn
        rw [hentry p]
        split
        · rw [← hg]; exact hInv1 j hjn
        · split
          · rw [← hske.2 0]; exact hInv1 k0 hk0n
          · exact hInv1 p hpn
      have hInv2' : ∀ i p, i < k0 + 1 → i ≤ p → p < n →
          st1.s.getD p 0 ≤ st1.s.getD i 0 := by
        intro i p hik hip hpn
        rcases Nat.lt_or_ge i k0 with hi | hi
        · have hiv : st1.s.getD i 0 = st.s.getD i 0 := by
            rw [hentry i, if_neg (by omega), if_neg (by omega)]
          rw [hentry p, hiv]
          split
          · rw [← hg]; exact hInv2 i j hi (by omega) hjn
          · split
            · rw [← hske.2 0]; exact hInv2 i k0 hi (by omega) hk0n
            · exact hInv2 i p hi hip hpn
        · have hik0 : i = k0 := by omega
          subst hik0
          have hiv : st1.s.getD i 0 = g := by
            rw [hentry i, if_pos rfl]
          rw [hentry p, hiv]
          split
          · exact le_refl g
          · split
            · rw [← hske.2 0]; exact hcov i (le_refl i) hk0n
            · exact hcov p (by omega) hpn
      have hres := ih (k0 + 1) st1 st' (by omega) hrest hInv1' hInv2'
      exact ⟨hres.1.trans hst1e, hres.2.1, hres.2.2⟩
    · next hne =>
      have hst1 := pure_ok_elim hstep
      subst hst1
      have hjk : j = k0 := by omega
      have hInv2' : ∀ i p, i < k0 + 1 → i ≤ p → p < n →
          st.s.getD p 0 ≤ st.s.getD i 0 := by
        intro i p hik hip hpn
        rcases Nat.lt_or_ge i k0 with hi | hi
        · exact hInv2 i p hi hip hpn
        · have hik0 : i = k0 := by omega
          subst hik0
          calc st.s.getD p 0 ≤ g := hcov p (by omega) hpn
            _ = st.s.getD i 0 := by rw [← hg, hjk]
      exact ih (k0 + 1) st st' (by omega) hrest hInv1 hInv2'

theorem sortPhase_post {nu nv m n : Nat} {st st' : St}
    (h : sortPhase nu nv m n st = Except.ok st')
    (hInv1 : ∀ i, i < n → 0 ≤ st.s.getD i 0) :
    st'.eps = st.eps ∧ (∀ i, i < n → 0 ≤ st'.s.getD i 0) ∧
      (∀ i j, i ≤ j → j < n → st'.s.getD j 0 ≤ st'.s.getD i 0) := by
  unfold sortPhase at h
  nth_rewrite 3 [List.range_eq_range'] at h
  exact sortFold_post n 0 st st' (by omega) h hInv1
    (fun i j hi _ _ => absurd hi (by omega))

theorem backU_pres {sq : ℚ → ℚ} {nu m n : Nat} {st st' : St}
    (h : backU sq nu m n st = Except.ok st') : st'.s = st.s ∧ st'.eps = st.eps := by
  unfold backU at h
  split at h
  · refine foldME_ok_pres (fun x => x.s = st.s ∧ x.eps = st.eps) ?_ ⟨rfl, rfl⟩ h
    intro kk _ s2 hs2 s3 h3
    rcases bind_ok_elim h3 with ⟨bk, _, h3⟩
    split at h3
    · rcases bind_ok_elim h3 with ⟨akk, _, h3⟩
      rcases bind_ok_elim h3 with ⟨s25, h25, h3⟩
      have h25P : s25.s = st.s ∧ s25.eps = st.eps := by
        refine foldME_ok_pres (fun x => x.s = st.s ∧ x.eps = st.eps) ?_ hs2 h25
        intro j _ s4 hs4 s5 h5
        rcases bind_ok_elim h5 with ⟨ukj, _, h5⟩
        rcases bind_ok_elim h5 with ⟨u1, _, h5⟩
        have h6 := pure_ok_elim h5
        rw [← h6]
        exact hs4
      refine foldME_ok_pres (fun x => x.s = st.s ∧ x.eps = st.eps) ?_ h25P h3
      intro j _ s4 hs4 s5 h5
      rcases bind_ok_elim h5 with ⟨q, _, h5⟩
      rcases bind_ok_elim h5 with ⟨akk2, _, h5⟩
      refine foldME_ok_pres (fun x => x.s = st.s ∧ x.eps = st.eps) ?_ hs4 h5
      intro i _ s6 hs6 s7 h7
      rcases bind_ok_elim h7 with ⟨uij, _, h7⟩
      rcases bind_ok_elim h7 with ⟨aik, _, h7⟩
      rcases bind_ok_elim h7 with ⟨u1, _, h7⟩
      have h8 := pure_ok_elim h7
      rw [← h8]
      exact hs6
    · have h4 := pure_ok_elim h3
      rw [← h4]
      exact hs2
  · have h4 := pure_ok_elim h
    rw [← h4]
    exact ⟨rfl, rfl⟩

theorem backV_pres {sq : ℚ → ℚ} {nv m n : Nat} {st st' : St}
    (h : backV sq nv m n st = Except.ok st') : st'.s = st.s ∧ st'.eps = st.eps := by
  unfold backV at h
  split at h
  · split at h
    · refine foldME_ok_pres (fun x => x.s = st.s ∧ x.eps = st.eps) ?_ ⟨rfl, rfl⟩ h
      intro kk _ s2 hs2 s3 h3
      rcases bind_ok_elim h3 with ⟨ck1, _, h3⟩
      split at h3
      · rcases bind_ok_elim h3 with ⟨ak1, _, h3⟩
        rcases bind_ok_elim h3 with ⟨s25, h25, h3⟩
        have h25P : s25.s = st.s ∧ s25.eps = st.eps := by
          refine foldME_ok_pres (fun x => x.s = st.s ∧ x.eps = st.eps) ?_ hs2 h25
          intro j _ s4 hs4 s5 h5
          rcases bind_ok_elim h5 with ⟨x, _, h5⟩
          rcases bind_ok_elim h5 with ⟨v1, _, h5⟩
          have h6 := pure_ok_elim h5
          rw [← h6]
          exact hs4
        refine foldME_ok_pres (fun x => x.s = st.s ∧ x.eps = st.eps) ?_ h25P h3
        intro j _ s4 hs4 s5 h5
        rcases bind_ok_elim h5 with ⟨q, _, h5⟩
        rcases bind_ok_elim h5 with ⟨ak1b, _, h5⟩
        refine foldME_ok_pres (fun x => x.s = st.s ∧ x.eps = st.eps) ?_ hs4 h5
        intro i _ s6 hs6 s7 h7
        rcases bind_ok_elim h7 with ⟨vij, _, h7⟩
        rcases bind_ok_elim h7 with ⟨aki, _, h7⟩
        rcases bind_ok_elim h7 with ⟨v1, _, h7⟩
        have h8 := pure_ok_elim h7
        rw [← h8]
        exact hs6
      · have h4 := pure_ok_elim h3
        rw [← h4]
        exact hs2
    · have h4 := pure_ok_elim h
      rw [← h4]
      exact ⟨rfl, rfl⟩
  · have h4 := pure_ok_elim h
    rw [← h4]
    exact ⟨rfl, rfl⟩

/-- **C1.** For every call to `csvd` that returns `Ok`, the singular-value
vector on return satisfies `S[0] ≥ S[1] ≥ … ≥ S[N-1] ≥ 0`: every entry is
non-negative and the sequence is non-increasing. -/
theorem c1_singular_values_sorted (sq : ℚ → ℚ) (fuel : Nat) (a : List Cx)
    (mmax nmax n m p nu nv : Nat) (s : List ℚ) (u v : List Cx) (st' : St)
    (h : csvd sq fuel a mmax nmax n m p nu nv s u v = Except.ok st') :
    (∀ i, i < n → 0 ≤ st'.s.getD i 0) ∧
      (∀ i j, i ≤ j → j < n → st'.s.getD j 0 ≤ st'.s.getD i 0) := by
  unfold csvd at h
  split at h
  · simp at h
  split at h
  · simp at h
  split at h
  · simp at h
  split at h
  · simp at h
  rcases bind_ok_elim h with ⟨st1, h1, h⟩
  rcases bind_ok_elim h with ⟨st2, h2, h⟩
  rcases bind_ok_elim h with ⟨st3, h3, h⟩
  rcases bind_ok_elim h with ⟨st4, h4, h⟩
  rcases bind_ok_elim h with ⟨st5, h5, h⟩
  have hqr := (qrPhase_post h3).1
  have hsort := sortPhase_post h4 hqr
  have hbu := (backU_pres h5).1
  have hbv := (backV_pres h).1
  rw [hbv, hbu]
  exact ⟨hsort.2.1, hsort.2.2⟩

set_option maxHeartbeats 2000000 in
theorem c1_singular_values_sorted_witness :
    (∀ i, i < 1 → 0 ≤ (St.mk [⟨0,0⟩] [0] [⟨1,0⟩] [⟨1,0⟩]
      (List.replicate 150 0) (List.replicate 150 0) (List.replicate 150 0) 0).s.getD i 0) ∧
    (∀ i j, i ≤ j → j < 1 →
      (St.mk [⟨0,0⟩] [0] [⟨1,0⟩] [⟨1,0⟩]
        (List.replicate 150 0) (List.replicate 150 0) (List.replicate 150 0) 0).s.getD j 0 ≤
      (St.mk [⟨0,0⟩] [0] [⟨1,0⟩] [⟨1,0⟩]
        (List.replicate 150 0) (List.replicate 150 0) (List.replicate 150 0) 0).s.getD i 0) :=
  c1_singular_values_sorted (fun _ => 0) 1 [⟨0,0⟩] 1 1 1 1 0 1 1 [0] [⟨0,0⟩] [⟨0,0⟩] _
    (by norm_num [csvd, householder, colStep, rowStep, zcol, zrow, phase2Init, qrPhase,
      qrInner, qrConverge, splitScan, cancelInner, qrSweep, sortPhase, argMax, backU, backV,
      getE, setE, csub, foldME, NBIG, tol, eta, cabs, List.range_succ, List.range'_succ])

/-- **C10.** The `usize` subtraction `l - 1` in the QR phase never underflows:
`csvd` can never return the underflow panic, because `T[0] = 0` holds at every
split scan and `eps ≥ 0`, so the scan always exits by the `|T[l]| ≤ eps` test
at `l = 0` at the latest. -/
theorem c10_no_underflow (sq : ℚ → ℚ) (fuel : Nat) (a : List Cx)
    (mmax nmax n m p nu nv : Nat) (s : List ℚ) (u v : List Cx) :
    csvd sq fuel a mmax nmax n m p nu nv s u v ≠ Except.error CErr.underflow := by
  intro h
  unfold csvd at h
  by_cases hn1 : n < 1
  · rw [if_pos hn1] at h
    simp at h
  rw [if_neg hn1] at h
  by_cases hn2 : NBIG < n
  · rw [if_pos hn2] at h
    simp at h
  rw [if_neg hn2] at h
  by_cases hm1 : m < 1
  · rw [if_pos hm1] at h
    simp at h
  rw [if_neg hm1] at h
  by_cases hm2 : m < n
  · rw [if_pos hm2] at h
    simp at h
  rw [if_neg hm2] at h
  rcases bind_err_elim h with h1 | ⟨st1, h1, h⟩
  · have := householder_errs sq m n p _ CErr.underflow h1
    simp [EOob] at this
  rcases bind_err_elim h with h2 | ⟨st2, h2, h⟩
  · have := phase2Init_errs m n nu nv st1 CErr.underflow h2
    simp [EOob] at this
  have hpost := phase2Init_post h2
  have hhh := householder_pres h1
  have ht0 : st2.t.getD 0 0 = 0 := by
    rw [(hpost.2.2 0 (by omega)).2, hhh.2]
    exact getD_replicate_zero NBIG 0
  have heps : 0 ≤ st2.eps := by
    rw [hpost.2.1]
    apply mul_nonneg
    · exact foldl_max_le_init (fun k => st1.b.getD k 0 + st1.c.getD k 0) (List.range n) 0
    · norm_num [eta]
  rcases bind_err_elim h with h3 | ⟨st3, h3, h⟩
  · have := qrPhase_no_underflow st2 ht0 heps CErr.underflow h3
    simp [ENoUf] at this
  rcases bind_err_elim h with h4 | ⟨st4, h4, h⟩
  · have := sortPhase_errs nu nv m n st3 CErr.underflow h4
    simp [EOob] at this
  rcases bind_err_elim h with h5 | ⟨st5, h5, h⟩
  · have := backU_errs sq nu m n st4 CErr.underflow h5
    simp [EOob] at this
  have := backV_errs sq nv m n st5 CErr.underflow h
  simp [EOob] at this

theorem sortPhase_eps {nu nv m n : Nat} {st st' : St}
    (h : sortPhase nu nv m n st = Except.ok st') : st'.eps = st.eps := by
  unfold sortPhase at h
  refine foldME_ok_pres (fun x => x.eps = st.eps) ?_ rfl h
  intro k _ s2 hs2 s3 h3
  rcases bind_ok_elim h3 with ⟨gj, _, h3⟩
  obtain ⟨g, j⟩ := gj
  dsimp only at h3
  split at h3
  · rcases bind_ok_elim h3 with ⟨sk, _, h3⟩
    rcases bind_ok_elim h3 with ⟨s1, _, h3⟩
    rcases bind_ok_elim h3 with ⟨ss2, _, h3⟩
    have hufold : ∀ (y s4 : St), y.eps = st.eps →
        (if 0 < nu then
          foldME (fun i st => do
            let q ← getE st.u (i * m + j)
            let uik ← getE st.u (i * m + k)
            let u' ← setE st.u (i * m + j) uik
            let u'' ← setE u' (i * m + k) q
            pure { st with u := u'' }) (List.range n) y
        else pure y) = Except.ok s4 → s4.eps = st.eps := by
      intro y s4 hye h4
      split at h4
      · exact foldME_ok_pres (fun x => x.eps = st.eps)
          (fun i _ s5 hs5 s6 h6 => by
            rcases bind_ok_elim h6 with ⟨q, _, h6⟩
            rcases bind_ok_elim h6 with ⟨uik, _, h6⟩
            rcases bind_ok_elim h6 with ⟨u1, _, h6⟩
            rcases bind_ok_elim h6 with ⟨u2, _, h6⟩
            have h7 := pure_ok_elim h6
            rw [← h7]
            exact hs5) hye h4
      · have h7 := pure_ok_elim h4
        rw [← h7]
        exact hye
    split at h3
    · rcases bind_ok_elim h3 with ⟨y, hy, h3⟩
      have hyP : y.eps = st.eps :=
        foldME_ok_pres (fun x => x.eps = st.eps)
          (fun i _ s5 hs5 s6 h6 => by
            rcases bind_ok_elim h6 with ⟨q, _, h6⟩
            rcases bind_ok_elim h6 with ⟨vik, _, h6⟩
            rcases bind_ok_elim h6 with ⟨v1, _, h6⟩
            rcases bind_ok_elim h6 with ⟨v2, _, h6⟩
            have h7 := pure_ok_elim h6
            rw [← h7]
            exact hs5) hs2 hy
      exact hufold y s3 hyP h3
    · rcases bind_ok_elim h3 with ⟨y, hy, h3⟩
      have hyP := pure_ok_elim hy
      exact hufold y s3 (by rw [← hyP]; exact hs2) h3
  · have h4 := pure_ok_elim h3
    rw [← h4]
    exact hs2

/-- **C7.** The negligibility threshold is computed exactly once per call, as
`eps = (max over k in 0..N of S[k] + T[k]) * 1.1920929e-7` (with `S` copied
from `B` and `T` from `C`), and no later phase of the call ever rewrites or
rescales it: the QR phase, the sort phase and both back transformations
preserve `eps`, so every negligibility comparison in the QR phase uses this
single value. -/
theorem c7_single_threshold :
    eta = 11920929 / 100000000000000 ∧
    (∀ (m n nu nv : Nat) (st st' : St), phase2Init m n nu nv st = Except.ok st' →
      st'.eps = ((List.range n).foldl
        (fun acc k => max acc (st'.s.getD k 0 + st'.t.getD k 0)) 0) * eta) ∧
    (∀ (sq : ℚ → ℚ) (nu nv m n fuel : Nat) (st st' : St),
      qrPhase sq nu nv m n fuel st = Except.ok st' → st'.eps = st.eps) ∧
    (∀ (nu nv m n : Nat) (st st' : St),
      sortPhase nu nv m n st = Except.ok st' → st'.eps = st.eps) ∧
    (∀ (sq : ℚ → ℚ) (nu m n : Nat) (st st' : St),
      backU sq nu m n st = Except.ok st' → st'.eps = st.eps) ∧
    (∀ (sq : ℚ → ℚ) (nv m n : Nat) (st st' : St),
      backV sq nv m n st = Except.ok st' → st'.eps = st.eps) := by
  refine ⟨by norm_num [eta], ?_, ?_, ?_, ?_, ?_⟩
  · intro m n nu nv st st' h
    have hpost := phase2Init_post h
    rw [hpost.2.1]
    have hcong := foldl_max_congr (fun k => st'.s.getD k 0 + st'.t.getD k 0)
      (fun k => st.b.getD k 0 + st.c.getD k 0) (List.range n) 0
      (fun k hk => by
        have hkn : k < n := List.mem_range.mp hk
        show st'.s.getD k 0 + st'.t.getD k 0 = st.b.getD k 0 + st.c.getD k 0
        rw [(hpost.2.2 k hkn).1, (hpost.2.2 k hkn).2])
    rw [hcong]
  · intro sq nu nv m n fuel st st' h
    exact (qrPhase_post h).2.1.1
  · intro nu nv m n st st' h
    exact sortPhase_eps h
  · intro sq nu m n st st' h
    exact (backU_pres h).2
  · intro sq nv m n st st' h
    exact (backV_pres h).2

set_option maxHeartbeats 2000000 in
theorem c7_single_threshold_witness :
    (phase2Init 1 1 1 1 (St.mk [⟨0,0⟩] [0] [⟨0,0⟩] [⟨0,0⟩] (List.replicate 150 0)
        (List.replicate 150 0) (List.replicate 150 0) 0) =
      Except.ok (St.mk [⟨0,0⟩] [0] [⟨1,0⟩] [⟨1,0⟩] (List.replicate 150 0)
        (List.replicate 150 0) (List.replicate 150 0) 0)) ∧
    (St.mk [⟨0,0⟩] [0] [⟨1,0⟩] [⟨1,0⟩] (List.replicate 150 0) (List.replicate 150 0)
        (List.replicate 150 0) 0).eps =
      ((List.range 1).foldl (fun acc k =>
        max acc ((St.mk [⟨0,0⟩] [0] [⟨1,0⟩] [⟨1,0⟩] (List.replicate 150 0)
            (List.replicate 150 0) (List.replicate 150 0) 0).s.getD k 0 +
          (St.mk [⟨0,0⟩] [0] [⟨1,0⟩] [⟨1,0⟩] (List.replicate 150 0)
            (List.replicate 150 0) (List.replicate 150 0) 0).t.getD k 0)) 0) * eta :=
  have hrun : phase2Init 1 1 1 1 (St.mk [⟨0,0⟩] [0] [⟨0,0⟩] [⟨0,0⟩] (List.replicate 150 0)
      (List.replicate 150 0) (List.replicate 150 0) 0) =
      Except.ok (St.mk [⟨0,0⟩] [0] [⟨1,0⟩] [⟨1,0⟩] (List.replicate 150 0)
        (List.replicate 150 0) (List.replicate 150 0) 0) := by
    norm_num [phase2Init, getE, setE, foldME, NBIG, eta, List.range_succ, List.replicate_succ]
  ⟨hrun, c7_single_threshold.2.1 1 1 1 1 _ _ hrun⟩

theorem c10_no_underflow_witness :
    csvd (fun _ => 0) 1 [⟨0,0⟩] 1 1 1 1 0 1 1 [0] [⟨0,0⟩] [⟨0,0⟩] ≠
      Except.error CErr.underflow :=
  c10_no_underflow (fun _ => 0) 1 [⟨0,0⟩] 1 1 1 1 0 1 1 [0] [⟨0,0⟩] [⟨0,0⟩]

/-! Bounds analysis for the square configuration (claim C9).  `Steps c E P`
combines the error classification and the Ok postcondition of a computation. -/

def Steps {σ : Type} (c : Comp σ) (E : CErr → Prop) (P : σ → Prop) : Prop :=
  (∀ e, c = Except.error e → E e) ∧ (∀ s', c = Except.ok s' → P s')

theorem steps_pure {σ : Type} {a : σ} {E : CErr → Prop} {P : σ → Prop} (h : P a) :
    Steps (pure a) E P :=
  ⟨fun e he => by simp at he, fun s' hs => by rw [← pure_ok_elim hs]; exact h⟩

theorem steps_error {σ : Type} {e0 : CErr} {E : CErr → Prop} {P : σ → Prop} (h : E e0) :
    Steps (Except.error e0 : Comp σ) E P :=
  ⟨fun e he => by injection he with h1; rw [← h1]; exact h, fun s hs => by simp at hs⟩

theorem steps_bind {σ τ : Type} {x : Comp σ} {f : σ → Comp τ} {E : CErr → Prop}
    {Q : σ → Prop} {P : τ → Prop} (hx : Steps x E Q)
    (hf : ∀ a, Q a → Steps (f a) E P) : Steps (x >>= f) E P := by
  constructor
  · intro e he
    rcases bind_err_elim he with h1 | ⟨a, h1, h2⟩
    · exact hx.1 e h1
    · exact (hf a (hx.2 a h1)).1 e h2
  · intro s' hs
    rcases bind_ok_elim hs with ⟨a, h1, h2⟩
    exact (hf a (hx.2 a h1)).2 s' h2

theorem steps_getE {α σ : Type} {l : List α} {i : Nat} {f : α → Comp σ}
    {E : CErr → Prop} {P : σ → Prop} (h : i < l.length) (d : α)
    (hf : Steps (f (l.getD i d)) E P) : Steps (getE l i >>= f) E P := by
  rw [getE_ok_of_lt h d, ok_bind]
  exact hf

theorem steps_setE {α σ : Type} {l : List α} {i : Nat} {x : α} {f : List α → Comp σ}
    {E : CErr → Prop} {P : σ → Prop} (h : i < l.length)
    (hf : Steps (f (l.set i x)) E P) : Steps (setE l i x >>= f) E P := by
  rw [setE_ok_of_lt h x, ok_bind]
  exact hf

theorem steps_ite {σ : Type} (c : Prop) [Decidable c] {x y : Comp σ} {E : CErr → Prop}
    {P : σ → Prop} (hx : c → Steps x E P) (hy : ¬c → Steps y E P) :
    Steps (if c then x else y) E P := by
  split
  · next h => exact hx h
  · next h => exact hy h

theorem steps_foldME {α σ : Type} {body : α → σ → Comp σ} {l : List α} {st : σ}
    {E : CErr → Prop} {P : σ → Prop}
    (hbody : ∀ x ∈ l, ∀ s, P s → Steps (body x s) E P) (hP : P st) :
    Steps (foldME body l st) E P :=
  foldME_inv (fun x hx s hs => hbody x hx s hs) hP

theorem steps_weaken {σ : Type} {c : Comp σ} {E : CErr → Prop} {P Q : σ → Prop}
    (h : Steps c E P) (hPQ : ∀ s, P s → Q s) : Steps c E Q :=
  ⟨h.1, fun s' hs => hPQ s' (h.2 s' hs)⟩

/-- Errors other than an out-of-bounds slice index. -/
def ENoOob : CErr → Prop := fun e => e ≠ CErr.oob

/-- The buffer lengths of a valid square call: `A`, `U`, `V` hold `n * n`
elements, `S` holds `n`, and the work arrays are fixed at `NBIG`. -/
def LenSq (n : Nat) (st : St) : Prop :=
  st.a.length = n * n ∧ st.s.length = n ∧ st.u.length = n * n ∧ st.v.length = n * n ∧
  st.b.length = NBIG ∧ st.c.length = NBIG ∧ st.t.length = NBIG

theorem colStep_nooob {sq : ℚ → ℚ} {n k : Nat} {st : St} (hk : k < n)
    (hn : n ≤ 150) (hst : LenSq n st) :
    Steps (colStep sq n n 0 k st) ENoOob (LenSq n) := by
  obtain ⟨ha, hs, hu, hv, hb, hc, ht⟩ := hst
  unfold colStep
  have hz : Steps (zcol st.a n k) ENoOob (fun _ : ℚ => True) := by
    unfold zcol
    refine steps_foldME ?_ trivial
    intro i hi z _
    have hi' := List.mem_range'_1.mp hi
    refine steps_getE ?_ ⟨0, 0⟩ (steps_pure trivial)
    rw [ha]
    exact flat_lt (by omega) hk
  refine steps_bind hz (fun z _ => ?_)
  refine steps_setE (by rw [hb]; show k < 150; omega) ?_
  refine steps_ite _ (fun htol => ?_)
    (fun htol => steps_pure (by exact ⟨ha, hs, hu, hv, by simp [hb], hc, ht⟩))
  refine steps_setE (by simp [hb]; show k < 150; omega) ?_
  refine steps_getE (by rw [ha]; exact flat_lt hk hk) ⟨0, 0⟩ ?_
  refine steps_setE (by rw [ha]; exact flat_lt hk hk) ?_
  refine steps_ite _ (fun hne => ?_)
    (fun hne => steps_pure (by exact ⟨by simp [ha], hs, hu, hv, by simp [hb], hc, ht⟩))
  refine steps_bind (steps_foldME ?_ ?_ : Steps _ ENoOob (LenSq n)) (fun st4 hst4 => ?_)
  · intro j hj s2 hs2
    have hj' := List.mem_range'_1.mp hj
    obtain ⟨ha2, hs2', hu2, hv2, hb2, hc2, ht2⟩ := hs2
    have hq : Steps (foldME (fun i (q : Cx) => do
        let aik ← getE s2.a (i * n + k)
        let aij ← getE s2.a (i * n + j)
        pure (q + aik.conj * aij)) (List.range' k (n - k)) ⟨0, 0⟩)
        ENoOob (fun _ : Cx => True) := by
      refine steps_foldME ?_ trivial
      intro i hi qq _
      have hi' := List.mem_range'_1.mp hi
      refine steps_getE (by rw [ha2]; exact flat_lt (by omega) hk) ⟨0, 0⟩ ?_
      refine steps_getE (by rw [ha2]; exact flat_lt (by omega) (by omega)) ⟨0, 0⟩
        (steps_pure trivial)
    refine steps_bind hq (fun qq _ => ?_)
    refine steps_foldME ?_ ⟨ha2, hs2', hu2, hv2, hb2, hc2, ht2⟩
    intro i hi s3 hs3
    have hi' := List.mem_range'_1.mp hi
    obtain ⟨ha3, hs3', hu3, hv3, hb3, hc3, ht3⟩ := hs3
    refine steps_getE (by rw [ha3]; exact flat_lt (by omega) (by omega)) ⟨0, 0⟩ ?_
    refine steps_getE (by rw [ha3]; exact flat_lt (by omega) hk) ⟨0, 0⟩ ?_
    refine steps_setE (by rw [ha3]; exact flat_lt (by omega) (by omega)) ?_
    exact steps_pure ⟨by simp [ha3], hs3', hu3, hv3, hb3, hc3, ht3⟩
  · exact ⟨by simp [ha], hs, hu, hv, by simp [hb], hc, ht⟩
  · obtain ⟨ha4, hs4, hu4, hv4, hb4, hc4, ht4⟩ := hst4
    refine steps_getE (by rw [ha4]; exact flat_lt hk hk) ⟨0, 0⟩ ?_
    refine steps_foldME ?_ ⟨ha4, hs4, hu4, hv4, hb4, hc4, ht4⟩
    intro j hj s3 hs3
    have hj' := List.mem_range'_1.mp hj
    obtain ⟨ha3, hs3', hu3, hv3, hb3, hc3, ht3⟩ := hs3
    refine steps_getE (by rw [ha3]; exact flat_lt hk (by omega)) ⟨0, 0⟩ ?_
    refine steps_setE (by rw [ha3]; exact flat_lt hk (by omega)) ?_
    exact steps_pure ⟨by simp [ha3], hs3', hu3, hv3, hb3, hc3, ht3⟩

theorem rowStep_nooob {sq : ℚ → ℚ} {n k : Nat} {st : St} (hk1 : k + 1 < n)
    (hn : n ≤ 150) (hst : LenSq n st) :
    Steps (rowStep sq n n k st) ENoOob (LenSq n) := by
  obtain ⟨ha, hs, hu, hv, hb, hc, ht⟩ := hst
  unfold rowStep
  have hz : Steps (zrow st.a n n k (k + 1)) ENoOob (fun _ : ℚ => True) := by
    unfold zrow
    refine steps_foldME ?_ trivial
    intro j hj z _
    have hj' := List.mem_range'_1.mp hj
    refine steps_getE ?_ ⟨0, 0⟩ (steps_pure trivial)
    rw [ha]
    exact flat_lt (by omega) (by omega)
  refine steps_bind hz (fun z _ => ?_)
  refine steps_setE (by rw [hc]; show k + 1 < 150; omega) ?_
  refine steps_ite _ (fun htol => ?_)
    (fun htol => steps_pure (by exact ⟨ha, hs, hu, hv, hb, by simp [hc], ht⟩))
  refine steps_setE (by simp [hc]; show k + 1 < 150; omega) ?_
  refine steps_getE (by rw [ha]; exact flat_lt (by omega) hk1) ⟨0, 0⟩ ?_
  refine steps_setE (by rw [ha]; exact flat_lt (by omega) hk1) ?_
  refine steps_bind (steps_foldME ?_ ?_ : Steps _ ENoOob (LenSq n)) (fun st4 hst4 => ?_)
  · intro i hi s2 hs2
    have hi' := List.mem_range'_1.mp hi
    obtain ⟨ha2, hs2', hu2, hv2, hb2, hc2, ht2⟩ := hs2
    have hq : Steps (foldME (fun j (q : Cx) => do
        let akj ← getE s2.a (k * n + j)
        let aij ← getE s2.a (i * n + j)
        pure (q + akj.conj * aij)) (List.range' (k + 1) (n - (k + 1))) ⟨0, 0⟩)
        ENoOob (fun _ : Cx => True) := by
      refine steps_foldME ?_ trivial
      intro j hj qq _
      have hj' := List.mem_range'_1.mp hj
      refine steps_getE (by rw [ha2]; exact flat_lt (by omega) (by omega)) ⟨0, 0⟩ ?_
      refine steps_getE (by rw [ha2]; exact flat_lt (by omega) (by omega)) ⟨0, 0⟩
        (steps_pure trivial)
    refine steps_bind hq (fun qq _ => ?_)
    refine steps_foldME ?_ ⟨ha2, hs2', hu2, hv2, hb2, hc2, ht2⟩
    intro j hj s3 hs3
    have hj' := List.mem_range'_1.mp hj
    obtain ⟨ha3, hs3', hu3, hv3, hb3, hc3, ht3⟩ := hs3
    refine steps_getE (by rw [ha3]; exact flat_lt (by omega) (by omega)) ⟨0, 0⟩ ?_
    refine steps_getE (by rw [ha3]; exact flat_lt (by omega) (by omega)) ⟨0, 0⟩ ?_
    refine steps_setE (by rw [ha3]; exact flat_lt (by omega) (by omega)) ?_
    exact steps_pure ⟨by simp [ha3], hs3', hu3, hv3, hb3, hc3, ht3⟩
  · exact ⟨by simp [ha], hs, hu, hv, hb, by simp [hc], ht⟩
  · obtain ⟨ha4, hs4, hu4, hv4, hb4, hc4, ht4⟩ := hst4
    refine steps_getE (by rw [ha4]; exact flat_lt (by omega) hk1) ⟨0, 0⟩ ?_
    refine steps_foldME ?_ ⟨ha4, hs4, hu4, hv4, hb4, hc4, ht4⟩
    intro i hi s3 hs3
    have hi' := List.mem_range'_1.mp hi
    obtain ⟨ha3, hs3', hu3, hv3, hb3, hc3, ht3⟩ := hs3
    refine steps_getE (by rw [ha3]; exact flat_lt (by omega) hk1) ⟨0, 0⟩ ?_
    refine steps_setE (by rw [ha3]; exact flat_lt (by omega) hk1) ?_
    exact steps_pure ⟨by simp [ha3], hs3', hu3, hv3, hb3, hc3, ht3⟩

theorem householder_nooob {sq : ℚ → ℚ} {n : Nat} {st : St} (hn1 : 1 ≤ n)
    (hn : n ≤ 150) (hst : LenSq n st) :
    Steps (householder sq n n 0 st) ENoOob (LenSq n) := by
  obtain ⟨ha, hs, hu, hv, hb, hc, ht⟩ := hst
  unfold householder
  refine steps_setE (by rw [hc]; show 1 < 150; omega) ?_
  refine steps_foldME ?_ ⟨ha, hs, hu, hv, hb, by simp [hc], ht⟩
  intro k hk s2 hs2
  have hk' := List.mem_range.mp hk
  refine steps_bind (colStep_nooob hk' hn hs2) (fun s3 hs3 => ?_)
  refine steps_ite _ (fun heq => steps_pure hs3) (fun hne => ?_)
  exact rowStep_nooob (by omega) hn hs3

theorem phase2Init_nooob {n : Nat} {st : St} (hn : n ≤ 150) (hst : LenSq n st) :
    Steps (phase2Init n n n n st) ENoOob (LenSq n) := by
  obtain ⟨ha, hs, hu, hv, hb, hc, ht⟩ := hst
  unfold phase2Init
  refine steps_bind (steps_foldME ?_ ?_ : Steps _ ENoOob (LenSq n)) (fun st2 hst2 => ?_)
  · intro k hk s2 hs2
    have hk' := List.mem_range.mp hk
    obtain ⟨ha2, hs2', hu2, hv2, hb2, hc2, ht2⟩ := hs2
    refine steps_getE (by rw [hb2]; show k < 150; omega) 0 ?_
    refine steps_getE (by rw [hc2]; show k < 150; omega) 0 ?_
    refine steps_setE (by rw [hs2']; omega) ?_
    refine steps_setE (by rw [ht2]; show k < 150; omega) ?_
    exact steps_pure ⟨ha2, by simp [hs2'], hu2, hv2, hb2, hc2, by simp [ht2]⟩
  · exact ⟨ha, hs, hu, hv, hb, hc, by simp⟩
  · obtain ⟨ha2, hs2, hu2, hv2, hb2, hc2, ht2⟩ := hst2
    have hjp : ∀ (y : St), LenSq n y →
        Steps (if 0 < n then
          foldME (fun j st => do
            let st ← foldME (fun i st => do
              let v' ← setE st.v (i * n + j) (⟨0, 0⟩ : Cx)
              pure { st with v := v' }) (List.range n) st
            let v' ← setE st.v (j * n + j) (⟨1, 0⟩ : Cx)
            pure { st with v := v' }) (List.range n) y
        else pure y) ENoOob (LenSq n) := by
      intro y hy
      refine steps_ite _ (fun h0 => ?_) (fun h0 => steps_pure hy)
      refine steps_foldME ?_ hy
      intro j hj s3 hs3'
      have hj' := List.mem_range.mp hj
      obtain ⟨ha4, hs4, hu4, hv4, hb4, hc4, ht4⟩ := hs3'
      refine steps_bind (steps_foldME ?_ ?_ : Steps _ ENoOob (LenSq n)) (fun s4 hs5 => ?_)
      · intro i hi s5 hs6
        have hi' := List.mem_range.mp hi
        obtain ⟨ha5, hs5', hu5, hv5, hb5, hc5, ht5⟩ := hs6
        refine steps_setE (by rw [hv5]; exact flat_lt hi' hj') ?_
        exact steps_pure ⟨ha5, hs5', hu5, by simp [hv5], hb5, hc5, ht5⟩
      · exact ⟨ha4, hs4, hu4, hv4, hb4, hc4, ht4⟩
      · obtain ⟨ha5, hs5', hu5, hv5, hb5, hc5, ht5⟩ := hs5
        refine steps_setE (by rw [hv5]; exact flat_lt hj' hj') ?_
        exact steps_pure ⟨ha5, hs5', hu5, by simp [hv5], hb5, hc5, ht5⟩
    dsimp only
    refine steps_ite _ (fun h0 => ?_) (fun h0 => ?_)
    · refine steps_bind (steps_foldME ?_ ?_ : Steps _ ENoOob (LenSq n))
        (fun y hy => hjp y hy)
      · intro j hj s3 hs3'
        have hj' := List.mem_range.mp hj
        obtain ⟨ha4, hs4, hu4, hv4, hb4, hc4, ht4⟩ := hs3'
        refine steps_bind (steps_foldME ?_ ?_ : Steps _ ENoOob (LenSq n)) (fun s4 hs5 => ?_)
        · intro i hi s5 hs6
          have hi' := List.mem_range.mp hi
          obtain ⟨ha5, hs5', hu5, hv5, hb5, hc5, ht5⟩ := hs6
          refine steps_setE (by rw [hu5]; exact flat_lt hi' hj') ?_
          exact steps_pure ⟨ha5, hs5', by simp [hu5], hv5, hb5, hc5, ht5⟩
        · exact ⟨ha4, hs4, hu4, hv4, hb4, hc4, ht4⟩
        · obtain ⟨ha5, hs5', hu5, hv5, hb5, hc5, ht5⟩ := hs5
          refine steps_setE (by rw [hu5]; exact flat_lt hj' hj') ?_
          exact steps_pure ⟨ha5, hs5', by simp [hu5], hv5, hb5, hc5, ht5⟩
      · exact ⟨ha2, hs2, hu2, hv2, hb2, hc2, ht2⟩
    · exact steps_bind
        (steps_pure ⟨ha2, hs2, hu2, hv2, hb2, hc2, ht2⟩ :
          Steps (pure { st2 with eps := st2.eps * eta }) ENoOob (LenSq n))
        (fun y hy => hjp y hy)

theorem splitScan_nooob {n : Nat} {s t : List ℚ} {eps : ℚ} (hsl : s.length = n)
    (htl : t.length = NBIG) (hn : n ≤ 150) :
    ∀ l : Nat, l < n → Steps (splitScan s t eps l) ENoOob (fun l' => l' ≤ l) := by
  intro l
  induction l with
  | zero =>
    intro hl
    unfold splitScan
    refine steps_getE (by rw [htl]; show 0 < 150; omega) 0 ?_
    refine steps_ite _ (fun h0 => steps_pure (le_refl 0)) (fun h0 => ?_)
    refine steps_bind (⟨fun e he => ?_, fun a ha => ?_⟩ :
        Steps (csub 0 1) ENoOob (fun _ => False)) (fun a ha => absurd ha not_false)
    · have h2 := csub_err_elim he
      rw [h2]
      simp [ENoOob]
    · exact absurd (csub_ok_elim ha).2 (by omega)
  | succ l ih =>
    intro hl
    unfold splitScan
    refine steps_getE (by rw [htl]; show l + 1 < 150; omega) 0 ?_
    refine steps_ite _ (fun h0 => steps_pure (le_refl _)) (fun h0 => ?_)
    refine steps_getE (by rw [hsl]; omega) 0 ?_
    refine steps_ite _ (fun h1 => steps_pure (le_refl _)) (fun h1 => ?_)
    exact steps_weaken (ih (by omega)) (fun l' hl' => by omega)

theorem argMax_nooob {n k : Nat} {s : List ℚ} (hsl : s.length = n) (hk : k < n) :
    Steps (argMax s k n) ENoOob (fun gj => gj.2 < n) := by
  unfold argMax
  have h : Steps (foldME (fun i (gj : ℚ × Nat) => do
      let si ← getE s i
      if gj.1 < si then pure (si, i) else pure gj) (List.range' k (n - k)) (-1, k))
      ENoOob (fun gj => gj.2 < n) := by
    refine steps_foldME ?_ hk
    intro i hi gj hgj
    have hi' := List.mem_range'_1.mp hi
    refine steps_getE (by rw [hsl]; omega) 0 ?_
    refine steps_ite _ (fun h2 => steps_pure (by show i < n; omega)) (fun h2 => steps_pure hgj)
  exact h

theorem uFold2_nooob {n : Nat} {ix1 ix2 : Nat → Nat} {f g : Cx → Cx → Cx}
    (h1 : ∀ j, j < n → ix1 j < n * n) (h2 : ∀ j, j < n → ix2 j < n * n)
    {st : St} (hst : LenSq n st) :
    Steps (foldME (fun j st => do
      let x ← getE st.u (ix1 j)
      let y ← getE st.u (ix2 j)
      let u' ← setE st.u (ix1 j) (f x y)
      let u'' ← setE u' (ix2 j) (g x y)
      pure { st with u := u'' }) (List.range n) st) ENoOob (LenSq n) := by
  refine steps_foldME ?_ hst
  intro j hj s3 hs3
  have hj' := List.mem_range.mp hj
  obtain ⟨ha3, hs3', hu3, hv3, hb3, hc3, ht3⟩ := hs3
  refine steps_getE (by rw [hu3]; exact h1 j hj') ⟨0, 0⟩ ?_
  refine steps_getE (by rw [hu3]; exact h2 j hj') ⟨0, 0⟩ ?_
  refine steps_setE (by rw [hu3]; exact h1 j hj') ?_
  refine steps_setE (by simp [hu3]; exact h2 j hj') ?_
  exact steps_pure ⟨ha3, hs3', by simp [hu3], hv3, hb3, hc3, ht3⟩

theorem vFold2_nooob {n : Nat} {ix1 ix2 : Nat → Nat} {f g : Cx → Cx → Cx}
    (h1 : ∀ j, j < n → ix1 j < n * n) (h2 : ∀ j, j < n → ix2 j < n * n)
    {st : St} (hst : LenSq n st) :
    Steps (foldME (fun j st => do
      let x ← getE st.v (ix1 j)
      let y ← getE st.v (ix2 j)
      let v' ← setE st.v (ix1 j) (f x y)
      let v'' ← setE v' (ix2 j) (g x y)
      pure { st with v := v'' }) (List.range n) st) ENoOob (LenSq n) := by
  refine steps_foldME ?_ hst
  intro j hj s3 hs3
  have hj' := List.mem_range.mp hj
  obtain ⟨ha3, hs3', hu3, hv3, hb3, hc3, ht3⟩ := hs3
  refine steps_getE (by rw [hv3]; exact h1 j hj') ⟨0, 0⟩ ?_
  refine steps_getE (by rw [hv3]; exact h2 j hj') ⟨0, 0⟩ ?_
  refine steps_setE (by rw [hv3]; exact h1 j hj') ?_
  refine steps_setE (by simp [hv3]; exact h2 j hj') ?_
  exact steps_pure ⟨ha3, hs3', hu3, by simp [hv3], hb3, hc3, ht3⟩

theorem cancelInner_nooob {sq : ℚ → ℚ} {n : Nat} {eps : ℚ} {l1 : Nat} (hl1 : l1 < n)
    (hn : n ≤ 150) :
    ∀ (is : List Nat), (∀ i ∈ is, i < n) → ∀ (cs sn : ℚ) (st : St), LenSq n st →
      Steps (cancelInner sq n n n eps l1 is cs sn st) ENoOob (LenSq n) := by
  intro is
  induction is with
  | nil =>
    intro _ cs sn st hst
    unfold cancelInner
    exact steps_pure hst
  | cons i rest ih =>
    intro hmem cs sn st hst
    obtain ⟨ha, hs, hu, hv, hb, hc, ht⟩ := hst
    have hi : i < n := hmem i (List.mem_cons_self i rest)
    unfold cancelInner
    refine steps_getE (by rw [ht]; show i < 150; omega) 0 ?_
    refine steps_setE (by rw [ht]; show i < 150; omega) ?_
    refine steps_ite _ (fun h0 => steps_pure ⟨ha, hs, hu, hv, hb, hc, by simp [ht]⟩)
      (fun h0 => ?_)
    refine steps_getE (by rw [hs]; omega) 0 ?_
    refine steps_setE (by rw [hs]; omega) ?_
    dsimp only
    refine steps_ite _ (fun h1 => ?_) (fun h1 => ?_)
    · refine steps_bind (?_ : Steps _ ENoOob (LenSq n))
        (fun s2 hs2 => ih (fun j hj => hmem j (List.mem_cons_of_mem i hj)) _ _ s2 hs2)
      exact uFold2_nooob (fun j hj => flat_lt hj hl1) (fun j hj => flat_lt hj hi)
        ⟨ha, by simp [hs], hu, hv, hb, hc, by simp [ht]⟩
    · refine steps_bind (?_ : Steps _ ENoOob (LenSq n))
        (fun s2 hs2 => ih (fun j hj => hmem j (List.mem_cons_of_mem i hj)) _ _ s2 hs2)
      exact steps_pure ⟨ha, by simp [hs], hu, hv, hb, hc, by simp [ht]⟩

theorem qrSweep_nooob {sq : ℚ → ℚ} {n : Nat} (hn : n ≤ 150) :
    ∀ (is : List Nat), (∀ i ∈ is, i < n) → ∀ (cs sn f x : ℚ) (st : St), LenSq n st →
      Steps (qrSweep sq n n n n is cs sn f x st) ENoOob
        (fun r : St × ℚ × ℚ => LenSq n r.1) := by
  intro is
  induction is with
  | nil =>
    intro _ cs sn f x st hst
    unfold qrSweep
    exact steps_pure hst
  | cons i rest ih =>
    intro hmem cs sn f x st hst
    obtain ⟨ha, hs, hu, hv, hb, hc, ht⟩ := hst
    have hi : i < n := hmem i (List.mem_cons_self i rest)
    unfold qrSweep
    refine steps_getE (by rw [ht]; show i < 150; omega) 0 ?_
    refine steps_getE (by rw [hs]; omega) 0 ?_
    refine steps_setE (by rw [ht]; show i - 1 < 150; omega) ?_
    dsimp only
    refine steps_ite _ (fun h0 => ?_) (fun h0 => ?_)
    · refine steps_bind (?_ : Steps _ ENoOob (LenSq n)) (fun s2 hs2 => ?_)
      · exact vFold2_nooob
          (fun j hj => lt_of_le_of_lt (Nat.sub_le _ 1) (flat_lt hj hi))
          (fun j hj => flat_lt hj hi) ⟨ha, hs, hu, hv, hb, hc, by simp [ht]⟩
      · obtain ⟨ha2, hs2', hu2, hv2, hb2, hc2, ht2⟩ := hs2
        refine steps_setE (by rw [hs2']; omega) ?_
        dsimp only
        refine steps_ite _ (fun h1 => ?_) (fun h1 => ?_)
        · refine steps_bind (?_ : Steps _ ENoOob (LenSq n))
            (fun s3 hs3 => ih (fun j hj => hmem j (List.mem_cons_of_mem i hj)) _ _ _ _ s3 hs3)
          exact uFold2_nooob
            (fun j hj => lt_of_le_of_lt (Nat.sub_le _ 1) (flat_lt hj hi))
            (fun j hj => flat_lt hj hi) ⟨ha2, by simp [hs2'], hu2, hv2, hb2, hc2, ht2⟩
        · refine steps_bind (?_ : Steps _ ENoOob (LenSq n))
            (fun s3 hs3 => ih (fun j hj => hmem j (List.mem_cons_of_mem i hj)) _ _ _ _ s3 hs3)
          exact steps_pure ⟨ha2, by simp [hs2'], hu2, hv2, hb2, hc2, ht2⟩
    · refine steps_bind (?_ : Steps _ ENoOob (LenSq n)) (fun s2 hs2 => ?_)
      · exact steps_pure ⟨ha, hs, hu, hv, hb, hc, by simp [ht]⟩
      · obtain ⟨ha2, hs2', hu2, hv2, hb2, hc2, ht2⟩ := hs2
        refine steps_setE (by rw [hs2']; omega) ?_
        dsimp only
        refine steps_ite _ (fun h1 => ?_) (fun h1 => ?_)
        · refine steps_bind (?_ : Steps _ ENoOob (LenSq n))
            (fun s3 hs3 => ih (fun j hj => hmem j (List.mem_cons_of_mem i hj)) _ _ _ _ s3 hs3)
          exact uFold2_nooob
            (fun j hj => lt_of_le_of_lt (Nat.sub_le _ 1) (flat_lt hj hi))
            (fun j hj => flat_lt hj hi) ⟨ha2, by simp [hs2'], hu2, hv2, hb2, hc2, ht2⟩
        · refine steps_bind (?_ : Steps _ ENoOob (LenSq n))
            (fun s3 hs3 => ih (fun j hj => hmem j (List.mem_cons_of_mem i hj)) _ _ _ _ s3 hs3)
          exact steps_pure ⟨ha2, by simp [hs2'], hu2, hv2, hb2, hc2, ht2⟩

theorem qrConverge_nooob {sq : ℚ → ℚ} {n k l : Nat} (hk : k < n) (hl : l ≤ k)
    (hn : n ≤ 150) {rec : St → Comp (St × ℚ)}
    (hrec : ∀ stm, LenSq n stm → Steps (rec stm) ENoOob (fun r : St × ℚ => LenSq n r.1))
    (st : St) (hst : LenSq n st) :
    Steps (qrConverge sq n n n n k l rec st) ENoOob (fun r : St × ℚ => LenSq n r.1) := by
  have h7 := hst
  obtain ⟨ha, hs, hu, hv, hb, hc, ht⟩ := h7
  unfold qrConverge
  refine steps_getE (by rw [hs]; omega) 0 ?_
  refine steps_ite _ (fun h0 => steps_pure hst) (fun h0 => ?_)
  refine steps_getE (by rw [hs]; omega) 0 ?_
  refine steps_getE (by rw [hs]; omega) 0 ?_
  refine steps_getE (by rw [ht]; show k - 1 < 150; omega) 0 ?_
  refine steps_getE (by rw [ht]; show k < 150; omega) 0 ?_
  refine steps_bind (qrSweep_nooob hn (List.range' (l + 1) (k - l))
    (fun i hi => by have := List.mem_range'_1.mp hi; omega) 1 1 _ _ st hst)
    (fun r hr => ?_)
  obtain ⟨s2, f2, x2⟩ := r
  obtain ⟨ha2, hs2, hu2, hv2, hb2, hc2, ht2⟩ := hr
  refine steps_setE (by rw [ht2]; show l < 150; omega) ?_
  refine steps_setE (by simp [ht2]; show k < 150; omega) ?_
  refine steps_setE (by rw [hs2]; omega) ?_
  exact hrec _ ⟨ha2, by simp [hs2], hu2, hv2, hb2, hc2, by simp [ht2]⟩

theorem qrInner_nooob {sq : ℚ → ℚ} {n : Nat} (hn : n ≤ 150) :
    ∀ (fu k : Nat), k < n → ∀ st, LenSq n st →
      Steps (qrInner sq n n n n fu k st) ENoOob (fun r : St × ℚ => LenSq n r.1) := by
  intro fu
  induction fu with
  | zero =>
    intro k hk st hst
    unfold qrInner
    exact steps_error (by simp [ENoOob])
  | succ fu ih =>
    intro k hk st hst
    have h7 := hst
    obtain ⟨ha, hs, hu, hv, hb, hc, ht⟩ := h7
    unfold qrInner
    refine steps_bind (splitScan_nooob hs ht hn k hk) (fun l hl => ?_)
    refine steps_getE (by rw [ht]; show l < 150; omega) 0 ?_
    have hjp : ∀ (y : St), LenSq n y →
        Steps (qrConverge sq n n n n k l (qrInner sq n n n n fu k) y) ENoOob
          (fun r : St × ℚ => LenSq n r.1) :=
      fun y hy => qrConverge_nooob hk hl hn (fun stm hstm => ih k hk stm hstm) y hy
    dsimp only
    refine steps_ite _ (fun h0 => ?_) (fun h0 => ?_)
    · exact steps_bind (steps_pure hst : Steps _ ENoOob (LenSq n)) (fun y hy => hjp y hy)
    · have hcsub : Steps (csub l 1) ENoOob (fun l1 => l1 < n) :=
        ⟨fun e he => by rw [csub_err_elim he]; simp [ENoOob],
         fun a ha2 => by have := csub_ok_elim ha2; omega⟩
      refine steps_bind hcsub (fun l1 hl1 => ?_)
      refine steps_getE (by rw [hs]; omega) 0 ?_
      refine steps_ite _ (fun h1 => ?_) (fun h1 => ?_)
      · exact steps_bind (cancelInner_nooob hl1 hn (List.range' l (k + 1 - l))
          (fun i hi => by have := List.mem_range'_1.mp hi; omega) 0 1 st hst)
          (fun y hy => hjp y hy)
      · exact steps_bind (steps_pure hst : Steps _ ENoOob (LenSq n)) (fun y hy => hjp y hy)

theorem qrPhase_nooob {sq : ℚ → ℚ} {n fuel : Nat} (hn1 : 1 ≤ n) (hn : n ≤ 150)
    {st : St} (hst : LenSq n st) :
    Steps (qrPhase sq n n n n fuel st) ENoOob (LenSq n) := by
  unfold qrPhase
  refine steps_foldME ?_ hst
  intro kk hkk s2 hs2
  refine steps_bind (qrInner_nooob hn fuel (n - 1 - kk) (by omega) s2 hs2) (fun r hr => ?_)
  obtain ⟨s3, w⟩ := r
  have h7 := hr
  obtain ⟨ha, hs, hu, hv, hb, hc, ht⟩ := h7
  refine steps_ite _ (fun h0 => ?_) (fun h0 => steps_pure hr)
  refine steps_setE (by rw [hs]; omega) ?_
  refine steps_ite _ (fun h1 => ?_)
    (fun h1 => steps_pure ⟨ha, by simp [hs], hu, hv, hb, hc, ht⟩)
  refine steps_foldME ?_ ⟨ha, by simp [hs], hu, hv, hb, hc, ht⟩
  intro j hj s4 hs4
  have hj' := List.mem_range.mp hj
  obtain ⟨ha4, hs4', hu4, hv4, hb4, hc4, ht4⟩ := hs4
  refine steps_getE (by rw [hv4]; exact flat_lt hj' (by omega)) ⟨0, 0⟩ ?_
  refine steps_setE (by rw [hv4]; exact flat_lt hj' (by omega)) ?_
  exact steps_pure ⟨ha4, hs4', hu4, by simp [hv4], hb4, hc4, ht4⟩

theorem sortPhase_nooob {n : Nat} {st : St} (hn : n ≤ 150) (hst : LenSq n st) :
    Steps (sortPhase n n n n st) ENoOob (LenSq n) := by
  unfold sortPhase
  refine steps_foldME ?_ hst
  intro k hk s2 hs2
  have hk' := List.mem_range.mp hk
  have h7 := hs2
  obtain ⟨ha, hs, hu, hv, hb, hc, ht⟩ := h7
  refine steps_bind (argMax_nooob hs hk') (fun gj hgj => ?_)
  refine steps_ite _ (fun hne => ?_) (fun hne => steps_pure hs2)
  refine steps_getE (by rw [hs]; omega) 0 ?_
  refine steps_setE (by rw [hs]; omega) ?_
  refine steps_setE (by simp [hs]; omega) ?_
  have hrest : ∀ (y : St), LenSq n y →
      Steps (if 0 < n then
        foldME (fun i st => do
          let q ← getE st.u (i * n + gj.2)
          let uik ← getE st.u (i * n + k)
          let u' ← setE st.u (i * n + gj.2) uik
          let u'' ← setE u' (i * n + k) q
          pure { st with u := u'' }) (List.range n) y
      else pure y) ENoOob (LenSq n) := by
    intro y hy
    refine steps_ite _ (fun h1 => ?_) (fun h1 => steps_pure hy)
    exact uFold2_nooob (fun j hj => flat_lt hj hgj) (fun j hj => flat_lt hj hk') hy
  dsimp only
  refine steps_ite _ (fun h0 => ?_) (fun h0 => ?_)
  · refine steps_bind (?_ : Steps _ ENoOob (LenSq n)) (fun y hy => hrest y hy)
    exact vFold2_nooob (fun j hj => flat_lt hj hgj) (fun j hj => flat_lt hj hk')
      ⟨ha, by simp [hs], hu, hv, hb, hc, ht⟩
  · refine steps_bind (?_ : Steps _ ENoOob (LenSq n)) (fun y hy => hrest y hy)
    exact steps_pure ⟨ha, by simp [hs], hu, hv, hb, hc, ht⟩

theorem backU_nooob {sq : ℚ → ℚ} {n : Nat} (hn : n ≤ 150) {st : St} (hst : LenSq n st) :
    Steps (backU sq n n n st) ENoOob (LenSq n) := by
  unfold backU
  refine steps_ite _ (fun h0 => ?_) (fun h0 => steps_pure hst)
  refine steps_foldME ?_ hst
  intro kk hkk s2 hs2
  have h7 := hs2
  obtain ⟨ha, hs, hu, hv, hb, hc, ht⟩ := h7
  have hk : n - 1 - kk < n := by have := List.mem_range.mp hkk; omega
  refine steps_getE (by rw [hb]; show n - 1 - kk < 150; omega) 0 ?_
  refine steps_ite _ (fun h1 => ?_) (fun h1 => steps_pure hs2)
  refine steps_getE (by rw [ha]; exact flat_lt hk hk) ⟨0, 0⟩ ?_
  refine steps_bind (steps_foldME ?_ ?_ : Steps _ ENoOob (LenSq n)) (fun s3 hs3 => ?_)
  · intro j hj s4 hs4
    have hj' := List.mem_range.mp hj
    obtain ⟨ha4, hs4', hu4, hv4, hb4, hc4, ht4⟩ := hs4
    refine steps_getE (by rw [hu4]; exact flat_lt hk hj') ⟨0, 0⟩ ?_
    refine steps_setE (by rw [hu4]; exact flat_lt hk hj') ?_
    exact steps_pure ⟨ha4, hs4', by simp [hu4], hv4, hb4, hc4, ht4⟩
  · exact hs2
  · refine steps_foldME ?_ hs3
    intro j hj s4 hs4
    have hj' := List.mem_range.mp hj
    have h8 := hs4
    obtain ⟨ha4, hs4', hu4, hv4, hb4, hc4, ht4⟩ := h8
    have hq : Steps (foldME (fun i (q : Cx) => do
        let aik ← getE s4.a (i * n + (n - 1 - kk))
        let uij ← getE s4.u (i * n + j)
        pure (q + aik.conj * uij))
        (List.range' (n - 1 - kk) (n - (n - 1 - kk))) ⟨0, 0⟩)
        ENoOob (fun _ : Cx => True) := by
      refine steps_foldME ?_ trivial
      intro i hi qq _
      have hi' := List.mem_range'_1.mp hi
      refine steps_getE (by rw [ha4]; exact flat_lt (by omega) hk) ⟨0, 0⟩ ?_
      refine steps_getE (by rw [hu4]; exact flat_lt (by omega) hj') ⟨0, 0⟩
        (steps_pure trivial)
    refine steps_bind hq (fun qq _ => ?_)
    refine steps_getE (by rw [ha4]; exact flat_lt hk hk) ⟨0, 0⟩ ?_
    refine steps_foldME ?_ hs4
    intro i hi s5 hs5
    have hi' := List.mem_range'_1.mp hi
    obtain ⟨ha5, hs5', hu5, hv5, hb5, hc5, ht5⟩ := hs5
    refine steps_getE (by rw [hu5]; exact flat_lt (by omega) hj') ⟨0, 0⟩ ?_
    refine steps_getE (by rw [ha5]; exact flat_lt (by omega) hk) ⟨0, 0⟩ ?_
    refine steps_setE (by rw [hu5]; exact flat_lt (by omega) hj') ?_
    exact steps_pure ⟨ha5, hs5', by simp [hu5], hv5, hb5, hc5, ht5⟩

theorem backV_nooob {sq : ℚ → ℚ} {n : Nat} (hn : n ≤ 150) {st : St} (hst : LenSq n st) :
    Steps (backV sq n n n st) ENoOob (LenSq n) := by
  unfold backV
  refine steps_ite _ (fun h0 => ?_) (fun h0 => steps_pure hst)
  refine steps_ite _ (fun h01 => ?_) (fun h01 => steps_pure hst)
  refine steps_foldME ?_ hst
  intro kk hkk s2 hs2
  have h7 := hs2
  obtain ⟨ha, hs, hu, hv, hb, hc, ht⟩ := h7
  have hkk' := List.mem_range'_1.mp hkk
  have hk1 : n - 1 - kk + 1 < n := by omega
  have hk : n - 1 - kk < n := by omega
  refine steps_getE (by rw [hc]; show n - 1 - kk + 1 < 150; omega) 0 ?_
  refine steps_ite _ (fun h1 => ?_) (fun h1 => steps_pure hs2)
  refine steps_getE (by rw [ha]; exact flat_lt hk hk1) ⟨0, 0⟩ ?_
  refine steps_bind (steps_foldME ?_ ?_ : Steps _ ENoOob (LenSq n)) (fun s3 hs3 => ?_)
  · intro j hj s4 hs4
    have hj' := List.mem_range.mp hj
    obtain ⟨ha4, hs4', hu4, hv4, hb4, hc4, ht4⟩ := hs4
    refine steps_getE (by rw [hv4]; exact flat_lt hk1 hj') ⟨0, 0⟩ ?_
    refine steps_setE (by rw [hv4]; exact flat_lt hk1 hj') ?_
    exact steps_pure ⟨ha4, hs4', hu4, by simp [hv4], hb4, hc4, ht4⟩
  · exact hs2
  · refine steps_foldME ?_ hs3
    intro j hj s4 hs4
    have hj' := List.mem_range.mp hj
    have h8 := hs4
    obtain ⟨ha4, hs4', hu4, hv4, hb4, hc4, ht4⟩ := h8
    have hq : Steps (foldME (fun i (q : Cx) => do
        let aki ← getE s4.a ((n - 1 - kk) * n + i)
        let vij ← getE s4.v (i * n + j)
        pure (q + aki * vij))
        (List.range' (n - 1 - kk + 1) (n - (n - 1 - kk + 1))) ⟨0, 0⟩)
        ENoOob (fun _ : Cx => True) := by
      refine steps_foldME ?_ trivial
      intro i hi qq _
      have hi' := List.mem_range'_1.mp hi
      refine steps_getE (by rw [ha4]; exact flat_lt hk (by omega)) ⟨0, 0⟩ ?_
      refine steps_getE (by rw [hv4]; exact flat_lt (by omega) hj') ⟨0, 0⟩
        (steps_pure trivial)
    refine steps_bind hq (fun qq _ => ?_)
    refine steps_getE (by rw [ha4]; exact flat_lt hk hk1) ⟨0, 0⟩ ?_
    refine steps_foldME ?_ hs4
    intro i hi s5 hs5
    have hi' := List.mem_range'_1.mp hi
    obtain ⟨ha5, hs5', hu5, hv5, hb5, hc5, ht5⟩ := hs5
    refine steps_getE (by rw [hv5]; exact flat_lt (by omega) hj') ⟨0, 0⟩ ?_
    refine steps_getE (by rw [ha5]; exact flat_lt hk (by omega)) ⟨0, 0⟩ ?_
    refine steps_setE (by rw [hv5]; exact flat_lt (by omega) hj') ?_
    exact steps_pure ⟨ha5, hs5', hu5, by simp [hv5], hb5, hc5, ht5⟩

theorem getE_err_of_le {α : Type} {l : List α} {i : Nat} (h : l.length ≤ i) :
    getE l i = Except.error CErr.oob := by
  unfold getE
  rw [dif_neg (by omega)]

theorem comp_ok_of_no_err {σ : Type} {c : Comp σ} (h : ∀ e, c = Except.error e → False) :
    ∃ a, c = Except.ok a := by
  cases c with
  | ok a => exact ⟨a, rfl⟩
  | error e => exact absurd rfl (h e)

theorem zcol_nonsquare_oob {a : List Cx} {m n : Nat} (hn1 : 1 ≤ n) (hnm : n < m)
    (ha : a.length = m * n) : zcol a m 0 = Except.error CErr.oob := by
  unfold zcol
  have hsplit : List.range' 0 (m - 0) = List.range' 0 n ++ List.range' n (m - n) := by
    have h := List.range'_append 0 n (m - n) 1
    simp at h
    rw [h]
    congr 1
    omega
  rw [hsplit, foldME_append]
  have hfst : Steps (foldME (fun i z => do
      let x ← getE a (i * m + 0)
      pure (z + x.re ^ 2 + x.im ^ 2)) (List.range' 0 n) (0 : ℚ))
      (fun _ => False) (fun _ : ℚ => True) := by
    refine steps_foldME ?_ trivial
    intro i hi z _
    have hi' := List.mem_range'_1.mp hi
    refine steps_getE ?_ ⟨0, 0⟩ (steps_pure trivial)
    rw [ha, Nat.mul_comm m n]
    exact flat_lt (by omega) (by omega)
  obtain ⟨z0, hz0⟩ := comp_ok_of_no_err hfst.1
  rw [hz0, ok_bind]
  have hcons : List.range' n (m - n) = n :: List.range' (n + 1) (m - n - 1) := by
    obtain ⟨d, hd⟩ : ∃ d, m - n = d + 1 := ⟨m - n - 1, by omega⟩
    rw [hd, List.range'_succ]
    simp
  rw [hcons, foldME_cons]
  have hget : getE a (n * m + 0) = Except.error CErr.oob := by
    apply getE_err_of_le
    rw [ha, Nat.add_zero, Nat.mul_comm m n]
  rw [hget]
  rfl

theorem csvd_nonsquare_oob (sq : ℚ → ℚ) (fuel : Nat) (a : List Cx) (mmax nmax n m : Nat)
    (s : List ℚ) (u v : List Cx) (hn1 : 1 ≤ n) (hn : n ≤ 150) (hnm : n < m)
    (ha : a.length = m * n) :
    csvd sq fuel a mmax nmax n m 0 n n s u v = Except.error CErr.oob := by
  unfold csvd
  rw [if_neg (by omega), if_neg (by simp [NBIG]; omega), if_neg (by omega),
    if_neg (by omega)]
  have hh : householder sq m n 0
      ⟨a, s, u, v, List.replicate NBIG 0, List.replicate NBIG 0, List.replicate NBIG 0, 0⟩ =
      Except.error CErr.oob := by
    unfold householder
    rw [setE_ok_of_lt (by simp [NBIG]) (0 : ℚ), ok_bind]
    have hr : List.range n = 0 :: List.range' 1 (n - 1) := by
      rw [List.range_eq_range']
      obtain ⟨n', rfl⟩ : ∃ n', n = n' + 1 := ⟨n - 1, by omega⟩
      rw [List.range'_succ]
      simp
    rw [hr, foldME_cons]
    dsimp only
    have hcol : colStep sq m n 0 0
        ⟨a, s, u, v, List.replicate NBIG 0, (List.replicate NBIG (0 : ℚ)).set 1 0,
          List.replicate NBIG 0, 0⟩ = Except.error CErr.oob := by
      unfold colStep
      dsimp only
      rw [zcol_nonsquare_oob hn1 hnm ha]
      rfl
    rw [hcol]
    rfl
  show (householder sq m n 0 ⟨a, s, u, v, List.replicate NBIG 0, List.replicate NBIG 0,
      List.replicate NBIG 0, 0⟩ >>= fun st =>
    phase2Init m n n n st >>= fun st =>
    qrPhase sq n n m n fuel st >>= fun st =>
    sortPhase n n m n st >>= fun st =>
    backU sq n m n st >>= fun st =>
    backV sq n m n st) = Except.error CErr.oob
  rw [hh]
  rfl

theorem csvd_square_nooob (sq : ℚ → ℚ) (fuel : Nat) (a : List Cx) (mmax nmax n : Nat)
    (s : List ℚ) (u v : List Cx) (hn1 : 1 ≤ n) (hn : n ≤ 150)
    (ha : a.length = n * n) (hsl : s.length = n) (hul : u.length = n * n)
    (hvl : v.length = n * n) :
    ErrsIn (csvd sq fuel a mmax nmax n n 0 n n s u v) ENoOob := by
  intro e he
  unfold csvd at he
  rw [if_neg (by omega), if_neg (by simp [NBIG]; omega), if_neg (by omega),
    if_neg (by omega)] at he
  have hst0 : LenSq n (⟨a, s, u, v, List.replicate NBIG 0, List.replicate NBIG 0,
      List.replicate NBIG 0, 0⟩ : St) := ⟨ha, hsl, hul, hvl, by simp, by simp, by simp⟩
  exact (steps_bind (householder_nooob hn1 hn hst0) (fun s1 h1 =>
    steps_bind (phase2Init_nooob hn h1) (fun s2 h2 =>
    steps_bind (qrPhase_nooob hn1 hn h2) (fun s3 h3 =>
    steps_bind (sortPhase_nooob hn h3) (fun s4 h4 =>
    steps_bind (backU_nooob hn h4) (fun s5 h5 =>
    backV_nooob hn h5)))))).1 e he

/-- **C9.** `csvd` addresses the `M×N` matrix `A` by flat index `i*M + k`
(row stride `M`, the row count): with buffers of the documented sizes every
slice access is in bounds iff `M = N`.  Part (a): for every square call
(`M = N`, `P = 0`, `NU = NV = N`, `A`, `U`, `V` of `N·N` elements, `S` of `N`)
no run, however long (any fuel), returns the out-of-bounds panic.  Part (b):
for every call with `M > N` and `A` of exactly `M·N` elements, the run
returns the out-of-bounds panic, raised in the first column-norm loop. -/
theorem c9_stride_bounds :
    (∀ (sq : ℚ → ℚ) (fuel : Nat) (a : List Cx) (mmax nmax n : Nat) (s : List ℚ)
        (u v : List Cx), 1 ≤ n → n ≤ 150 → a.length = n * n → s.length = n →
        u.length = n * n → v.length = n * n →
        ∀ e, csvd sq fuel a mmax nmax n n 0 n n s u v = Except.error e →
          e ≠ CErr.oob) ∧
    (∀ (sq : ℚ → ℚ) (fuel : Nat) (a : List Cx) (mmax nmax n m : Nat) (s : List ℚ)
        (u v : List Cx), 1 ≤ n → n ≤ 150 → n < m → a.length = m * n →
        csvd sq fuel a mmax nmax n m 0 n n s u v = Except.error CErr.oob) := by
  constructor
  · intro sq fuel a mmax nmax n s u v hn1 hn ha hsl hul hvl e he
    exact csvd_square_nooob sq fuel a mmax nmax n s u v hn1 hn ha hsl hul hvl e he
  · intro sq fuel a mmax nmax n m s u v hn1 hn hnm ha
    exact csvd_nonsquare_oob sq fuel a mmax nmax n m s u v hn1 hn hnm ha

theorem c9_stride_bounds_witness :
    ((∀ e, csvd (fun _ => 0) 1 [⟨0, 0⟩] 1 1 1 1 0 1 1 [0] [⟨0, 0⟩] [⟨0, 0⟩] =
        Except.error e → e ≠ CErr.oob) ∧
      csvd (fun _ => 0) 1 [⟨0, 0⟩, ⟨0, 0⟩] 1 1 1 2 0 1 1 [0] [⟨0, 0⟩] [⟨0, 0⟩] =
        Except.error CErr.oob) ∧
    ((1 : Nat) ≤ 1 ∧ [(⟨0, 0⟩ : Cx)].length = 1 * 1 ∧ [(0 : ℚ)].length = 1 ∧
      (1 : Nat) < 2 ∧ [(⟨0, 0⟩ : Cx), ⟨0, 0⟩].length = 2 * 1) :=
  ⟨⟨c9_stride_bounds.1 (fun _ => 0) 1 [⟨0, 0⟩] 1 1 1 [0] [⟨0, 0⟩] [⟨0, 0⟩]
      (by omega) (by omega) rfl rfl rfl rfl,
    c9_stride_bounds.2 (fun _ => 0) 1 [⟨0, 0⟩, ⟨0, 0⟩] 1 1 1 2 [0] [⟨0, 0⟩] [⟨0, 0⟩]
      (by omega) (by omega) (by omega) rfl⟩,
   by omega, rfl, rfl, by omega, rfl⟩

end Csvd
